import Mathlib

/-!
Shallow embedding of the craigpy incremental code-indexing core
(Merkle snapshot, differ, file filter, chunker family, ingest pipeline)
and proofs about it.

Strings are modelled by Lean `String`; Python string comparison (by Unicode
code point) is modelled by an explicit lexicographic order over `String.data`.
Python float thresholds (`token_target * 1.2` etc.) are modelled as exact
rational comparisons, scaled to integer arithmetic.
-/

namespace Craigpy

/-! ### Lexicographic string order (Python `<` on `str` compares code points) -/

/-- Lexicographic strict order on char lists by code point, as Python compares strings. -/
def lexLt : List Char → List Char → Bool
  | [], [] => false
  | [], _ :: _ => true
  | _ :: _, [] => false
  | a :: as, b :: bs =>
    if a.toNat < b.toNat then true
    else if b.toNat < a.toNat then false
    else lexLt as bs

/-- Non-strict lexicographic order on strings by code point. -/
def strLe (a b : String) : Bool := !(lexLt b.data a.data)

theorem lexLt_irrefl (l : List Char) : lexLt l l = false := by
  induction l with
  | nil => rfl
  | cons a as ih => simp [lexLt, ih]

theorem lexLt_cons (x y : Char) (xs ys : List Char) :
    lexLt (x :: xs) (y :: ys) =
      if x.toNat < y.toNat then true
      else if y.toNat < x.toNat then false
      else lexLt xs ys := rfl

theorem lexLt_trans {a b c : List Char} (h₁ : lexLt a b = true) (h₂ : lexLt b c = true) :
    lexLt a c = true := by
  induction a generalizing b c with
  | nil =>
    cases c with
    | nil =>
      cases b with
      | nil => exact h₁
      | cons y ys => simp [lexLt] at h₂
    | cons z zs => simp [lexLt]
  | cons x xs ih =>
    cases b with
    | nil => simp [lexLt] at h₁
    | cons y ys =>
      cases c with
      | nil => simp [lexLt] at h₂
      | cons z zs =>
        rw [lexLt_cons] at h₁ h₂ ⊢
        rcases Nat.lt_trichotomy x.toNat y.toNat with hxy | hxy | hxy
        · rcases Nat.lt_trichotomy y.toNat z.toNat with hyz | hyz | hyz
          · rw [if_pos (Nat.lt_trans hxy hyz)]
          · rw [if_pos (hyz ▸ hxy)]
          · rw [if_neg (Nat.lt_asymm hyz), if_pos hyz] at h₂
            exact absurd h₂ (by simp)
        · rcases Nat.lt_trichotomy y.toNat z.toNat with hyz | hyz | hyz
          · rw [if_pos (hxy ▸ hyz)]
          · rw [if_neg (by omega : ¬ x.toNat < z.toNat),
              if_neg (by omega : ¬ z.toNat < x.toNat)]
            rw [if_neg (by omega : ¬ x.toNat < y.toNat),
              if_neg (by omega : ¬ y.toNat < x.toNat)] at h₁
            rw [if_neg (by omega : ¬ y.toNat < z.toNat),
              if_neg (by omega : ¬ z.toNat < y.toNat)] at h₂
            exact ih h₁ h₂
          · rw [if_neg (Nat.lt_asymm hyz), if_pos hyz] at h₂
            exact absurd h₂ (by simp)
        · rw [if_neg (Nat.lt_asymm hxy), if_pos hxy] at h₁
          exact absurd h₁ (by simp)

theorem lexLt_antisymm {a b : List Char} (h₁ : lexLt a b = false) (h₂ : lexLt b a = false) :
    a = b := by
  induction a generalizing b with
  | nil =>
    cases b with
    | nil => rfl
    | cons y ys => simp [lexLt] at h₁
  | cons x xs ih =>
    cases b with
    | nil => simp [lexLt] at h₂
    | cons y ys =>
      rw [lexLt_cons] at h₁ h₂
      rcases Nat.lt_trichotomy x.toNat y.toNat with hxy | hxy | hxy
      · rw [if_pos hxy] at h₁
        exact absurd h₁ (by simp)
      · have hx : x = y := Char.ext (UInt32.ext hxy)
        rw [if_neg (by omega : ¬ x.toNat < y.toNat),
          if_neg (by omega : ¬ y.toNat < x.toNat)] at h₁
        rw [if_neg (by omega : ¬ y.toNat < x.toNat),
          if_neg (by omega : ¬ x.toNat < y.toNat)] at h₂
        rw [hx, ih h₁ h₂]
      · rw [if_pos hxy] at h₂
        exact absurd h₂ (by simp)

theorem strLe_total (a b : String) : strLe a b = true ∨ strLe b a = true := by
  unfold strLe
  by_cases h : lexLt b.data a.data = true
  · right
    by_cases h' : lexLt a.data b.data = true
    · exact absurd (lexLt_trans h h') (by simp [lexLt_irrefl])
    · simp [Bool.not_eq_true] at h'
      simp [h']
  · left
    simp [Bool.not_eq_true] at h
    simp [h]

theorem strLe_trans {a b c : String} (h₁ : strLe a b = true) (h₂ : strLe b c = true) :
    strLe a c = true := by
  unfold strLe at *
  simp only [Bool.not_eq_true'] at h₁ h₂ ⊢
  by_contra hac
  simp only [Bool.not_eq_false] at hac
  by_cases hba : lexLt b.data a.data = true
  · rw [h₁] at hba; exact Bool.noConfusion hba
  · by_cases hcb : lexLt c.data b.data = true
    · rw [h₂] at hcb; exact Bool.noConfusion hcb
    · simp only [Bool.not_eq_true] at hba hcb
      -- from ¬ b<a and ¬ c<b and c<a derive a contradiction
      by_cases hab : lexLt a.data b.data = true
      · -- a<b and c<a gives c<b
        have := lexLt_trans hac hab
        rw [hcb] at this; exact Bool.noConfusion this
      · simp only [Bool.not_eq_true] at hab
        have hEq : a.data = b.data := lexLt_antisymm hab hba
        rw [hEq] at hac
        rw [hcb] at hac; exact Bool.noConfusion hac

/-- The relational form of `strLe`, used to state sortedness. -/
def strLeR (a b : String) : Prop := strLe a b = true

instance : DecidableRel strLeR := fun _ _ => decEq _ _

instance : IsTotal String strLeR := ⟨strLe_total⟩

instance : IsTrans String strLeR := ⟨fun _ _ _ => strLe_trans⟩

/-- Python `list.sort()` on a list of strings: the `strLe`-sorted permutation. -/
def pySortStrs (l : List String) : List String := List.insertionSort strLeR l

theorem pySortStrs_sorted (l : List String) : List.Sorted strLeR (pySortStrs l) :=
  List.sorted_insertionSort strLeR l

theorem pySortStrs_perm (l : List String) : (pySortStrs l).Perm l :=
  List.perm_insertionSort strLeR l

theorem mem_pySortStrs {l : List String} {a : String} : a ∈ pySortStrs l ↔ a ∈ l :=
  (pySortStrs_perm l).mem_iff

/-! ### Association-list lookup (Python `dict` access on unique keys) -/

/-- First-match lookup in an association list; models Python `dict[key]` /
`key in dict` for dicts built with unique keys. -/
def alookup {β : Type} : List (String × β) → String → Option β
  | [], _ => none
  | (k, v) :: rest, key => if k = key then some v else alookup rest key

theorem alookup_eq_none {β : Type} {l : List (String × β)} {key : String} :
    alookup l key = none ↔ key ∉ l.map Prod.fst := by
  induction l with
  | nil => simp [alookup]
  | cons kv rest ih =>
    obtain ⟨k, v⟩ := kv
    by_cases h : k = key
    · subst h; simp [alookup]
    · simp [alookup, h, ih, Ne.symm h]

theorem alookup_mem {β : Type} {l : List (String × β)} {key : String} {v : β}
    (h : alookup l key = some v) : (key, v) ∈ l := by
  induction l with
  | nil => simp [alookup] at h
  | cons kv rest ih =>
    obtain ⟨k, w⟩ := kv
    by_cases hk : k = key
    · subst hk
      simp [alookup] at h
      simp [h]
    · simp [alookup, hk] at h
      simp [ih h]

theorem alookup_of_mem {β : Type} {l : List (String × β)} {key : String} {v : β}
    (hnd : (l.map Prod.fst).Nodup) (h : (key, v) ∈ l) : alookup l key = some v := by
  induction l with
  | nil => simp at h
  | cons kv rest ih =>
    obtain ⟨k, w⟩ := kv
    simp only [List.map_cons, List.nodup_cons] at hnd
    rcases List.mem_cons.mp h with h' | h'
    · rw [Prod.mk.injEq] at h'
      obtain ⟨h1, h2⟩ := h'
      simp [alookup, h1.symm, h2]
    · have hk : k ≠ key := by
        intro hEq
        exact hnd.1 (hEq ▸ (List.mem_map.mpr ⟨(key, v), h', rfl⟩))
      simp [alookup, hk, ih hnd.2 h']

theorem alookup_isSome {β : Type} {l : List (String × β)} {key : String} :
    (alookup l key).isSome = true ↔ key ∈ l.map Prod.fst := by
  rcases h : alookup l key with _ | v
  · simp [alookup_eq_none.mp h]
  · simp
    exact ⟨v, alookup_mem h⟩

/-! ### Differ (src/craigpy/indexer/differ.py) -/

/-- A stored Merkle node row, as returned by `queries.get_merkle_nodes`. -/
structure MerkleRow where
  node_path : String
  node_hash : String
  is_directory : Bool
deriving DecidableEq

/-- `differ.Changeset` — result of comparing stored vs current file state. -/
structure Changeset where
  added : List String
  modified : List String
  deleted : List String
deriving DecidableEq

/-- `Changeset.has_changes`. -/
def Changeset.has_changes (c : Changeset) : Bool :=
  !(c.added.isEmpty && c.modified.isEmpty && c.deleted.isEmpty)

/-- `Changeset.total`. -/
def Changeset.total (c : Changeset) : Nat :=
  c.added.length + c.modified.length + c.deleted.length

/-- The `stored_files` dict built inside `compute_changeset`: the non-directory
rows of the stored merkle nodes as (node_path, node_hash) pairs. -/
def stored_files (rows : List MerkleRow) : List (String × String) :=
  (rows.filter (fun r => !r.is_directory)).map (fun r => (r.node_path, r.node_hash))

/-- `differ.compute_changeset`, with the repository's stored merkle rows passed
in place of the database connection. `current` is the `current_file_hashes`
dict as an insertion-ordered association list. -/
def compute_changeset (stored : List MerkleRow) (current : List (String × String)) :
    Changeset :=
  let sf := stored_files stored
  let added := (current.filter (fun pc => (alookup sf pc.1).isNone)).map Prod.fst
  let modified := (current.filter (fun pc =>
      match alookup sf pc.1 with
      | none => false
      | some h => h != pc.2)).map Prod.fst
  let deleted := (sf.filter (fun ph => (alookup current ph.1).isNone)).map Prod.fst
  { added := pySortStrs added
    modified := pySortStrs modified
    deleted := pySortStrs deleted }

theorem mem_map_fst_filter {β : Type} {l : List (String × β)} {f : String × β → Bool}
    {p : String} :
    p ∈ (l.filter f).map Prod.fst ↔ ∃ v, (p, v) ∈ l ∧ f (p, v) = true := by
  constructor
  · intro h
    rcases List.mem_map.mp h with ⟨⟨k, v⟩, hm, hk⟩
    rcases List.mem_filter.mp hm with ⟨hmem, hf⟩
    cases hk
    exact ⟨v, hmem, hf⟩
  · rintro ⟨v, hmem, hf⟩
    exact List.mem_map.mpr ⟨(p, v), List.mem_filter.mpr ⟨hmem, hf⟩, rfl⟩

theorem compute_changeset_added_iff {stored : List MerkleRow}
    {current : List (String × String)} {p : String} :
    p ∈ (compute_changeset stored current).added ↔
      p ∈ current.map Prod.fst ∧ p ∉ (stored_files stored).map Prod.fst := by
  show p ∈ pySortStrs _ ↔ _
  rw [mem_pySortStrs, mem_map_fst_filter]
  constructor
  · rintro ⟨v, hmem, hf⟩
    rw [Option.isNone_iff_eq_none, alookup_eq_none] at hf
    exact ⟨List.mem_map.mpr ⟨(p, v), hmem, rfl⟩, hf⟩
  · rintro ⟨hmem, habs⟩
    rcases List.mem_map.mp hmem with ⟨⟨k, v⟩, hkv, hk⟩
    cases hk
    exact ⟨v, hkv, by rw [Option.isNone_iff_eq_none, alookup_eq_none]; exact habs⟩

theorem compute_changeset_modified_iff {stored : List MerkleRow}
    {current : List (String × String)} {p : String}
    (hsf : ((stored_files stored).map Prod.fst).Nodup) :
    p ∈ (compute_changeset stored current).modified ↔
      ∃ hc hs, (p, hc) ∈ current ∧ (p, hs) ∈ stored_files stored ∧ hs ≠ hc := by
  show p ∈ pySortStrs _ ↔ _
  rw [mem_pySortStrs, mem_map_fst_filter]
  constructor
  · rintro ⟨v, hmem, hf⟩
    rcases hlk : alookup (stored_files stored) p with _ | h
    · rw [hlk] at hf; simp at hf
    · rw [hlk] at hf
      simp only [bne_iff_ne, ne_eq] at hf
      exact ⟨v, h, hmem, alookup_mem hlk, hf⟩
  · rintro ⟨hc, hs, hmemc, hmems, hne⟩
    refine ⟨hc, hmemc, ?_⟩
    rw [alookup_of_mem hsf hmems]
    simp [hne]

theorem compute_changeset_deleted_iff {stored : List MerkleRow}
    {current : List (String × String)} {p : String} :
    p ∈ (compute_changeset stored current).deleted ↔
      p ∈ (stored_files stored).map Prod.fst ∧ p ∉ current.map Prod.fst := by
  show p ∈ pySortStrs _ ↔ _
  rw [mem_pySortStrs, mem_map_fst_filter]
  constructor
  · rintro ⟨v, hmem, hf⟩
    rw [Option.isNone_iff_eq_none, alookup_eq_none] at hf
    exact ⟨List.mem_map.mpr ⟨(p, v), hmem, rfl⟩, hf⟩
  · rintro ⟨hmem, habs⟩
    rcases List.mem_map.mp hmem with ⟨⟨k, v⟩, hkv, hk⟩
    cases hk
    exact ⟨v, hkv, by rw [Option.isNone_iff_eq_none, alookup_eq_none]; exact habs⟩

/-- C1: for every stored set of Merkle file leaves and every current mapping of
relative path to content hash, `compute_changeset` returns exactly: added = paths
in the current mapping but not among the stored (non-directory) leaves; modified =
paths in both whose stored hash differs from the current hash; deleted = paths
among the stored leaves but not in the current mapping. Each of the three lists is
sorted lexicographically and they are pairwise disjoint. The stored leaves have
unique paths, as guaranteed by the (repo_id, node_path) uniqueness of the store. -/
theorem compute_changeset_correct (stored : List MerkleRow)
    (current : List (String × String))
    (hsf : ((stored_files stored).map Prod.fst).Nodup) :
    (∀ p, p ∈ (compute_changeset stored current).added ↔
        p ∈ current.map Prod.fst ∧ p ∉ (stored_files stored).map Prod.fst) ∧
    (∀ p, p ∈ (compute_changeset stored current).modified ↔
        ∃ hc hs, (p, hc) ∈ current ∧ (p, hs) ∈ stored_files stored ∧ hs ≠ hc) ∧
    (∀ p, p ∈ (compute_changeset stored current).deleted ↔
        p ∈ (stored_files stored).map Prod.fst ∧ p ∉ current.map Prod.fst) ∧
    List.Sorted strLeR (compute_changeset stored current).added ∧
    List.Sorted strLeR (compute_changeset stored current).modified ∧
    List.Sorted strLeR (compute_changeset stored current).deleted ∧
    (∀ p, p ∈ (compute_changeset stored current).added →
        p ∉ (compute_changeset stored current).modified) ∧
    (∀ p, p ∈ (compute_changeset stored current).added →
        p ∉ (compute_changeset stored current).deleted) ∧
    (∀ p, p ∈ (compute_changeset stored current).modified →
        p ∉ (compute_changeset stored current).deleted) := by
  refine ⟨fun p => compute_changeset_added_iff,
    fun p => compute_changeset_modified_iff hsf,
    fun p => compute_changeset_deleted_iff,
    pySortStrs_sorted _, pySortStrs_sorted _, pySortStrs_sorted _, ?_, ?_, ?_⟩
  · intro p ha hm
    rcases (compute_changeset_modified_iff hsf).mp hm with ⟨hc, hs, _, hmems, _⟩
    exact (compute_changeset_added_iff.mp ha).2 (List.mem_map.mpr ⟨(p, hs), hmems, rfl⟩)
  · intro p ha hd
    exact (compute_changeset_added_iff.mp ha).2 (compute_changeset_deleted_iff.mp hd).1
  · intro p hm hd
    rcases (compute_changeset_modified_iff hsf).mp hm with ⟨hc, hs, hmemc, _, _⟩
    exact (compute_changeset_deleted_iff.mp hd).2 (List.mem_map.mpr ⟨(p, hc), hmemc, rfl⟩)

/-- Witness for C1 at a concrete stored tree and current mapping: `a.py` modified,
`c.ts` added, `b.go` deleted. -/
theorem compute_changeset_correct_witness :
    ((stored_files [⟨"a.py", "h1", false⟩, ⟨"b.go", "h2", false⟩, ⟨".", "d0", true⟩]).map
        Prod.fst).Nodup ∧
    (∀ p, p ∈ (compute_changeset
        [⟨"a.py", "h1", false⟩, ⟨"b.go", "h2", false⟩, ⟨".", "d0", true⟩]
        [("a.py", "h1x"), ("c.ts", "h3")]).added ↔
        p ∈ [("a.py", "h1x"), ("c.ts", "h3")].map Prod.fst ∧
        p ∉ ((stored_files
          [⟨"a.py", "h1", false⟩, ⟨"b.go", "h2", false⟩, ⟨".", "d0", true⟩]).map Prod.fst)) ∧
    (∀ p, p ∈ (compute_changeset
        [⟨"a.py", "h1", false⟩, ⟨"b.go", "h2", false⟩, ⟨".", "d0", true⟩]
        [("a.py", "h1x"), ("c.ts", "h3")]).modified ↔
        ∃ hc hs, (p, hc) ∈ [("a.py", "h1x"), ("c.ts", "h3")] ∧
          (p, hs) ∈ stored_files
            [⟨"a.py", "h1", false⟩, ⟨"b.go", "h2", false⟩, ⟨".", "d0", true⟩] ∧ hs ≠ hc) ∧
    (∀ p, p ∈ (compute_changeset
        [⟨"a.py", "h1", false⟩, ⟨"b.go", "h2", false⟩, ⟨".", "d0", true⟩]
        [("a.py", "h1x"), ("c.ts", "h3")]).deleted ↔
        p ∈ ((stored_files
          [⟨"a.py", "h1", false⟩, ⟨"b.go", "h2", false⟩, ⟨".", "d0", true⟩]).map Prod.fst) ∧
        p ∉ [("a.py", "h1x"), ("c.ts", "h3")].map Prod.fst) ∧
    List.Sorted strLeR (compute_changeset
        [⟨"a.py", "h1", false⟩, ⟨"b.go", "h2", false⟩, ⟨".", "d0", true⟩]
        [("a.py", "h1x"), ("c.ts", "h3")]).added ∧
    List.Sorted strLeR (compute_changeset
        [⟨"a.py", "h1", false⟩, ⟨"b.go", "h2", false⟩, ⟨".", "d0", true⟩]
        [("a.py", "h1x"), ("c.ts", "h3")]).modified ∧
    List.Sorted strLeR (compute_changeset
        [⟨"a.py", "h1", false⟩, ⟨"b.go", "h2", false⟩, ⟨".", "d0", true⟩]
        [("a.py", "h1x"), ("c.ts", "h3")]).deleted ∧
    (∀ p, p ∈ (compute_changeset
        [⟨"a.py", "h1", false⟩, ⟨"b.go", "h2", false⟩, ⟨".", "d0", true⟩]
        [("a.py", "h1x"), ("c.ts", "h3")]).added →
        p ∉ (compute_changeset
          [⟨"a.py", "h1", false⟩, ⟨"b.go", "h2", false⟩, ⟨".", "d0", true⟩]
          [("a.py", "h1x"), ("c.ts", "h3")]).modified) ∧
    (∀ p, p ∈ (compute_changeset
        [⟨"a.py", "h1", false⟩, ⟨"b.go", "h2", false⟩, ⟨".", "d0", true⟩]
        [("a.py", "h1x"), ("c.ts", "h3")]).added →
        p ∉ (compute_changeset
          [⟨"a.py", "h1", false⟩, ⟨"b.go", "h2", false⟩, ⟨".", "d0", true⟩]
          [("a.py", "h1x"), ("c.ts", "h3")]).deleted) ∧
    (∀ p, p ∈ (compute_changeset
        [⟨"a.py", "h1", false⟩, ⟨"b.go", "h2", false⟩, ⟨".", "d0", true⟩]
        [("a.py", "h1x"), ("c.ts", "h3")]).modified →
        p ∉ (compute_changeset
          [⟨"a.py", "h1", false⟩, ⟨"b.go", "h2", false⟩, ⟨".", "d0", true⟩]
          [("a.py", "h1x"), ("c.ts", "h3")]).deleted) :=
  ⟨by decide, compute_changeset_correct _ _ (by decide)⟩

/-! ### Python string predicates (ASCII-faithful where noted) -/

/-- Python `str.isspace()` per character: whitespace code points recognised by
CPython (control whitespace, ASCII space, and Unicode space separators). -/
def pyIsSpace (c : Char) : Bool :=
  c.toNat = 0x09 || c.toNat = 0x0a || c.toNat = 0x0b || c.toNat = 0x0c ||
  c.toNat = 0x0d || c.toNat = 0x1c || c.toNat = 0x1d || c.toNat = 0x1e ||
  c.toNat = 0x1f || c.toNat = 0x20 || c.toNat = 0x85 || c.toNat = 0xa0 ||
  c.toNat = 0x1680 || (0x2000 ≤ c.toNat && c.toNat ≤ 0x200a) ||
  c.toNat = 0x2028 || c.toNat = 0x2029 || c.toNat = 0x202f ||
  c.toNat = 0x205f || c.toNat = 0x3000

/-! ### _slugify (src/craigpy/indexer/pipeline.py) -/

/-- Python `str.replace(a, b)` for single characters. -/
def pyReplaceChar (l : List Char) (a b : Char) : List Char :=
  l.map (fun c => if c = a then b else c)

/-- One fuel-indexed unrolling of the `while len(slug) < 3: slug += "_"` loop
of `_slugify`; three iterations always suffice to reach length 3. -/
def padLoop : Nat → List Char → List Char
  | 0, l => l
  | n + 1, l => if l.length < 3 then padLoop n (l ++ ['_']) else l

/-- The `while len(slug) < 3: slug += "_"` padding loop of `_slugify`. -/
def padTo3 (l : List Char) : List Char := padLoop 3 l

/-- A string of ASCII characters only. On this domain `Char.toLower` and
`Char.isAlphanum` coincide exactly with Python's `str.lower()` and
`str.isalnum()`; outside it Python's Unicode `isalnum` keeps additional
characters (e.g. accented letters), so statements about `_slugify` are made
on ASCII names. -/
def isAsciiStr (s : String) : Bool := s.data.all fun c => decide (c.toNat < 128)

/-- `pipeline._slugify`. `Char.toLower` and `Char.isAlphanum` model Python's
`str.lower()`/`str.isalnum()` exactly on ASCII characters; the embedding is
faithful on inputs satisfying `isAsciiStr`. -/
def _slugify (name : String) : String :=
  let slug :=
    pyReplaceChar (pyReplaceChar (pyReplaceChar (name.data.map Char.toLower) ' ' '-')
      '/' '-') '.' '-'
  let slug := slug.filter (fun c => c.isAlphanum || c = '-' || c = '_')
  String.mk ((padTo3 slug).take 63)

/-- The slug computation as the spec sentence describes it: lowercase, collapse
every *whitespace* character as well as `/` and `.` to `-`, strip characters
outside `[A-Za-z0-9_-]`, right-pad to 3 chars with `_`, truncate to 63. -/
def slugClaimed (name : String) : String :=
  let mapped := name.data.map (fun c =>
    let lc := Char.toLower c
    if pyIsSpace lc || lc = '/' || lc = '.' then '-' else lc)
  let kept := mapped.filter (fun c => c.isAlphanum || c = '-' || c = '_')
  String.mk ((kept ++ List.replicate (3 - kept.length) '_').take 63)

/-- The amended slug description: only the space character (not all whitespace)
is replaced by `-`; other whitespace is stripped by the alphanumeric filter. -/
def slugAmended (name : String) : String :=
  let mapped := name.data.map (fun c =>
    let lc := Char.toLower c
    if lc = ' ' || lc = '/' || lc = '.' then '-' else lc)
  let kept := mapped.filter (fun c => c.isAlphanum || c = '-' || c = '_')
  String.mk ((kept ++ List.replicate (3 - kept.length) '_').take 63)

/-- Counterexample to C7 as stated: on the name `"my\trepo"` (tab is whitespace
but not the space character) the claimed description yields `"my-repo"`, while
`_slugify` drops the tab and yields `"myrepo"`. -/
theorem slugify_claim_counterexample :
    slugClaimed "my\trepo" = "my-repo" ∧ _slugify "my\trepo" = "myrepo" ∧
    _slugify "my\trepo" ≠ slugClaimed "my\trepo" := by decide

theorem padTo3_eq (l : List Char) : padTo3 l = l ++ List.replicate (3 - l.length) '_' := by
  match l with
  | [] => rfl
  | [a] => rfl
  | [a, b] => rfl
  | a :: b :: c :: rest =>
    show padLoop 3 _ = _
    rw [padLoop, if_neg (by simp)]
    simp

theorem slugReplaceChain (d : Char) :
    (fun c => if c = '.' then '-' else c) ((fun c => if c = '/' then '-' else c)
      ((fun c => if c = ' ' then '-' else c) d)) =
    (if d = ' ' || d = '/' || d = '.' then '-' else d) := by
  by_cases h1 : d = ' '
  · subst h1; decide
  · by_cases h2 : d = '/'
    · subst h2; decide
    · by_cases h3 : d = '.'
      · subst h3; decide
      · simp [h1, h2, h3]

theorem slugReplace_eq (l : List Char) :
    pyReplaceChar (pyReplaceChar (pyReplaceChar l ' ' '-') '/' '-') '.' '-' =
    l.map (fun d => if d = ' ' || d = '/' || d = '.' then '-' else d) := by
  unfold pyReplaceChar
  simp only [List.map_map]
  apply List.map_congr_left
  intro d _
  simp only [Function.comp_apply]
  exact slugReplaceChain d

/-- C7 (amended): for every ASCII repository name, `_slugify` equals the
amended description — lowercase, replace each space, `/` and `.` by `-`, strip
characters outside `[A-Za-z0-9_-]` (which removes non-space whitespace rather
than turning it into `-`), right-pad with `_` to length 3, truncate to 63.
The ASCII hypothesis restricts the statement to the domain on which the
embedding of `str.lower()`/`str.isalnum()` is exact; on non-ASCII names
Python's Unicode `isalnum` additionally retains non-ASCII alphanumerics. -/
theorem slugify_correct (name : String) (hascii : isAsciiStr name = true) :
    _slugify name = slugAmended name := by
  unfold _slugify slugAmended
  simp only [slugReplace_eq, padTo3_eq, List.map_map]
  rfl

/-- Witness for C7's amended claim at an ASCII name with a space, a dot and
mixed case. -/
theorem slugify_correct_witness :
    isAsciiStr "My Repo.v2" = true ∧
    _slugify "My Repo.v2" = slugAmended "My Repo.v2" :=
  ⟨by decide, slugify_correct "My Repo.v2" (by decide)⟩

/-! ### File filter (src/craigpy/indexer/file_filter.py) -/

/-- `TEXT_EXTENSIONS` — extensions and basenames considered text/code. -/
def TEXT_EXTENSIONS : List String := [
  ".py", ".pyw", ".pyx", ".pyi",
  ".ts", ".tsx", ".js", ".jsx", ".mjs", ".cjs",
  ".java", ".kt", ".kts",
  ".go",
  ".rs",
  ".c", ".h", ".cpp", ".cc", ".cxx", ".hpp", ".hxx",
  ".cs",
  ".rb", ".erb",
  ".php",
  ".swift",
  ".scala",
  ".lua",
  ".r", ".R",
  ".pl", ".pm",
  ".sh", ".bash", ".zsh", ".fish",
  ".ps1", ".psm1",
  ".bat", ".cmd",
  ".json", ".jsonc", ".json5",
  ".yaml", ".yml",
  ".toml",
  ".ini", ".cfg", ".conf",
  ".xml", ".xsl", ".xslt",
  ".csv", ".tsv",
  ".env",
  ".properties",
  ".html", ".htm", ".xhtml",
  ".css", ".scss", ".sass", ".less",
  ".svg",
  ".md", ".mdx", ".markdown",
  ".rst", ".txt", ".text",
  ".adoc",
  ".tex", ".latex",
  ".sql",
  ".graphql", ".gql",
  ".proto",
  ".tf", ".hcl",
  ".vim",
  ".el", ".lisp", ".clj", ".cljs", ".edn",
  ".ex", ".exs",
  ".erl", ".hrl",
  ".hs",
  ".ml", ".mli",
  ".nim",
  ".zig",
  ".v",
  ".dart",
  ".groovy",
  ".gradle",
  "Makefile", "Dockerfile", "Jenkinsfile", "Vagrantfile",
  ".mk"]

/-- `BINARY_MAGIC` — leading byte sequences that indicate binary files. -/
def BINARY_MAGIC : List (List Nat) := [
  [0x89, 0x50, 0x4e, 0x47],
  [0xff, 0xd8, 0xff],
  [0x47, 0x49, 0x46, 0x38],
  [0x50, 0x4b, 0x03, 0x04],
  [0x50, 0x4b, 0x05, 0x06],
  [0x7f, 0x45, 0x4c, 0x46],
  [0xfe, 0xed, 0xfa],
  [0xcf, 0xfa, 0xed],
  [0xca, 0xfe, 0xba],
  [0x00, 0x00, 0x01, 0x00],
  [0x25, 0x50, 0x44, 0x46],
  [0x1f, 0x8b],
  [0x42, 0x5a],
  [0xfd, 0x37, 0x7a, 0x58, 0x5a],
  [0x52, 0x61, 0x72, 0x21],
  [0x00, 0x61, 0x73, 0x6d]]

/-- Index of the last `.` in a list of characters, if any (Python `str.rfind`). -/
def lastDotIdx (l : List Char) : Option Nat :=
  ((l.enum.filter (fun p => p.2 == '.')).map Prod.fst).getLast?

/-- Python `pathlib.PurePath.suffix` of a path's final component: the extension
from the last dot, empty for dotfiles and names without an inner dot. -/
def pySuffix (name : String) : String :=
  match lastDotIdx name.data with
  | none => ""
  | some i =>
    if 0 < i ∧ i + 1 < name.data.length then String.mk (name.data.drop i) else ""

/-- Python `str.startswith` on whole strings. -/
def pyStartsWith (s pre : String) : Bool := pre.data.isPrefixOf s.data

/-- `file_filter.is_binary_file`, with the filesystem read made explicit:
`file_name` is the path's final component and `read16` is the result of
reading the first 16 bytes (`none` models an `OSError`). -/
def is_binary_file (file_name : String) (read16 : Option (List Nat)) : Bool :=
  if TEXT_EXTENSIONS.contains (String.mk ((pySuffix file_name).data.map Char.toLower))
      || TEXT_EXTENSIONS.contains file_name then
    false
  else
    match read16 with
    | none => true
    | some header =>
      if header.isEmpty then false
      else if BINARY_MAGIC.any (fun magic => magic.isPrefixOf header) then true
      else if header.contains 0 then true
      else false

/-- `file_filter.estimate_chunks`. -/
def estimate_chunks (file_size token_target : Nat) : Nat :=
  max 1 (file_size / (token_target * 4))

/-- The fate of one file inside `FileWalker.walk`: silently ignored (hidden or
gitignored, not recorded), recorded as skipped with a reason, or indexable. -/
inductive WalkDecision where
  | ignored
  | skipped (reason : String)
  | indexed
deriving DecidableEq

/-- The per-file classification of `FileWalker.walk` (file_filter.py lines
205–240): hidden-file and gitignore checks, then binary, size, and chunk
threshold checks, with the walker's reason strings. `read16` and `statSize`
model the two filesystem calls (`none` = `OSError`). -/
def walkFileDecision (file_name : String) (gitignoreMatch : Bool)
    (read16 : Option (List Nat)) (statSize : Option Nat)
    (max_file_size_bytes token_target chunk_threshold : Nat) : WalkDecision :=
  if pyStartsWith file_name "." then .ignored
  else if gitignoreMatch then .ignored
  else if is_binary_file file_name read16 then .skipped "binary"
  else
    match statSize with
    | none => .skipped "unreadable"
    | some size =>
      if size > max_file_size_bytes then
        .skipped ("too large (" ++ toString size ++ " bytes)")
      else if estimate_chunks size token_target > chunk_threshold then
        .skipped ("estimated " ++ toString (estimate_chunks size token_target) ++
          " chunks > threshold " ++ toString chunk_threshold)
      else .indexed

/-- Counterexample to C6 as stated: a 100-byte file named `img.md` that starts
with the PNG magic is classified as *text* by `is_binary_file` — the extension
fast path wins over the magic bytes — and the walker indexes it rather than
skipping it as binary. -/
theorem is_binary_file_png_counterexample :
    is_binary_file "img.md"
      (some [0x89, 0x50, 0x4e, 0x47, 0x0d, 0x0a, 0x1a, 0x0a,
        0x00, 0x00, 0x00, 0x0d, 0x49, 0x48, 0x44, 0x52]) = false ∧
    walkFileDecision "img.md" false
      (some [0x89, 0x50, 0x4e, 0x47, 0x0d, 0x0a, 0x1a, 0x0a,
        0x00, 0x00, 0x00, 0x0d, 0x49, 0x48, 0x44, 0x52])
      (some 100) 10485760 500 200 = WalkDecision.indexed := by decide

/-- C6 (amended): a file whose first bytes begin with the PNG magic *and* whose
lowercased extension and basename are outside the known text set is classified
binary by `is_binary_file`, and the walker (when the file is not hidden and not
gitignored) records it as skipped with reason "binary", so it is never
indexable and no chunks are produced for it. -/
theorem is_binary_file_png (file_name : String) (rest : List Nat)
    (statSize : Option Nat) (max_file_size_bytes token_target chunk_threshold : Nat)
    (hsuffix : TEXT_EXTENSIONS.contains
      (String.mk ((pySuffix file_name).data.map Char.toLower)) = false)
    (hname : TEXT_EXTENSIONS.contains file_name = false)
    (hdot : pyStartsWith file_name "." = false) :
    is_binary_file file_name (some (0x89 :: 0x50 :: 0x4e :: 0x47 :: rest)) = true ∧
    walkFileDecision file_name false (some (0x89 :: 0x50 :: 0x4e :: 0x47 :: rest))
      statSize max_file_size_bytes token_target chunk_threshold =
      WalkDecision.skipped "binary" := by
  have hbin : is_binary_file file_name (some (0x89 :: 0x50 :: 0x4e :: 0x47 :: rest)) = true := by
    unfold is_binary_file
    rw [hsuffix, hname]
    simp only [Bool.false_or, Bool.or_self, if_neg Bool.false_ne_true]
    have hmagic : BINARY_MAGIC.any
        (fun magic => magic.isPrefixOf (0x89 :: 0x50 :: 0x4e :: 0x47 :: rest)) = true := by
      apply List.any_eq_true.mpr
      refine ⟨[0x89, 0x50, 0x4e, 0x47], by simp [BINARY_MAGIC], ?_⟩
      simp [List.isPrefixOf]
    simp [hmagic]
  refine ⟨hbin, ?_⟩
  unfold walkFileDecision
  rw [hdot]
  simp [hbin]

/-- Witness for the amended C6 at `texture.png`. -/
theorem is_binary_file_png_witness :
    (TEXT_EXTENSIONS.contains
        (String.mk ((pySuffix "texture.png").data.map Char.toLower)) = false ∧
      TEXT_EXTENSIONS.contains "texture.png" = false ∧
      pyStartsWith "texture.png" "." = false) ∧
    (is_binary_file "texture.png"
        (some (0x89 :: 0x50 :: 0x4e :: 0x47 :: [0x0d, 0x0a, 0x1a, 0x0a])) = true ∧
      walkFileDecision "texture.png" false
        (some (0x89 :: 0x50 :: 0x4e :: 0x47 :: [0x0d, 0x0a, 0x1a, 0x0a]))
        (some 100) 10485760 500 200 = WalkDecision.skipped "binary") :=
  ⟨⟨by decide, by decide, by decide⟩,
    is_binary_file_png "texture.png" [0x0d, 0x0a, 0x1a, 0x0a] (some 100) 10485760 500 200
      (by decide) (by decide) (by decide)⟩

/-! ### SHA-256 (hashlib.sha256, as used by merkle.hash_content / hash_bytes) -/

/-- Truncate to 32 bits. -/
def w32 (n : Nat) : Nat := n % 4294967296

/-- 32-bit right rotation. -/
def rotr32 (n x : Nat) : Nat := w32 ((x >>> n) + ((x <<< (32 - n)) % 4294967296))

/-- The SHA-256 round constants. -/
def shaK : List Nat := [
  1116352408, 1899447441, 3049323471, 3921009573, 961987163, 1508970993,
  2453635748, 2870763221, 3624381080, 310598401, 607225278, 1426881987,
  1925078388, 2162078206, 2614888103, 3248222580, 3835390401, 4022224774,
  264347078, 604807628, 770255983, 1249150122, 1555081692, 1996064986,
  2554220882, 2821834349, 2952996808, 3210313671, 3336571891, 3584528711,
  113926993, 338241895, 666307205, 773529912, 1294757372, 1396182291,
  1695183700, 1986661051, 2177026350, 2456956037, 2730485921, 2820302411,
  3259730800, 3345764771, 3516065817, 3600352804, 4094571909, 275423344,
  430227734, 506948616, 659060556, 883997877, 958139571, 1322822218,
  1537002063, 1747873779, 1955562222, 2024104815, 2227730452, 2361852424,
  2428436474, 2756734187, 3204031479, 3329325298]

/-- The SHA-256 initial hash state. -/
def shaH0 : List Nat :=
  [1779033703, 3144134277, 1013904242, 2773480762,
   1359893119, 2600822924, 528734635, 1541459225]

/-- Message schedule: 64 32-bit words from one 64-byte block. -/
def msgSchedule (block : List Nat) : List Nat :=
  let w16 := (List.range 16).map (fun i =>
    w32 ((block.getD (4 * i) 0) <<< 24 + (block.getD (4 * i + 1) 0) <<< 16 +
      (block.getD (4 * i + 2) 0) <<< 8 + block.getD (4 * i + 3) 0))
  (List.range 48).foldl (fun w _ =>
    let n := w.length
    let w15 := w.getD (n - 15) 0
    let w2 := w.getD (n - 2) 0
    let s0 := Nat.xor (Nat.xor (rotr32 7 w15) (rotr32 18 w15)) (w15 >>> 3)
    let s1 := Nat.xor (Nat.xor (rotr32 17 w2) (rotr32 19 w2)) (w2 >>> 10)
    w ++ [w32 (w.getD (n - 16) 0 + s0 + w.getD (n - 7) 0 + s1)]) w16

/-- The SHA-256 compression function over one 64-byte block. -/
def shaCompress (h : List Nat) (block : List Nat) : List Nat :=
  let w := msgSchedule block
  let st := (List.range 64).foldl (fun (st : List Nat) i =>
    let a := st.getD 0 0
    let b := st.getD 1 0
    let c := st.getD 2 0
    let d := st.getD 3 0
    let e := st.getD 4 0
    let f := st.getD 5 0
    let g := st.getD 6 0
    let hh := st.getD 7 0
    let s1 := Nat.xor (Nat.xor (rotr32 6 e) (rotr32 11 e)) (rotr32 25 e)
    let ch := Nat.xor (Nat.land e f) (Nat.land (w32 (4294967295 - e)) g)
    let t1 := w32 (hh + s1 + ch + shaK.getD i 0 + w.getD i 0)
    let s0 := Nat.xor (Nat.xor (rotr32 2 a) (rotr32 13 a)) (rotr32 22 a)
    let mj := Nat.xor (Nat.xor (Nat.land a b) (Nat.land a c)) (Nat.land b c)
    let t2 := w32 (s0 + mj)
    [w32 (t1 + t2), a, b, c, w32 (d + t1), e, f, g]) h
  (List.range 8).map (fun i => w32 (h.getD i 0 + st.getD i 0))

/-- Fold the compression over 64-byte blocks; fuel-indexed so the recursion is
structural (the fuel is the block count). -/
def shaBlocks : Nat → List Nat → List Nat → List Nat
  | 0, _, h => h
  | fuel + 1, msg, h =>
    match msg with
    | [] => h
    | _ => shaBlocks fuel (msg.drop 64) (shaCompress h (msg.take 64))

/-- SHA-256 padding: append 0x80, zeros, then the 8-byte big-endian bit length. -/
def shaPad (msg : List Nat) : List Nat :=
  let l := msg.length
  let k := (64 + 56 - ((l + 1) % 64)) % 64
  let bits := 8 * l
  msg ++ 0x80 :: List.replicate k 0 ++
    [(bits >>> 56) % 256, (bits >>> 48) % 256, (bits >>> 40) % 256, (bits >>> 32) % 256,
     (bits >>> 24) % 256, (bits >>> 16) % 256, (bits >>> 8) % 256, bits % 256]

/-- Lowercase hex digit. -/
def hexChar (n : Nat) : Char := if n < 10 then Char.ofNat (48 + n) else Char.ofNat (87 + n)

/-- SHA-256 of a byte list, as a lowercase hex string (`.hexdigest()`). -/
def sha256Hex (msg : List Nat) : String :=
  let padded := shaPad msg
  let hFinal := shaBlocks (padded.length / 64) padded shaH0
  String.mk (hFinal.foldr (fun word acc =>
    hexChar ((word >>> 28) % 16) :: hexChar ((word >>> 24) % 16) ::
    hexChar ((word >>> 20) % 16) :: hexChar ((word >>> 16) % 16) ::
    hexChar ((word >>> 12) % 16) :: hexChar ((word >>> 8) % 16) ::
    hexChar ((word >>> 4) % 16) :: hexChar (word % 16) :: acc) [])

/-- UTF-8 encoding of one character (Python `str.encode()`). -/
def utf8Bytes (c : Char) : List Nat :=
  let n := c.toNat
  if n < 0x80 then [n]
  else if n < 0x800 then [0xc0 + n / 64, 0x80 + n % 64]
  else if n < 0x10000 then [0xe0 + n / 4096, 0x80 + (n / 64) % 64, 0x80 + n % 64]
  else [0xf0 + n / 262144, 0x80 + (n / 4096) % 64, 0x80 + (n / 64) % 64, 0x80 + n % 64]

/-- UTF-8 encoding of a string. -/
def strUtf8 (s : String) : List Nat := s.data.flatMap utf8Bytes

/-- `merkle.hash_content`: SHA-256 of the UTF-8 encoding of a string. -/
def hash_content (content : String) : String := sha256Hex (strUtf8 content)

/-! ### Python line and whitespace helpers for the chunkers -/

/-- Python `str.lstrip()` on a char list. -/
def pyLstrip (l : List Char) : List Char := l.dropWhile pyIsSpace

/-- Python `str.strip()` on a char list. -/
def pyStrip (l : List Char) : List Char :=
  ((l.dropWhile pyIsSpace).reverse.dropWhile pyIsSpace).reverse

/-- Line-boundary characters of Python `str.splitlines` (besides `\r\n`). -/
def isLineBoundary (c : Char) : Bool :=
  c.toNat = 0x0a || c.toNat = 0x0d || c.toNat = 0x0b || c.toNat = 0x0c ||
  c.toNat = 0x1c || c.toNat = 0x1d || c.toNat = 0x1e || c.toNat = 0x85 ||
  c.toNat = 0x2028 || c.toNat = 0x2029

/-- Python `str.splitlines(keepends=True)`: `acc` is the current line so far,
reversed. -/
def splitLinesAux : List Char → List Char → List (List Char)
  | [], acc => if acc.isEmpty then [] else [acc.reverse]
  | '\r' :: '\n' :: rest, acc => (acc.reverse ++ ['\r', '\n']) :: splitLinesAux rest []
  | c :: rest, acc =>
    if isLineBoundary c then (acc.reverse ++ [c]) :: splitLinesAux rest []
    else splitLinesAux rest (c :: acc)

/-- Python `str.splitlines(keepends=True)`. -/
def splitLinesKeep (l : List Char) : List (List Char) := splitLinesAux l []

/-! ### Chunk and token estimation (src/craigpy/chunking/interface.py) -/

/-- `interface.Chunk`. -/
structure Chunk where
  content : String
  start_line : Nat
  end_line : Nat
  chunk_index : Nat
  chunk_hash : String
  language : Option String
  symbol_name : Option String
  symbol_type : Option String
deriving DecidableEq

/-- Construct a `Chunk` the way every chunker does — with no explicit
`chunk_hash`, so `__post_init__` fills in the provisional `hash_content` of the
content — from the buffered lines. -/
def mkChunk (ls : List (List Char)) (start_line end_line chunk_index : Nat)
    (symbol_name symbol_type : Option String) : Chunk :=
  { content := String.mk ls.flatten
    start_line := start_line
    end_line := end_line
    chunk_index := chunk_index
    chunk_hash := hash_content (String.mk ls.flatten)
    language := none
    symbol_name := symbol_name
    symbol_type := symbol_type }

/-- `interface.estimate_tokens`: `max(1, len(text) // 4)`. -/
def estimate_tokens (text : List Char) : Nat := max 1 (text.length / 4)

/-! ### Generic chunker (src/craigpy/chunking/heuristic/generic.py) -/

/-- The overlap collection of the generic and TS chunkers: walk the just-emitted
buffer in reverse, collecting trailing lines while their token sum stays within
`overlap_tokens`; returns the collected lines in file order and their token sum. -/
def overlapWalk (overlap_tokens : Nat) :
    List (List Char) → Nat → List (List Char) → List (List Char) × Nat
  | [], tok, acc => (acc, tok)
  | pl :: rest, tok, acc =>
    let lt := estimate_tokens pl
    if tok + lt > overlap_tokens then (acc, tok)
    else overlapWalk overlap_tokens rest (tok + lt) (pl :: acc)

/-- The per-line loop of `chunk_generic`. `i` is the 1-indexed number of the
next line; `chunksRev` holds the emitted chunks most-recent-first, so
`chunksRev.length` is the Python `len(chunks)` chunk index. The float
comparisons `> token_target * 1.2` and `>= token_target * 0.6` are modelled
as the exact rational comparisons `5·x > 6·t` and `5·x ≥ 3·t`. -/
def genericLoop (token_target overlap_tokens : Nat) :
    List (List Char) → Nat → List (List Char) → Nat → Nat → List Chunk → List Chunk
  | [], _, current_lines, current_start, _, chunksRev =>
    (if current_lines.isEmpty then chunksRev
     else mkChunk current_lines current_start (current_start + current_lines.length - 1)
        chunksRev.length none none :: chunksRev).reverse
  | line :: rest, i, current_lines, current_start, current_tokens, chunksRev =>
    let line_tokens := estimate_tokens line
    if 5 * (current_tokens + line_tokens) > 6 * token_target ∧ current_lines ≠ [] then
      let c := mkChunk current_lines current_start (i - 1) chunksRev.length none none
      let ow := overlapWalk overlap_tokens current_lines.reverse 0 []
      genericLoop token_target overlap_tokens rest (i + 1) (ow.1 ++ [line])
        (i - ow.1.length) (ow.2 + line_tokens) (c :: chunksRev)
    else if (pyStrip line).isEmpty ∧ 5 * current_tokens ≥ 3 * token_target ∧
        current_lines ≠ [] then
      let c := mkChunk current_lines current_start (i - 1) chunksRev.length none none
      genericLoop token_target overlap_tokens rest (i + 1) [] (i + 1) 0 (c :: chunksRev)
    else
      genericLoop token_target overlap_tokens rest (i + 1) (current_lines ++ [line])
        current_start (current_tokens + line_tokens) chunksRev

/-- `generic.chunk_generic`. -/
def chunk_generic (content : String) (file_path : String)
    (token_target overlap_tokens : Nat) : List Chunk :=
  if (pyStrip content.data).isEmpty then []
  else genericLoop token_target overlap_tokens (splitLinesKeep content.data) 1 [] 1 0 []

/-! ### Python-language chunker (src/craigpy/chunking/heuristic/python_lang.py) -/

/-- `\w` of Python `re` on its ASCII range: letters, digits, underscore. -/
def reWordChar (c : Char) : Bool := c.isAlphanum || c = '_'

/-- `startswith` on char lists. -/
def startsWithL (l : List Char) (pre : String) : Bool := pre.data.isPrefixOf l

/-- Match `(?:async\s+)?def\s+(\w+)` at the start of `l`, returning the
captured name. -/
def matchDefName (l : List Char) : Option (List Char) :=
  let l1 :=
    if "async".data.isPrefixOf l then
      match l.drop 5 with
      | c :: _ => if pyIsSpace c then (l.drop 5).dropWhile pyIsSpace else l
      | [] => l
    else l
  if "def".data.isPrefixOf l1 then
    match l1.drop 3 with
    | c :: _ =>
      if pyIsSpace c then
        let name := ((l1.drop 3).dropWhile pyIsSpace).takeWhile reWordChar
        if name.isEmpty then none else some name
      else none
    | [] => none
  else none

/-- Match `class\s+(\w+)` at the start of `l`, returning the captured name. -/
def matchClassName (l : List Char) : Option (List Char) :=
  if "class".data.isPrefixOf l then
    match l.drop 5 with
    | c :: _ =>
      if pyIsSpace c then
        let name := ((l.drop 5).dropWhile pyIsSpace).takeWhile reWordChar
        if name.isEmpty then none else some name
      else none
    | [] => none
  else none

/-- `python_lang._extract_symbol`. -/
def pyExtractSymbol (line : List Char) : Option String × Option String :=
  let stripped := pyLstrip line
  match matchDefName stripped with
  | some name => (some (String.mk name), some "function")
  | none =>
    match matchClassName stripped with
    | some name => (some (String.mk name), some "class")
    | none => (none, none)

/-- Emit the buffered lines as a chunk unless their joined text is
whitespace-only (`if chunk_text.strip():`); the new chunk's index is the
number of chunks already emitted. -/
def pushChunk (ls : List (List Char)) (s e : Nat) (sym symt : Option String)
    (acc : List Chunk) : List Chunk :=
  if (pyStrip ls.flatten).isEmpty then acc else mkChunk ls s e acc.length sym symt :: acc

/-- One header line of `chunk_python`'s import-block scan. -/
def pyIsHeaderLine (line : List Char) : Bool :=
  let s := pyStrip line
  startsWithL s "import " || startsWithL s "from " || s.isEmpty ||
  startsWithL s "#" || startsWithL s "\"\"\"" || startsWithL s "'''"

/-- Number of consecutive header lines at the top of the file (`code_start`). -/
def headerCount (isHeader : List Char → Bool) : List (List Char) → Nat
  | [] => 0
  | line :: rest => if isHeader line then 1 + headerCount isHeader rest else 0

/-- The per-line loop of `chunk_python`. `n` is the total number of lines (the
final flush uses `end_line = len(lines)`), `line_num` the 1-indexed number of
the next line, `inDec` the `in_decorator_block` flag, and `acc` the emitted
chunks most-recent-first. The float threshold `> token_target * 1.5` is
modelled as `2·x > 3·t`. -/
def pythonLoop (tt n : Nat) :
    List (List Char) → Nat → List (List Char) → Nat → Option String → Option String →
      Nat → Bool → List Chunk → List Chunk
  | [], _, cur, cur_start, sym, symt, _, _, acc =>
    (if cur.isEmpty then acc else pushChunk cur cur_start n sym symt acc).reverse
  | line :: rest, line_num, cur, cur_start, sym, symt, tok, inDec, acc =>
    let stripped := pyLstrip line
    let lt := estimate_tokens line
    let indent := line.length - stripped.length
    if startsWithL stripped "@" ∧ indent ≤ 4 then
      if ¬inDec ∧ cur ≠ [] ∧ tok > 0 then
        pythonLoop tt n rest (line_num + 1) [line] line_num none none lt true
          (pushChunk cur cur_start (line_num - 1) sym symt acc)
      else
        pythonLoop tt n rest (line_num + 1) (cur ++ [line]) cur_start sym symt (tok + lt)
          true acc
    else if (matchDefName stripped ≠ none ∨ matchClassName stripped ≠ none) ∧ indent ≤ 4 then
      if cur ≠ [] ∧ tok > 0 ∧ ¬(cur.any (fun l => startsWithL (pyLstrip l) "@")) then
        pythonLoop tt n rest (line_num + 1) [line] line_num (pyExtractSymbol line).1
          (pyExtractSymbol line).2 lt false
          (pushChunk cur cur_start (line_num - 1) sym symt acc)
      else
        pythonLoop tt n rest (line_num + 1) (cur ++ [line]) cur_start (pyExtractSymbol line).1
          (pyExtractSymbol line).2 (tok + lt) false acc
    else if 2 * (tok + lt) > 3 * tt ∧ cur ≠ [] then
      pythonLoop tt n rest (line_num + 1) [line] line_num none none lt false
        (pushChunk cur cur_start (line_num - 1) sym symt acc)
    else
      pythonLoop tt n rest (line_num + 1) (cur ++ [line]) cur_start sym symt (tok + lt)
        false acc

/-- `python_lang.chunk_python`. -/
def chunk_python (content : String) (file_path : String)
    (token_target overlap_tokens : Nat) : List Chunk :=
  if (pyStrip content.data).isEmpty then []
  else
    let lines := splitLinesKeep content.data
    let code_start := headerCount pyIsHeaderLine lines
    let import_lines := lines.take code_start
    let headerChunks : List Chunk :=
      if import_lines ≠ [] ∧ estimate_tokens import_lines.flatten > 10 then
        [mkChunk import_lines 1 code_start 0 none none]
      else []
    pythonLoop token_target lines.length (lines.drop code_start) (code_start + 1) []
      (code_start + 1) none none 0 false headerChunks.reverse

/-! ### TypeScript/JavaScript chunker (src/craigpy/chunking/heuristic/typescript.py) -/

/-- Match `w\s+` (keyword then at least one whitespace) at the start of `l`,
returning the remainder after the whitespace run. -/
def dropKwSp (l : List Char) (w : String) : Option (List Char) :=
  if w.data.isPrefixOf l then
    match l.drop w.data.length with
    | c :: rest => if pyIsSpace c then some ((c :: rest).dropWhile pyIsSpace) else none
    | [] => none
  else none

/-- Match the optional group `(w\s+)?`, consuming it when present. -/
def optDropKwSp (l : List Char) (w : String) : List Char :=
  match dropKwSp l w with | some r => r | none => l

/-- Match `w\s` (keyword then a single whitespace) at the start of `l`. -/
def kwThenSpace (l : List Char) (w : String) : Bool :=
  w.data.isPrefixOf l &&
    (match l.drop w.data.length with | c :: _ => pyIsSpace c | [] => false)

/-- `type\s+\w+\s*=` (TS type alias), returning the captured name. -/
def tsTypeAliasName (s : List Char) : Option (List Char) :=
  match dropKwSp s "type" with
  | some r =>
    let name := r.takeWhile reWordChar
    if name.isEmpty then none
    else
      match (r.drop name.length).dropWhile pyIsSpace with
      | '=' :: _ => some name
      | _ => none
  | none => none

/-- `(?:const|let)\s+(\w+)\s*=\s*(?:async\s+)?\(`, returning the name. -/
def tsArrowName (s : List Char) : Option (List Char) :=
  let afterKw := match dropKwSp s "const" with
    | some r => some r
    | none => dropKwSp s "let"
  match afterKw with
  | some r =>
    let n := r.takeWhile reWordChar
    if n.isEmpty then none
    else
      match (r.drop n.length).dropWhile pyIsSpace with
      | '=' :: r2 =>
        match optDropKwSp (r2.dropWhile pyIsSpace) "async" with
        | '(' :: _ => some n
        | _ => none
      | _ => none
  | none => none

/-- `const\s+\w+\s*=\s*(async\s+)?function`. -/
def tsConstFunction (s : List Char) : Bool :=
  match dropKwSp s "const" with
  | some r =>
    let n := r.takeWhile reWordChar
    if n.isEmpty then false
    else
      match (r.drop n.length).dropWhile pyIsSpace with
      | '=' :: r2 =>
        "function".data.isPrefixOf (optDropKwSp (r2.dropWhile pyIsSpace) "async")
      | _ => false
  | none => false

/-- `typescript._is_block_start`: the 16 `TS_BLOCK_PATTERNS` tried on the
lstripped line. -/
def tsIsBlockStart (line : List Char) : Bool :=
  let s := pyLstrip line
  (match dropKwSp s "export" with
   | some r =>
     let rd := optDropKwSp r "default"
     kwThenSpace (optDropKwSp rd "async") "function" || kwThenSpace rd "class" ||
     kwThenSpace rd "interface" || kwThenSpace rd "type" || kwThenSpace rd "enum" ||
     kwThenSpace rd "const" || kwThenSpace rd "let" ||
     (match r with | c :: _ => c = Char.ofNat 123 | [] => false)
   | none => false) ||
  kwThenSpace (optDropKwSp s "async") "function" ||
  kwThenSpace s "class" ||
  kwThenSpace s "interface" ||
  (tsTypeAliasName s).isSome ||
  kwThenSpace s "enum" ||
  (match dropKwSp s "const" with
   | some r =>
     let n := r.takeWhile reWordChar
     if n.isEmpty then false
     else
       match (r.drop n.length).dropWhile pyIsSpace with
       | '=' :: r2 =>
         (match optDropKwSp (r2.dropWhile pyIsSpace) "async" with
          | '(' :: _ => true
          | _ => false)
       | _ => false
   | none => false) ||
  tsConstFunction s ||
  kwThenSpace s "import"

/-- Name capture for `kw\s+(\w+)` after an already-consumed prefix. -/
def symAfterKw (core : List Char) (kw : String) : Option (List Char) :=
  match dropKwSp core kw with
  | some r =>
    let n := r.takeWhile reWordChar
    if n.isEmpty then none else some n
  | none => none

/-- `typescript._extract_symbol`. -/
def tsExtractSymbol (line : List Char) : Option String × Option String :=
  let s := pyLstrip line
  let core := match dropKwSp s "export" with
    | some r => optDropKwSp r "default"
    | none => s
  match symAfterKw (optDropKwSp core "async") "function" with
  | some n => (some (String.mk n), some "function")
  | none =>
  match symAfterKw core "class" with
  | some n => (some (String.mk n), some "class")
  | none =>
  match symAfterKw core "interface" with
  | some n => (some (String.mk n), some "interface")
  | none =>
  match symAfterKw core "enum" with
  | some n => (some (String.mk n), some "enum")
  | none =>
  match tsTypeAliasName core with
  | some n => (some (String.mk n), some "type")
  | none =>
  match tsArrowName core with
  | some n => (some (String.mk n), some "function")
  | none => (none, none)

/-- One header line of `chunk_typescript`'s import-block scan. -/
def tsIsHeaderLine (line : List Char) : Bool :=
  let s := pyStrip line
  startsWithL s "import " || startsWithL s "from " || s.isEmpty || startsWithL s "//"

/-- The per-line loop of `chunk_typescript` (block boundary splits, forced
splits with overlap). -/
def tsLoop (tt ot n : Nat) :
    List (List Char) → Nat → List (List Char) → Nat → Option String → Option String →
      Nat → List Chunk → List Chunk
  | [], _, cur, cur_start, sym, symt, _, acc =>
    (if cur.isEmpty then acc else pushChunk cur cur_start n sym symt acc).reverse
  | line :: rest, line_num, cur, cur_start, sym, symt, tok, acc =>
    let lt := estimate_tokens line
    if tsIsBlockStart line ∧ cur ≠ [] ∧ tok > 0 then
      tsLoop tt ot n rest (line_num + 1) [line] line_num (tsExtractSymbol line).1
        (tsExtractSymbol line).2 lt (pushChunk cur cur_start (line_num - 1) sym symt acc)
    else if 2 * (tok + lt) > 3 * tt ∧ cur ≠ [] then
      let ow := overlapWalk ot cur.reverse 0 []
      tsLoop tt ot n rest (line_num + 1) (ow.1 ++ [line]) (line_num - ow.1.length)
        none none (ow.2 + lt) (pushChunk cur cur_start (line_num - 1) sym symt acc)
    else
      tsLoop tt ot n rest (line_num + 1) (cur ++ [line]) cur_start
        (if cur.isEmpty then (tsExtractSymbol line).1 else sym)
        (if cur.isEmpty then (tsExtractSymbol line).2 else symt)
        (tok + lt) acc

/-- `typescript.chunk_typescript`. -/
def chunk_typescript (content : String) (file_path : String)
    (token_target overlap_tokens : Nat) : List Chunk :=
  if (pyStrip content.data).isEmpty then []
  else
    let lines := splitLinesKeep content.data
    let code_start := headerCount tsIsHeaderLine lines
    let import_lines := lines.take code_start
    let headerChunks : List Chunk :=
      if import_lines ≠ [] ∧ estimate_tokens import_lines.flatten > 10 then
        [mkChunk import_lines 1 code_start 0 none none]
      else []
    tsLoop token_target overlap_tokens lines.length (lines.drop code_start) (code_start + 1)
      [] (code_start + 1) none none 0 headerChunks.reverse

/-! ### Go chunker (src/craigpy/chunking/heuristic/go.py) -/

/-- `func\s*\(\w+\s+\*?\w+\)` — a Go method receiver; returns the receiver
type name and the remainder after `)`. -/
def goReceiver (s : List Char) : Option (List Char × List Char) :=
  if "func".data.isPrefixOf s then
    match (s.drop 4).dropWhile pyIsSpace with
    | '(' :: r =>
      let v := r.takeWhile reWordChar
      if v.isEmpty then none
      else
        match r.drop v.length with
        | c :: _ =>
          if pyIsSpace c then
            let r2 := (r.drop v.length).dropWhile pyIsSpace
            let r3 := match r2 with | '*' :: t => t | _ => r2
            let ty := r3.takeWhile reWordChar
            if ty.isEmpty then none
            else
              match r3.drop ty.length with
              | ')' :: rest => some (ty, rest)
              | _ => none
          else none
        | [] => none
    | _ => none
  else none

/-- `type\s+(\w+)\s…` — name and remainder after the second whitespace run's
start (the single `\s` of the pattern is the head of the remainder). -/
def goTypeName (s : List Char) : Option (List Char × List Char) :=
  match dropKwSp s "type" with
  | some r =>
    let n := r.takeWhile reWordChar
    if n.isEmpty then none
    else
      match r.drop n.length with
      | c :: rest => if pyIsSpace c then some (n, c :: rest) else none
      | [] => none
  | none => none

/-- `go._is_block_start`: top-level (indent 0) only, then the
`GO_BLOCK_PATTERNS`. -/
def goIsBlockStart (line : List Char) : Bool :=
  let s := pyLstrip line
  if line.length - s.length > 0 then false
  else
    kwThenSpace s "func" ||
    (goReceiver s).isSome ||
    -- the three `type` patterns: `type\s+\w+\s` subsumes the `struct\b` and
    -- `interface\b` variants for the boolean match
    (goTypeName s).isSome ||
    kwThenSpace s "var" ||
    kwThenSpace s "const" ||
    kwThenSpace s "import" ||
    kwThenSpace s "package"

/-- `go._extract_symbol`. -/
def goExtractSymbol (line : List Char) : Option String × Option String :=
  let s := pyStrip line
  match goReceiver s with
  | some (ty, rest) =>
    -- `\)\s+(\w+)`
    (match rest with
     | c :: _ =>
       if pyIsSpace c then
         let n := (rest.dropWhile pyIsSpace).takeWhile reWordChar
         if n.isEmpty then (none, none)
         else (some (String.mk (ty ++ '.' :: n)), some "method")
       else (none, none)
     | [] => (none, none))
  | none =>
  match symAfterKw s "func" with
  | some n => (some (String.mk n), some "function")
  | none =>
  match goTypeName s with
  | some (n, rest) =>
    -- `type\s+(\w+)\s+(struct|interface)` else `type\s+(\w+)\s`
    let r2 := rest.dropWhile pyIsSpace
    if "struct".data.isPrefixOf r2 then (some (String.mk n), some "struct")
    else if "interface".data.isPrefixOf r2 then (some (String.mk n), some "interface")
    else (some (String.mk n), some "type")
  | none => (none, none)

/-- The header scan of `chunk_go`: package line, import lines (single or
parenthesised block), blank lines and `//` comments; `inImp` is
`in_import_block`. Returns the number of header lines (`code_start`). -/
def goHeaderCount : List (List Char) → Bool → Nat
  | [], _ => 0
  | line :: rest, inImp =>
    let s := pyStrip line
    if startsWithL s "package " then 1 + goHeaderCount rest inImp
    else if s = "import (".data ∨ startsWithL s "import " then
      1 + goHeaderCount rest (s = "import (".data)
    else if inImp then
      1 + goHeaderCount rest (if s = ")".data then false else true)
    else if s.isEmpty ∨ startsWithL s "//" then 1 + goHeaderCount rest inImp
    else 0

/-- The per-line loop of `chunk_go` (block splits at top-level declarations,
forced splits without overlap). -/
def goLoop (tt n : Nat) :
    List (List Char) → Nat → List (List Char) → Nat → Option String → Option String →
      Nat → List Chunk → List Chunk
  | [], _, cur, cur_start, sym, symt, _, acc =>
    (if cur.isEmpty then acc else pushChunk cur cur_start n sym symt acc).reverse
  | line :: rest, line_num, cur, cur_start, sym, symt, tok, acc =>
    let lt := estimate_tokens line
    if goIsBlockStart line ∧ cur ≠ [] ∧ tok > 0 then
      goLoop tt n rest (line_num + 1) [line] line_num (goExtractSymbol line).1
        (goExtractSymbol line).2 lt (pushChunk cur cur_start (line_num - 1) sym symt acc)
    else if 2 * (tok + lt) > 3 * tt ∧ cur ≠ [] then
      goLoop tt n rest (line_num + 1) [line] line_num none none lt
        (pushChunk cur cur_start (line_num - 1) sym symt acc)
    else
      goLoop tt n rest (line_num + 1) (cur ++ [line]) cur_start
        (if cur.isEmpty then (goExtractSymbol line).1 else sym)
        (if cur.isEmpty then (goExtractSymbol line).2 else symt)
        (tok + lt) acc

/-- `go.chunk_go`. -/
def chunk_go (content : String) (file_path : String)
    (token_target overlap_tokens : Nat) : List Chunk :=
  if (pyStrip content.data).isEmpty then []
  else
    let lines := splitLinesKeep content.data
    let code_start := goHeaderCount lines false
    let header_lines := lines.take code_start
    let headerChunks : List Chunk :=
      if header_lines ≠ [] ∧ estimate_tokens header_lines.flatten > 10 then
        [mkChunk header_lines 1 code_start 0 none none]
      else []
    goLoop token_target lines.length (lines.drop code_start) (code_start + 1)
      [] (code_start + 1) none none 0 headerChunks.reverse

/-! ### Java/Kotlin chunker (src/craigpy/chunking/heuristic/java.py) -/

/-- All positions reachable by the regex star `(mod₁|…|modₙ|\s)*` from `l`.
At any position at most one alternative applies (the modifier words are
pairwise non-prefix and start with letters), so the reachable set is a chain;
`fuel` bounds the walk by the input length. -/
def javaModChain (mods : List String) : Nat → List Char → List (List Char)
  | 0, l => [l]
  | fuel + 1, l =>
    match mods.find? (fun w => w.data.isPrefixOf l) with
    | some w => l :: javaModChain mods fuel (l.drop w.data.length)
    | none =>
      match l with
      | c :: rest => if pyIsSpace c then l :: javaModChain mods fuel rest else [l]
      | [] => [l]

/-- A character of the regex class `[\w<>,\s]`. -/
def javaGenClassChar (c : Char) : Bool :=
  reWordChar c || c = '<' || c = '>' || c = ',' || pyIsSpace c

/-- All remainders after matching `[\w<>,\s]+>` (the inside of the generic
group `<…>`): every `>` preceded by at least one class character closes it. -/
def javaGenericClose : List Char → Nat → List (List Char)
  | [], _ => []
  | c :: rest, idx =>
    if javaGenClassChar c then
      (if c = '>' ∧ 1 ≤ idx then [rest] else []) ++ javaGenericClose rest (idx + 1)
    else []

/-- Consume `(\[\])*`. -/
def dropSqPairs : Nat → List Char → List Char
  | 0, l => l
  | fuel + 1, l =>
    match l with
    | '[' :: ']' :: rest => dropSqPairs fuel rest
    | _ => l

/-- Match `(\w+(\[\])*)\s+(\w+)\s*\(` — return type, method name, open paren. -/
def javaTypeAndCall (l : List Char) : Bool :=
  let ty := l.takeWhile reWordChar
  if ty.isEmpty then false
  else
    match dropSqPairs l.length (l.drop ty.length) with
    | c :: rest =>
      if pyIsSpace c then
        let r2 := (c :: rest).dropWhile pyIsSpace
        let name := r2.takeWhile reWordChar
        if name.isEmpty then false
        else
          match (r2.drop name.length).dropWhile pyIsSpace with
          | '(' :: _ => true
          | _ => false
      else false
    | [] => false

/-- `JAVA_BLOCK_PATTERNS[0]`:
`^\s*(public|private|protected|static|\s)*\s*(class|interface|enum|record)\s+(\w+)`. -/
def javaClassLine (line : List Char) : Bool :=
  (javaModChain ["public", "private", "protected", "static"] line.length line).any (fun s =>
    let s2 := s.dropWhile pyIsSpace
    ["class", "interface", "enum", "record"].any (fun kw =>
      match dropKwSp s2 kw with
      | some r => !(r.takeWhile reWordChar).isEmpty
      | none => false))

/-- `JAVA_BLOCK_PATTERNS[1]` — the method-shaped line pattern. -/
def javaMethodLine (line : List Char) : Bool :=
  (javaModChain
    ["public", "private", "protected", "static", "final", "abstract", "synchronized",
      "native"] line.length line).any (fun s =>
    let s2 := s.dropWhile pyIsSpace
    match s2 with
    | '<' :: rest =>
      (javaGenericClose rest 0).any (fun g =>
        match g with
        | c :: _ => pyIsSpace c ∧ javaTypeAndCall (g.dropWhile pyIsSpace)
        | [] => false)
    | _ => javaTypeAndCall s2)

/-- `JAVA_BLOCK_PATTERNS[2]`: `^\s*@\w+`. -/
def javaAnnotationLine (line : List Char) : Bool :=
  match line.dropWhile pyIsSpace with
  | '@' :: c :: _ => reWordChar c
  | _ => false

/-- `java._is_block_start`. -/
def javaIsBlockStart (line : List Char) : Bool :=
  let stripped := pyLstrip line
  if line.length - stripped.length > 8 then false
  else
    javaClassLine line || javaMethodLine line || javaAnnotationLine line ||
    kwThenSpace (line.dropWhile pyIsSpace) "import" ||
    kwThenSpace (line.dropWhile pyIsSpace) "package"

/-- `re.search(kw + "\\s+(\\w+)", s)`: the first position where the keyword
followed by whitespace and a word matches, returning the captured word. -/
def searchKwName : List Char → String → Option (List Char)
  | [], _ => none
  | l@(_ :: rest), kw =>
    match dropKwSp l kw with
    | some r =>
      let n := r.takeWhile reWordChar
      if n.isEmpty then searchKwName rest kw else some n
    | none => searchKwName rest kw

/-- `re.search(r"(\w+)\s*\(", s)`: the first maximal word run followed by
optional whitespace and `(`. -/
def searchMethodName : List Char → Option (List Char)
  | [] => none
  | l@(_ :: rest) =>
    let w := l.takeWhile reWordChar
    if (!w.isEmpty &&
        (match (l.drop w.length).dropWhile pyIsSpace with
         | '(' :: _ => true
         | _ => false)) = true then
      some w
    else searchMethodName rest

/-- `java._extract_symbol`. -/
def javaExtractSymbol (line : List Char) : Option String × Option String :=
  let s := pyLstrip line
  match searchKwName s "class" with
  | some n => (some (String.mk n), some "class")
  | none =>
  match searchKwName s "interface" with
  | some n => (some (String.mk n), some "interface")
  | none =>
  match searchKwName s "enum" with
  | some n => (some (String.mk n), some "enum")
  | none =>
  match searchKwName s "record" with
  | some n => (some (String.mk n), some "record")
  | none =>
  match searchMethodName s with
  | some n =>
    if ["if", "while", "for", "switch", "catch"].contains (String.mk n) then (none, none)
    else (some (String.mk n), some "method")
  | none => (none, none)

/-- One header line of `chunk_java`'s package/import scan. -/
def javaIsHeaderLine (line : List Char) : Bool :=
  let s := pyStrip line
  startsWithL s "package " || startsWithL s "import " || s.isEmpty ||
  startsWithL s "//" || startsWithL s "/*" || startsWithL s "*"

/-- The per-line loop of `chunk_java`. The buffer is emitted at a block start
only once it holds more than `0.3 · token_target` tokens (`10·tok > 3·tt`). -/
def javaLoop (tt n : Nat) :
    List (List Char) → Nat → List (List Char) → Nat → Option String → Option String →
      Nat → List Chunk → List Chunk
  | [], _, cur, cur_start, sym, symt, _, acc =>
    (if cur.isEmpty then acc else pushChunk cur cur_start n sym symt acc).reverse
  | line :: rest, line_num, cur, cur_start, sym, symt, tok, acc =>
    let lt := estimate_tokens line
    if javaIsBlockStart line ∧ cur ≠ [] ∧ 10 * tok > 3 * tt then
      javaLoop tt n rest (line_num + 1) [line] line_num (javaExtractSymbol line).1
        (javaExtractSymbol line).2 lt (pushChunk cur cur_start (line_num - 1) sym symt acc)
    else if 2 * (tok + lt) > 3 * tt ∧ cur ≠ [] then
      javaLoop tt n rest (line_num + 1) [line] line_num none none lt
        (pushChunk cur cur_start (line_num - 1) sym symt acc)
    else
      javaLoop tt n rest (line_num + 1) (cur ++ [line]) cur_start
        (if cur.isEmpty then (javaExtractSymbol line).1 else sym)
        (if cur.isEmpty then (javaExtractSymbol line).2 else symt)
        (tok + lt) acc

/-- `java.chunk_java`. -/
def chunk_java (content : String) (file_path : String)
    (token_target overlap_tokens : Nat) : List Chunk :=
  if (pyStrip content.data).isEmpty then []
  else
    let lines := splitLinesKeep content.data
    let code_start := headerCount javaIsHeaderLine lines
    let header_lines := lines.take code_start
    let headerChunks : List Chunk :=
      if header_lines ≠ [] ∧ estimate_tokens header_lines.flatten > 10 then
        [mkChunk header_lines 1 code_start 0 none none]
      else []
    javaLoop token_target lines.length (lines.drop code_start) (code_start + 1)
      [] (code_start + 1) none none 0 headerChunks.reverse

/-! ### Dispatcher (src/craigpy/chunking/__init__.py) -/

/-- Little-endian decimal digits of `n` (fuel-indexed). -/
def natDigitsLE : Nat → Nat → List Nat
  | 0, _ => []
  | fuel + 1, n => if n < 10 then [n] else (n % 10) :: natDigitsLE fuel (n / 10)

/-- Python `str(n)` for a natural number: decimal digits, most significant
first. -/
def natRepr (n : Nat) : String :=
  String.mk ((natDigitsLE (n + 1) n).reverse.map (fun d => Char.ofNat (48 + d)))

/-- The NUL character used as separator in `chunk_file`'s hash preimage. -/
def nulChar : Char := Char.ofNat 0

/-- The final component of a relative path (`pathlib.Path(p).name`). -/
def pathName (p : String) : String :=
  String.mk ((p.data.reverse.takeWhile (fun c => c ≠ '/')).reverse)

/-- The lowercased extension of a path (`Path(p).suffix.lower()`). -/
def pathSuffixLower (p : String) : String :=
  String.mk ((pySuffix (pathName p)).data.map Char.toLower)

/-- `file_filter.get_language`: extension → language label. -/
def get_language (p : String) : Option String :=
  alookup [
    (".py", "python"), (".pyw", "python"), (".pyx", "python"), (".pyi", "python"),
    (".ts", "typescript"), (".tsx", "typescript"),
    (".js", "javascript"), (".jsx", "javascript"), (".mjs", "javascript"),
    (".cjs", "javascript"),
    (".java", "java"), (".kt", "kotlin"), (".kts", "kotlin"),
    (".go", "go"),
    (".rs", "rust"),
    (".c", "c"), (".h", "c"),
    (".cpp", "cpp"), (".cc", "cpp"), (".cxx", "cpp"), (".hpp", "cpp"),
    (".rb", "ruby"),
    (".php", "php"),
    (".swift", "swift"),
    (".sql", "sql"),
    (".sh", "shell"), (".bash", "shell"), (".zsh", "shell"),
    (".md", "markdown"), (".mdx", "markdown"),
    (".json", "json"), (".yaml", "yaml"), (".yml", "yaml"),
    (".toml", "toml"),
    (".html", "html"), (".css", "css"),
    (".xml", "xml")] (pathSuffixLower p)

/-- `_CHUNKER_MAP`: lowercased extension → per-language chunker. -/
def _CHUNKER_MAP : List (String × (String → String → Nat → Nat → List Chunk)) := [
  (".ts", chunk_typescript), (".tsx", chunk_typescript),
  (".js", chunk_typescript), (".jsx", chunk_typescript),
  (".mjs", chunk_typescript), (".cjs", chunk_typescript),
  (".py", chunk_python), (".pyw", chunk_python),
  (".pyx", chunk_python), (".pyi", chunk_python),
  (".java", chunk_java), (".kt", chunk_java), (".kts", chunk_java),
  (".go", chunk_go)]

/-- The hash preimage `f"{file_path}\x00{chunk_index}\x00{content}"` the
dispatcher feeds to `hash_content`. -/
def chunkHashPreimage (file_path : String) (chunk_index : Nat) (content : String) :
    String :=
  file_path ++ String.mk [nulChar] ++ natRepr chunk_index ++ String.mk [nulChar] ++ content

/-- `chunking.chunk_file` — dispatch on extension, then set `language` and
rewrite `chunk_hash` from the file context. -/
def chunk_file (content : String) (file_path : String)
    (token_target : Nat := 500) (overlap_tokens : Nat := 64) : List Chunk :=
  let ext := pathSuffixLower file_path
  let chunker := match alookup _CHUNKER_MAP ext with
    | some f => f
    | none => chunk_generic
  let chunks := chunker content file_path token_target overlap_tokens
  let language := get_language file_path
  chunks.map (fun c =>
    { c with
      language := language
      chunk_hash := hash_content (chunkHashPreimage file_path c.chunk_index c.content) })

/-! ### C3: the dispatcher's chunk hash -/

/-- Value of a little-endian digit list. -/
def digitsValLE : List Nat → Nat
  | [] => 0
  | d :: ds => d + 10 * digitsValLE ds

theorem natDigitsLE_val : ∀ fuel n, n < fuel → digitsValLE (natDigitsLE fuel n) = n := by
  intro fuel
  induction fuel with
  | zero => intro n h; omega
  | succ f ih =>
    intro n h
    by_cases h10 : n < 10
    · simp [natDigitsLE, h10, digitsValLE]
    · have hn : 0 < n := by omega
      have hdiv : n / 10 < f :=
        Nat.lt_of_lt_of_le (Nat.div_lt_self hn (by omega)) (by omega)
      simp [natDigitsLE, h10, digitsValLE, ih _ hdiv]
      exact Nat.mod_add_div n 10

theorem natDigitsLE_lt : ∀ fuel n, ∀ d ∈ natDigitsLE fuel n, d < 10 := by
  intro fuel
  induction fuel with
  | zero => intro n d hd; simp [natDigitsLE] at hd
  | succ f ih =>
    intro n d hd
    by_cases h10 : n < 10
    · simp [natDigitsLE, h10] at hd
      omega
    · simp [natDigitsLE, h10] at hd
      rcases hd with h | h
      · omega
      · exact ih _ d h

theorem charDigit_toNat {d : Nat} (h : d < 10) : (Char.ofNat (48 + d)).toNat = 48 + d := by
  interval_cases d <;> decide

theorem charDigit_ne_nul {d : Nat} (h : d < 10) : Char.ofNat (48 + d) ≠ nulChar := by
  interval_cases d <;> decide

theorem natRepr_no_nul (n : Nat) : nulChar ∉ (natRepr n).data := by
  unfold natRepr
  intro hmem
  rcases List.mem_map.mp hmem with ⟨d, hd, hEq⟩
  exact charDigit_ne_nul (natDigitsLE_lt _ _ d (List.mem_reverse.mp hd)) hEq

theorem digitsMap_inj : ∀ (l1 l2 : List Nat), (∀ d ∈ l1, d < 10) → (∀ d ∈ l2, d < 10) →
    l1.map (fun d => Char.ofNat (48 + d)) = l2.map (fun d => Char.ofNat (48 + d)) →
    l1 = l2 := by
  intro l1
  induction l1 with
  | nil =>
    intro l2 _ _ h
    cases l2 with
    | nil => rfl
    | cons e es => simp at h
  | cons d ds ih =>
    intro l2 h1 h2 h
    cases l2 with
    | nil => simp at h
    | cons e es =>
      simp only [List.map_cons, List.cons.injEq] at h
      obtain ⟨hde, hrest⟩ := h
      have hd := h1 d (by simp)
      have he := h2 e (by simp)
      have hv := congrArg Char.toNat hde
      rw [charDigit_toNat hd, charDigit_toNat he] at hv
      have : d = e := by omega
      rw [this, ih es (fun x hx => h1 x (by simp [hx]))
        (fun x hx => h2 x (by simp [hx])) hrest]

theorem natRepr_inj {m n : Nat} (h : natRepr m = natRepr n) : m = n := by
  have hdata := congrArg String.data h
  unfold natRepr at hdata
  have hrev := digitsMap_inj _ _
    (fun d hd => natDigitsLE_lt _ _ d (List.mem_reverse.mp hd))
    (fun d hd => natDigitsLE_lt _ _ d (List.mem_reverse.mp hd)) hdata
  have hle : natDigitsLE (m + 1) m = natDigitsLE (n + 1) n :=
    List.reverse_injective hrev
  calc m = digitsValLE (natDigitsLE (m + 1) m) := (natDigitsLE_val _ _ (by omega)).symm
    _ = digitsValLE (natDigitsLE (n + 1) n) := by rw [hle]
    _ = n := natDigitsLE_val _ _ (by omega)

theorem sep_split : ∀ (a1 a2 b1 b2 : List Char) (sep : Char),
    sep ∉ a1 → sep ∉ a2 → a1 ++ sep :: b1 = a2 ++ sep :: b2 → a1 = a2 ∧ b1 = b2 := by
  intro a1
  induction a1 with
  | nil =>
    intro a2 b1 b2 sep h1 h2 h
    cases a2 with
    | nil => simpa using h
    | cons x xs =>
      simp only [List.nil_append, List.cons_append, List.cons.injEq] at h
      exact absurd (h.1 ▸ List.mem_cons_self x xs) h2
  | cons x xs ih =>
    intro a2 b1 b2 sep h1 h2 h
    cases a2 with
    | nil =>
      simp only [List.nil_append, List.cons_append, List.cons.injEq] at h
      exact absurd (h.1 ▸ List.mem_cons_self x xs) h1
    | cons y ys =>
      simp only [List.cons_append, List.cons.injEq] at h
      obtain ⟨hxy, hrest⟩ := h
      have hr := ih ys b1 b2 sep (fun hm => h1 (List.mem_cons_of_mem _ hm))
        (fun hm => h2 (List.mem_cons_of_mem _ hm)) hrest
      exact ⟨by rw [hxy, hr.1], hr.2⟩

theorem chunkHashPreimage_inj {p1 p2 : String} {i1 i2 : Nat} {c1 c2 : String}
    (h1 : nulChar ∉ p1.data) (h2 : nulChar ∉ p2.data)
    (h : chunkHashPreimage p1 i1 c1 = chunkHashPreimage p2 i2 c2) :
    p1 = p2 ∧ i1 = i2 ∧ c1 = c2 := by
  have hdata := congrArg String.data h
  unfold chunkHashPreimage at hdata
  simp only [show ∀ s t : String, (s ++ t).data = s.data ++ t.data from fun _ _ => rfl,
    List.append_assoc] at hdata
  have hfirst := sep_split p1.data p2.data _ _ nulChar h1 h2 (by
    simpa using hdata)
  obtain ⟨hp, hrest⟩ := hfirst
  have hsecond := sep_split (natRepr i1).data (natRepr i2).data c1.data c2.data nulChar
    (natRepr_no_nul i1) (natRepr_no_nul i2) (by simpa using hrest)
  exact ⟨String.ext hp, natRepr_inj (String.ext hsecond.1), String.ext hsecond.2⟩

/-- C3: every chunk returned by the dispatcher `chunk_file` has `chunk_hash`
equal to the SHA-256 of `file_path ‖ NUL ‖ chunk_index ‖ NUL ‖ content`
(overwriting any provisional hash), and for NUL-free file paths two chunks
differing in file path, chunk index, or content have different hash
preimages. -/
theorem chunk_file_hash_correct (content file_path : String) (tt ot : Nat) :
    (∀ c ∈ chunk_file content file_path tt ot,
      c.chunk_hash = hash_content (chunkHashPreimage file_path c.chunk_index c.content)) ∧
    (∀ (p1 p2 : String) (i1 i2 : Nat) (c1 c2 : String),
      nulChar ∉ p1.data → nulChar ∉ p2.data →
      (p1, i1, c1) ≠ (p2, i2, c2) →
      chunkHashPreimage p1 i1 c1 ≠ chunkHashPreimage p2 i2 c2) := by
  constructor
  · intro c hc
    simp only [chunk_file, List.mem_map] at hc
    obtain ⟨c0, _, hEq⟩ := hc
    subst hEq
    rfl
  · intro p1 p2 i1 i2 c1 c2 h1 h2 hne hEq
    obtain ⟨hp, hi, hc⟩ := chunkHashPreimage_inj h1 h2 hEq
    exact hne (by rw [hp, hi, hc])

/-- Witness for C3: the single chunk of a one-line Python file carries the
rewritten hash, and two concrete distinct preimages differ. -/
theorem chunk_file_hash_correct_witness :
    (∀ c ∈ chunk_file "def a():\n    pass\n" "pkg/mod.py" 500 64,
      c.chunk_hash =
        hash_content (chunkHashPreimage "pkg/mod.py" c.chunk_index c.content)) ∧
    (∀ (p1 p2 : String) (i1 i2 : Nat) (c1 c2 : String),
      nulChar ∉ p1.data → nulChar ∉ p2.data →
      (p1, i1, c1) ≠ (p2, i2, c2) →
      chunkHashPreimage p1 i1 c1 ≠ chunkHashPreimage p2 i2 c2) :=
  chunk_file_hash_correct "def a():\n    pass\n" "pkg/mod.py" 500 64

/-! ### Shared chunk-loop lemmas -/

theorem pyStrip_eq_nil_iff {l : List Char} :
    pyStrip l = [] ↔ ∀ c ∈ l, pyIsSpace c = true := by
  unfold pyStrip
  constructor
  · intro h c hc
    have h2 : (l.dropWhile pyIsSpace).reverse.dropWhile pyIsSpace = [] := by
      rcases hrev : (l.dropWhile pyIsSpace).reverse.dropWhile pyIsSpace with _ | ⟨x, xs⟩
      · rfl
      · rw [hrev] at h; simp at h
    have hall : ∀ x ∈ (l.dropWhile pyIsSpace).reverse, pyIsSpace x = true :=
      List.dropWhile_eq_nil_iff.mp h2
    have hallDrop : ∀ x ∈ l.dropWhile pyIsSpace, pyIsSpace x = true := fun x hx =>
      hall x (List.mem_reverse.mpr hx)
    have hsplit := List.takeWhile_append_dropWhile (p := pyIsSpace) (l := l)
    rw [← hsplit] at hc
    rcases List.mem_append.mp hc with h' | h'
    · exact List.mem_takeWhile_imp h'
    · exact hallDrop c h'
  · intro h
    have h1 : l.dropWhile pyIsSpace = [] := List.dropWhile_eq_nil_iff.mpr h
    simp [h1]

theorem pyStrip_append_ne_nil_left {a b : List Char}
    (h : (pyStrip a).isEmpty = false) : (pyStrip (a ++ b)).isEmpty = false := by
  rw [Bool.eq_false_iff] at h ⊢
  intro htrue
  apply h
  rw [List.isEmpty_iff] at htrue ⊢
  rw [pyStrip_eq_nil_iff] at htrue ⊢
  exact fun c hc => htrue c (List.mem_append_left _ hc)

theorem pushChunk_mem {ls : List (List Char)} {s e : Nat} {sym symt : Option String}
    {acc : List Chunk} {c : Chunk} (h : c ∈ pushChunk ls s e sym symt acc) :
    c ∈ acc ∨ (c.start_line = s ∧ c.end_line = e) := by
  unfold pushChunk at h
  by_cases hs : (pyStrip ls.flatten).isEmpty
  · rw [if_pos hs] at h; exact Or.inl h
  · rw [if_neg hs] at h
    rcases List.mem_cons.mp h with h' | h'
    · exact Or.inr (by rw [h']; exact ⟨rfl, rfl⟩)
    · exact Or.inl h'

theorem overlapWalk_length_le (ot : Nat) :
    ∀ (l : List (List Char)) (tok : Nat) (acc : List (List Char)),
    (overlapWalk ot l tok acc).1.length ≤ l.length + acc.length := by
  intro l
  induction l with
  | nil => intro tok acc; simp [overlapWalk]
  | cons pl rest ih =>
    intro tok acc
    unfold overlapWalk
    by_cases h : tok + estimate_tokens pl > ot
    · rw [if_pos h]; simp
    · rw [if_neg h]
      have := ih (tok + estimate_tokens pl) (pl :: acc)
      simp at this ⊢
      omega

/-! ### C5: chunk boundaries — start ≤ end and generic coverage -/

theorem genericLoop_bounds (tt ot m : Nat) :
    ∀ (rem : List (List Char)) (i : Nat) (cur : List (List Char)) (cs tok : Nat)
      (acc : List Chunk),
    cs + cur.length = i → m ≤ cs →
    (∀ c ∈ acc, c.start_line ≤ c.end_line ∧ m ≤ c.start_line) →
    ∀ c ∈ genericLoop tt ot rem i cur cs tok acc,
      c.start_line ≤ c.end_line ∧ m ≤ c.start_line := by
  intro rem
  induction rem with
  | nil =>
    intro i cur cs tok acc hinv hm hacc c hc
    unfold genericLoop at hc
    rw [List.mem_reverse] at hc
    by_cases hcur : cur.isEmpty
    · rw [if_pos hcur] at hc; exact hacc c hc
    · rw [if_neg hcur] at hc
      rcases List.mem_cons.mp hc with h' | h'
      · subst h'
        have : cur.length ≥ 1 := by
          cases cur
          · simp at hcur
          · simp
        exact ⟨by simp [mkChunk]; omega, by simp [mkChunk]; omega⟩
      · exact hacc c h'
  | cons line rest ih =>
    intro i cur cs tok acc hinv hm hacc c hc
    unfold genericLoop at hc
    by_cases h1 : 5 * (tok + estimate_tokens line) > 6 * tt ∧ cur ≠ []
    · rw [if_pos h1] at hc
      have hlen : cur.length ≥ 1 := by
        rcases h1 with ⟨_, hne⟩
        cases cur
        · exact absurd rfl hne
        · simp
      have hk : (overlapWalk ot cur.reverse 0 []).1.length ≤ cur.length := by
        have := overlapWalk_length_le ot cur.reverse 0 []
        simpa using this
      refine ih (i + 1) _ _ _ _ (by simp; omega) (by omega) ?_ c hc
      intro c' hc'
      rcases List.mem_cons.mp hc' with h' | h'
      · subst h'
        exact ⟨by simp [mkChunk]; omega, by simp [mkChunk]; omega⟩
      · exact hacc c' h'
    · rw [if_neg h1] at hc
      by_cases h2 : (pyStrip line).isEmpty = true ∧ 5 * tok ≥ 3 * tt ∧ cur ≠ []
      · rw [if_pos h2] at hc
        have hlen : cur.length ≥ 1 := by
          rcases h2 with ⟨_, _, hne⟩
          cases cur
          · exact absurd rfl hne
          · simp
        refine ih (i + 1) _ _ _ _ (by simp) (by omega) ?_ c hc
        intro c' hc'
        rcases List.mem_cons.mp hc' with h' | h'
        · subst h'
          exact ⟨by simp [mkChunk]; omega, by simp [mkChunk]; omega⟩
        · exact hacc c' h'
      · rw [if_neg h2] at hc
        exact ih (i + 1) _ _ _ _ (by simp; omega) hm hacc c hc

/-- Chunk line-span sum: `∑ (end_line − start_line + 1)`. -/
def chunkSpanSum (cs : List Chunk) : Nat :=
  (cs.map (fun c => c.end_line - c.start_line + 1)).sum

/-- Number of blank (whitespace-only) lines. -/
def blankCount (ls : List (List Char)) : Nat :=
  (ls.filter (fun l => (pyStrip l).isEmpty)).length

theorem genericLoop_coverage (tt ot : Nat) :
    ∀ (rem : List (List Char)) (i : Nat) (cur : List (List Char)) (cs tok : Nat)
      (acc : List Chunk),
    cs + cur.length = i →
    chunkSpanSum (genericLoop tt ot rem i cur cs tok acc) + blankCount rem ≥
      chunkSpanSum acc + cur.length + rem.length := by
  intro rem
  induction rem with
  | nil =>
    intro i cur cs tok acc hinv
    unfold genericLoop
    by_cases hcur : cur.isEmpty
    · rw [if_pos hcur]
      have hc0 : cur.length = 0 := by cases cur <;> simp_all
      have hrev : chunkSpanSum acc.reverse = chunkSpanSum acc := by
        simp [chunkSpanSum, List.map_reverse, List.sum_reverse]
      simp [blankCount, hrev, hc0]
    · rw [if_neg hcur]
      have hlen : cur.length ≥ 1 := by cases cur <;> simp_all
      simp only [blankCount, List.filter_nil, List.length_nil]
      have hsum : chunkSpanSum ((mkChunk cur cs (cs + cur.length - 1) acc.length none none
          :: acc).reverse) = chunkSpanSum acc + cur.length := by
        simp [chunkSpanSum, List.map_reverse, List.sum_reverse, mkChunk]
        omega
      rw [hsum]
  | cons line rest ih =>
    intro i cur cs tok acc hinv
    unfold genericLoop
    by_cases h1 : 5 * (tok + estimate_tokens line) > 6 * tt ∧ cur ≠ []
    · rw [if_pos h1]
      have hlen : cur.length ≥ 1 := by
        rcases h1 with ⟨_, hne⟩
        cases cur
        · exact absurd rfl hne
        · simp
      have hk : (overlapWalk ot cur.reverse 0 []).1.length ≤ cur.length := by
        have := overlapWalk_length_le ot cur.reverse 0 []
        simpa using this
      have hrec := ih (i + 1) ((overlapWalk ot cur.reverse 0 []).1 ++ [line])
        (i - (overlapWalk ot cur.reverse 0 []).1.length)
        ((overlapWalk ot cur.reverse 0 []).2 + estimate_tokens line)
        (mkChunk cur cs (i - 1) acc.length none none :: acc) (by simp; omega)
      have hchunk : chunkSpanSum (mkChunk cur cs (i - 1) acc.length none none :: acc) =
          chunkSpanSum acc + cur.length := by
        simp [chunkSpanSum, mkChunk]
        omega
      rw [hchunk] at hrec
      have hbl : blankCount (line :: rest) ≥ blankCount rest := by
        unfold blankCount
        by_cases hb : (pyStrip line).isEmpty <;> simp [hb]
      simp only [List.length_cons]
      have hol : (overlapWalk ot cur.reverse 0 []).1.length + 1 =
          ((overlapWalk ot cur.reverse 0 []).1 ++ [line]).length := by simp
      omega
    · rw [if_neg h1]
      by_cases h2 : (pyStrip line).isEmpty = true ∧ 5 * tok ≥ 3 * tt ∧ cur ≠ []
      · rw [if_pos h2]
        have hlen : cur.length ≥ 1 := by
          rcases h2 with ⟨_, _, hne⟩
          cases cur
          · exact absurd rfl hne
          · simp
        have hrec := ih (i + 1) [] (i + 1) 0
          (mkChunk cur cs (i - 1) acc.length none none :: acc) (by simp)
        have hchunk : chunkSpanSum (mkChunk cur cs (i - 1) acc.length none none :: acc) =
            chunkSpanSum acc + cur.length := by
          simp [chunkSpanSum, mkChunk]
          omega
        rw [hchunk] at hrec
        have hbl : blankCount (line :: rest) = blankCount rest + 1 := by
          unfold blankCount
          simp [h2.1]
        simp only [List.length_cons]
        omega
      · rw [if_neg h2]
        have hrec := ih (i + 1) (cur ++ [line]) cs (tok + estimate_tokens line) acc
          (by simp; omega)
        have hbl : blankCount (line :: rest) ≥ blankCount rest := by
          unfold blankCount
          by_cases hb : (pyStrip line).isEmpty <;> simp [hb]
        simp only [List.length_cons, List.length_append, List.length_cons,
          List.length_nil] at hrec ⊢
        omega

theorem pushChunk_forall {ls : List (List Char)} {s e : Nat} {sym symt : Option String}
    {acc : List Chunk} {P : Chunk → Prop} (hacc : ∀ c ∈ acc, P c)
    (hnew : ∀ idx, P (mkChunk ls s e idx sym symt)) :
    ∀ c ∈ pushChunk ls s e sym symt acc, P c := by
  intro c hc
  unfold pushChunk at hc
  by_cases hs : (pyStrip ls.flatten).isEmpty
  · rw [if_pos hs] at hc; exact hacc c hc
  · rw [if_neg hs] at hc
    rcases List.mem_cons.mp hc with h | h
    · exact h ▸ hnew acc.length
    · exact hacc c h

theorem pythonLoop_bounds (tt n m : Nat) :
    ∀ (rem : List (List Char)) (ln : Nat) (cur : List (List Char)) (cs : Nat)
      (sym symt : Option String) (tok : Nat) (inDec : Bool) (acc : List Chunk),
    cs + cur.length = ln → ln + rem.length = n + 1 → m ≤ cs →
    (∀ c ∈ acc, c.start_line ≤ c.end_line ∧ m ≤ c.start_line) →
    ∀ c ∈ pythonLoop tt n rem ln cur cs sym symt tok inDec acc,
      c.start_line ≤ c.end_line ∧ m ≤ c.start_line := by
  intro rem
  induction rem with
  | nil =>
    intro ln cur cs sym symt tok inDec acc hinv hn hm hacc c hc
    unfold pythonLoop at hc
    rw [List.mem_reverse] at hc
    by_cases hcur : cur.isEmpty
    · rw [if_pos hcur] at hc; exact hacc c hc
    · rw [if_neg hcur] at hc
      have hlen : cur.length ≥ 1 := by cases cur <;> simp_all
      exact pushChunk_forall hacc
        (fun idx => ⟨by simp [mkChunk]; omega, by simp [mkChunk]; omega⟩) c hc
  | cons line rest ih =>
    intro ln cur cs sym symt tok inDec acc hinv hn hm hacc c hc
    unfold pythonLoop at hc
    simp only [List.length_cons] at hn
    by_cases hb1 : startsWithL (pyLstrip line) "@" = true ∧
        line.length - (pyLstrip line).length ≤ 4
    · rw [if_pos hb1] at hc
      by_cases hb2 : ¬inDec = true ∧ cur ≠ [] ∧ tok > 0
      · rw [if_pos hb2] at hc
        have hlen : cur.length ≥ 1 := by
          rcases hb2 with ⟨_, hne, _⟩
          cases cur
          · exact absurd rfl hne
          · simp
        refine ih (ln + 1) _ _ _ _ _ _ _ (by simp) (by omega) (by omega)
          (pushChunk_forall hacc
            (fun idx => ⟨by simp [mkChunk]; omega, by simp [mkChunk]; omega⟩)) c hc
      · rw [if_neg hb2] at hc
        exact ih (ln + 1) _ _ _ _ _ _ _ (by simp; omega) (by omega) hm hacc c hc
    · rw [if_neg hb1] at hc
      by_cases hb3 : (matchDefName (pyLstrip line) ≠ none ∨
          matchClassName (pyLstrip line) ≠ none) ∧
          line.length - (pyLstrip line).length ≤ 4
      · rw [if_pos hb3] at hc
        by_cases hb4 : cur ≠ [] ∧ tok > 0 ∧
            ¬(cur.any (fun l => startsWithL (pyLstrip l) "@")) = true
        · rw [if_pos hb4] at hc
          have hlen : cur.length ≥ 1 := by
            rcases hb4 with ⟨hne, _, _⟩
            cases cur
            · exact absurd rfl hne
            · simp
          refine ih (ln + 1) _ _ _ _ _ _ _ (by simp) (by omega) (by omega)
            (pushChunk_forall hacc
              (fun idx => ⟨by simp [mkChunk]; omega, by simp [mkChunk]; omega⟩)) c hc
        · rw [if_neg hb4] at hc
          exact ih (ln + 1) _ _ _ _ _ _ _ (by simp; omega) (by omega) hm hacc c hc
      · rw [if_neg hb3] at hc
        by_cases hb5 : 2 * (tok + estimate_tokens line) > 3 * tt ∧ cur ≠ []
        · rw [if_pos hb5] at hc
          have hlen : cur.length ≥ 1 := by
            rcases hb5 with ⟨_, hne⟩
            cases cur
            · exact absurd rfl hne
            · simp
          refine ih (ln + 1) _ _ _ _ _ _ _ (by simp) (by omega) (by omega)
            (pushChunk_forall hacc
              (fun idx => ⟨by simp [mkChunk]; omega, by simp [mkChunk]; omega⟩)) c hc
        · rw [if_neg hb5] at hc
          exact ih (ln + 1) _ _ _ _ _ _ _ (by simp; omega) (by omega) hm hacc c hc

theorem tsLoop_bounds (tt ot n m : Nat) :
    ∀ (rem : List (List Char)) (ln : Nat) (cur : List (List Char)) (cs : Nat)
      (sym symt : Option String) (tok : Nat) (acc : List Chunk),
    cs + cur.length = ln → ln + rem.length = n + 1 → m ≤ cs →
    (∀ c ∈ acc, c.start_line ≤ c.end_line ∧ m ≤ c.start_line) →
    ∀ c ∈ tsLoop tt ot n rem ln cur cs sym symt tok acc,
      c.start_line ≤ c.end_line ∧ m ≤ c.start_line := by
  intro rem
  induction rem with
  | nil =>
    intro ln cur cs sym symt tok acc hinv hn hm hacc c hc
    unfold tsLoop at hc
    rw [List.mem_reverse] at hc
    by_cases hcur : cur.isEmpty
    · rw [if_pos hcur] at hc; exact hacc c hc
    · rw [if_neg hcur] at hc
      have hlen : cur.length ≥ 1 := by cases cur <;> simp_all
      exact pushChunk_forall hacc
        (fun idx => ⟨by simp [mkChunk]; omega, by simp [mkChunk]; omega⟩) c hc
  | cons line rest ih =>
    intro ln cur cs sym symt tok acc hinv hn hm hacc c hc
    unfold tsLoop at hc
    simp only [List.length_cons] at hn
    by_cases hb1 : tsIsBlockStart line = true ∧ cur ≠ [] ∧ tok > 0
    · rw [if_pos hb1] at hc
      have hlen : cur.length ≥ 1 := by
        rcases hb1 with ⟨_, hne, _⟩
        cases cur
        · exact absurd rfl hne
        · simp
      refine ih (ln + 1) _ _ _ _ _ _ (by simp) (by omega) (by omega)
        (pushChunk_forall hacc
          (fun idx => ⟨by simp [mkChunk]; omega, by simp [mkChunk]; omega⟩)) c hc
    · rw [if_neg hb1] at hc
      by_cases hb2 : 2 * (tok + estimate_tokens line) > 3 * tt ∧ cur ≠ []
      · rw [if_pos hb2] at hc
        have hlen : cur.length ≥ 1 := by
          rcases hb2 with ⟨_, hne⟩
          cases cur
          · exact absurd rfl hne
          · simp
        have hk : (overlapWalk ot cur.reverse 0 []).1.length ≤ cur.length := by
          have := overlapWalk_length_le ot cur.reverse 0 []
          simpa using this
        refine ih (ln + 1) _ _ _ _ _ _
          (by simp only [List.length_append, List.length_cons, List.length_nil]; omega)
          (by omega) (by omega)
          (pushChunk_forall hacc
            (fun idx => ⟨by simp [mkChunk]; omega, by simp [mkChunk]; omega⟩)) c hc
      · rw [if_neg hb2] at hc
        exact ih (ln + 1) _ _ _ _ _ _ (by simp; omega) (by omega) hm hacc c hc

theorem goLoop_bounds (tt n m : Nat) :
    ∀ (rem : List (List Char)) (ln : Nat) (cur : List (List Char)) (cs : Nat)
      (sym symt : Option String) (tok : Nat) (acc : List Chunk),
    cs + cur.length = ln → ln + rem.length = n + 1 → m ≤ cs →
    (∀ c ∈ acc, c.start_line ≤ c.end_line ∧ m ≤ c.start_line) →
    ∀ c ∈ goLoop tt n rem ln cur cs sym symt tok acc,
      c.start_line ≤ c.end_line ∧ m ≤ c.start_line := by
  intro rem
  induction rem with
  | nil =>
    intro ln cur cs sym symt tok acc hinv hn hm hacc c hc
    unfold goLoop at hc
    rw [List.mem_reverse] at hc
    by_cases hcur : cur.isEmpty
    · rw [if_pos hcur] at hc; exact hacc c hc
    · rw [if_neg hcur] at hc
      have hlen : cur.length ≥ 1 := by cases cur <;> simp_all
      exact pushChunk_forall hacc
        (fun idx => ⟨by simp [mkChunk]; omega, by simp [mkChunk]; omega⟩) c hc
  | cons line rest ih =>
    intro ln cur cs sym symt tok acc hinv hn hm hacc c hc
    unfold goLoop at hc
    simp only [List.length_cons] at hn
    by_cases hb1 : goIsBlockStart line = true ∧ cur ≠ [] ∧ tok > 0
    · rw [if_pos hb1] at hc
      have hlen : cur.length ≥ 1 := by
        rcases hb1 with ⟨_, hne, _⟩
        cases cur
        · exact absurd rfl hne
        · simp
      refine ih (ln + 1) _ _ _ _ _ _ (by simp) (by omega) (by omega)
        (pushChunk_forall hacc
          (fun idx => ⟨by simp [mkChunk]; omega, by simp [mkChunk]; omega⟩)) c hc
    · rw [if_neg hb1] at hc
      by_cases hb2 : 2 * (tok + estimate_tokens line) > 3 * tt ∧ cur ≠ []
      · rw [if_pos hb2] at hc
        have hlen : cur.length ≥ 1 := by
          rcases hb2 with ⟨_, hne⟩
          cases cur
          · exact absurd rfl hne
          · simp
        refine ih (ln + 1) _ _ _ _ _ _ (by simp) (by omega) (by omega)
          (pushChunk_forall hacc
            (fun idx => ⟨by simp [mkChunk]; omega, by simp [mkChunk]; omega⟩)) c hc
      · rw [if_neg hb2] at hc
        exact ih (ln + 1) _ _ _ _ _ _ (by simp; omega) (by omega) hm hacc c hc

theorem javaLoop_bounds (tt n m : Nat) :
    ∀ (rem : List (List Char)) (ln : Nat) (cur : List (List Char)) (cs : Nat)
      (sym symt : Option String) (tok : Nat) (acc : List Chunk),
    cs + cur.length = ln → ln + rem.length = n + 1 → m ≤ cs →
    (∀ c ∈ acc, c.start_line ≤ c.end_line ∧ m ≤ c.start_line) →
    ∀ c ∈ javaLoop tt n rem ln cur cs sym symt tok acc,
      c.start_line ≤ c.end_line ∧ m ≤ c.start_line := by
  intro rem
  induction rem with
  | nil =>
    intro ln cur cs sym symt tok acc hinv hn hm hacc c hc
    unfold javaLoop at hc
    rw [List.mem_reverse] at hc
    by_cases hcur : cur.isEmpty
    · rw [if_pos hcur] at hc; exact hacc c hc
    · rw [if_neg hcur] at hc
      have hlen : cur.length ≥ 1 := by cases cur <;> simp_all
      exact pushChunk_forall hacc
        (fun idx => ⟨by simp [mkChunk]; omega, by simp [mkChunk]; omega⟩) c hc
  | cons line rest ih =>
    intro ln cur cs sym symt tok acc hinv hn hm hacc c hc
    unfold javaLoop at hc
    simp only [List.length_cons] at hn
    by_cases hb1 : javaIsBlockStart line = true ∧ cur ≠ [] ∧ 10 * tok > 3 * tt
    · rw [if_pos hb1] at hc
      have hlen : cur.length ≥ 1 := by
        rcases hb1 with ⟨_, hne, _⟩
        cases cur
        · exact absurd rfl hne
        · simp
      refine ih (ln + 1) _ _ _ _ _ _ (by simp) (by omega) (by omega)
        (pushChunk_forall hacc
          (fun idx => ⟨by simp [mkChunk]; omega, by simp [mkChunk]; omega⟩)) c hc
    · rw [if_neg hb1] at hc
      by_cases hb2 : 2 * (tok + estimate_tokens line) > 3 * tt ∧ cur ≠ []
      · rw [if_pos hb2] at hc
        have hlen : cur.length ≥ 1 := by
          rcases hb2 with ⟨_, hne⟩
          cases cur
          · exact absurd rfl hne
          · simp
        refine ih (ln + 1) _ _ _ _ _ _ (by simp) (by omega) (by omega)
          (pushChunk_forall hacc
            (fun idx => ⟨by simp [mkChunk]; omega, by simp [mkChunk]; omega⟩)) c hc
      · rw [if_neg hb2] at hc
        exact ih (ln + 1) _ _ _ _ _ _ (by simp; omega) (by omega) hm hacc c hc

theorem splitLinesAux_cons_boundary {c : Char} {rest acc : List Char}
    (hno : ∀ r1, c = '\x0d' → rest = '\n' :: r1 → False)
    (hb : isLineBoundary c = true) :
    splitLinesAux (c :: rest) acc = (acc.reverse ++ [c]) :: splitLinesAux rest [] := by
  rw [splitLinesAux.eq_def]
  split
  · simp_all
  · rename_i rest2 heq
    injection heq with h1 h2
    exact (hno rest2 h1 h2).elim
  · rename_i c2 rest2 hx heq
    injection heq with h1 h2
    subst h1
    subst h2
    rw [if_pos hb]

theorem splitLinesAux_cons_plain {c : Char} {rest acc : List Char}
    (hno : ∀ r1, c = '\x0d' → rest = '\n' :: r1 → False)
    (hb : isLineBoundary c = false) :
    splitLinesAux (c :: rest) acc = splitLinesAux rest (c :: acc) := by
  rw [splitLinesAux.eq_def]
  split
  · simp_all
  · rename_i rest2 heq
    injection heq with h1 h2
    exact (hno rest2 h1 h2).elim
  · rename_i c2 rest2 hx heq
    injection heq with h1 h2
    subst h1
    subst h2
    rw [if_neg (by simp [hb])]

theorem splitLinesAux_flatten : ∀ (l acc : List Char),
    (splitLinesAux l acc).flatten = acc.reverse ++ l := by
  intro l acc
  induction l, acc using splitLinesAux.induct with
  | case1 acc hacc =>
    have : acc = [] := by cases acc <;> simp_all
    simp [splitLinesAux, this]
  | case2 acc hacc =>
    have hne : acc ≠ [] := by cases acc <;> simp_all
    simp [splitLinesAux, hne]
  | case3 rest acc ih => simp [splitLinesAux, ih]
  | case4 c rest acc hno hb ih =>
    rw [splitLinesAux_cons_boundary hno hb]
    simp [ih]
  | case5 c rest acc hno hb ih =>
    rw [splitLinesAux_cons_plain hno (by simpa using hb), ih]
    simp

theorem splitLinesAux_no_boundary : ∀ (l acc : List Char),
    (∀ c ∈ l, isLineBoundary c = false) →
    splitLinesAux l acc = if acc.reverse ++ l = [] then [] else [acc.reverse ++ l] := by
  intro l acc
  induction l, acc using splitLinesAux.induct with
  | case1 acc hacc =>
    intro _
    have : acc = [] := by cases acc <;> simp_all
    simp [splitLinesAux, this]
  | case2 acc hacc =>
    intro _
    have hne : acc ≠ [] := by cases acc <;> simp_all
    simp [splitLinesAux, hne]
  | case3 rest acc ih =>
    intro h
    exact absurd (h '\x0d' (by simp)) (by simp [isLineBoundary])
  | case4 c rest acc hno hb ih =>
    intro h
    exact absurd (h c (by simp)) (by simp [hb])
  | case5 c rest acc hno hb ih =>
    intro h
    rw [splitLinesAux_cons_plain hno (by simpa using hb)]
    rw [ih (fun x hx => h x (List.mem_cons_of_mem _ hx))]
    simp

/-- A whitespace-only input splits into whitespace-only lines. -/
theorem splitLinesKeep_blank {l : List Char} (hsp : ∀ c ∈ l, pyIsSpace c = true) :
    ∀ line ∈ splitLinesKeep l, (pyStrip line).isEmpty = true := by
  intro line hline
  rw [List.isEmpty_iff, pyStrip_eq_nil_iff]
  intro c hc
  apply hsp
  have hmem : c ∈ (splitLinesAux l []).flatten :=
    List.mem_flatten.mpr ⟨line, hline, hc⟩
  rw [splitLinesAux_flatten] at hmem
  simpa using hmem

/-- A nonempty input without line boundaries is a single line. -/
theorem splitLinesKeep_single {l : List Char} (hne : l ≠ [])
    (hnb : ∀ c ∈ l, isLineBoundary c = false) : splitLinesKeep l = [l] := by
  unfold splitLinesKeep
  rw [splitLinesAux_no_boundary _ _ hnb]
  simp [hne]

theorem headerCount_le (f : List Char → Bool) :
    ∀ ls : List (List Char), headerCount f ls ≤ ls.length := by
  intro ls
  induction ls with
  | nil => simp [headerCount]
  | cons l rest ih =>
    unfold headerCount
    by_cases h : f l
    · rw [if_pos h]; simp; omega
    · rw [if_neg h]; simp

theorem goHeaderCount_le :
    ∀ (ls : List (List Char)) (b : Bool), goHeaderCount ls b ≤ ls.length := by
  intro ls
  induction ls with
  | nil => intro b; simp [goHeaderCount]
  | cons l rest ih =>
    intro b
    unfold goHeaderCount
    by_cases h1 : startsWithL (pyStrip l) "package " = true
    · rw [if_pos h1]; simp; have := ih b; omega
    · rw [if_neg h1]
      by_cases h2 : pyStrip l = "import (".data ∨ startsWithL (pyStrip l) "import " = true
      · rw [if_pos h2]; simp; have := ih (decide (pyStrip l = ['i', 'm', 'p', 'o', 'r', 't', ' ', '('])); omega
      · rw [if_neg h2]
        by_cases h3 : b = true
        · rw [if_pos h3]; simp; have := ih (!decide (pyStrip l = [')'])); omega
        · rw [if_neg h3]
          by_cases h4 : (pyStrip l).isEmpty = true ∨ startsWithL (pyStrip l) "//" = true
          · rw [if_pos h4]; simp; have := ih b; omega
          · rw [if_neg h4]; simp

theorem chunk_generic_start_le (content file_path : String) (tt ot : Nat) :
    ∀ c ∈ chunk_generic content file_path tt ot, c.start_line ≤ c.end_line := by
  intro c hc
  unfold chunk_generic at hc
  by_cases h : (pyStrip content.data).isEmpty
  · rw [if_pos h] at hc; simp at hc
  · rw [if_neg h] at hc
    exact (genericLoop_bounds tt ot 1 _ 1 [] 1 0 [] rfl (le_refl 1) (by simp) c hc).1

theorem chunk_python_start_le (content file_path : String) (tt ot : Nat) :
    ∀ c ∈ chunk_python content file_path tt ot, c.start_line ≤ c.end_line := by
  intro c hc
  unfold chunk_python at hc
  by_cases h : (pyStrip content.data).isEmpty
  · rw [if_pos h] at hc; simp at hc
  · rw [if_neg h] at hc
    have hcs := headerCount_le pyIsHeaderLine (splitLinesKeep content.data)
    refine (pythonLoop_bounds tt (splitLinesKeep content.data).length 1 _ _ _ _ _ _ _ _ _
      (by simp) (by simp [List.length_drop]; omega) (by omega) ?_ c hc).1
    intro c' hc'
    rw [List.mem_reverse] at hc'
    by_cases hh : (splitLinesKeep content.data).take
        (headerCount pyIsHeaderLine (splitLinesKeep content.data)) ≠ [] ∧
        estimate_tokens ((splitLinesKeep content.data).take
          (headerCount pyIsHeaderLine (splitLinesKeep content.data))).flatten > 10
    · rw [if_pos hh] at hc'
      have hcs1 : 1 ≤ headerCount pyIsHeaderLine (splitLinesKeep content.data) := by
        rcases hh with ⟨hne, _⟩
        by_contra hlt
        have : headerCount pyIsHeaderLine (splitLinesKeep content.data) = 0 := by omega
        rw [this] at hne
        simp at hne
      rcases List.mem_singleton.mp hc' with h'
      rw [h']
      constructor
      · simp [mkChunk]; omega
      · simp [mkChunk]
    · rw [if_neg hh] at hc'
      simp at hc'

theorem chunk_typescript_start_le (content file_path : String) (tt ot : Nat) :
    ∀ c ∈ chunk_typescript content file_path tt ot, c.start_line ≤ c.end_line := by
  intro c hc
  unfold chunk_typescript at hc
  by_cases h : (pyStrip content.data).isEmpty
  · rw [if_pos h] at hc; simp at hc
  · rw [if_neg h] at hc
    have hcs := headerCount_le tsIsHeaderLine (splitLinesKeep content.data)
    refine (tsLoop_bounds tt ot (splitLinesKeep content.data).length 1 _ _ _ _ _ _ _ _
      (by simp) (by simp [List.length_drop]; omega) (by omega) ?_ c hc).1
    intro c' hc'
    rw [List.mem_reverse] at hc'
    by_cases hh : (splitLinesKeep content.data).take
        (headerCount tsIsHeaderLine (splitLinesKeep content.data)) ≠ [] ∧
        estimate_tokens ((splitLinesKeep content.data).take
          (headerCount tsIsHeaderLine (splitLinesKeep content.data))).flatten > 10
    · rw [if_pos hh] at hc'
      have hcs1 : 1 ≤ headerCount tsIsHeaderLine (splitLinesKeep content.data) := by
        rcases hh with ⟨hne, _⟩
        by_contra hlt
        have : headerCount tsIsHeaderLine (splitLinesKeep content.data) = 0 := by omega
        rw [this] at hne
        simp at hne
      rcases List.mem_singleton.mp hc' with h'
      rw [h']
      exact ⟨by simp [mkChunk]; omega, by simp [mkChunk]⟩
    · rw [if_neg hh] at hc'
      simp at hc'

theorem chunk_java_start_le (content file_path : String) (tt ot : Nat) :
    ∀ c ∈ chunk_java content file_path tt ot, c.start_line ≤ c.end_line := by
  intro c hc
  unfold chunk_java at hc
  by_cases h : (pyStrip content.data).isEmpty
  · rw [if_pos h] at hc; simp at hc
  · rw [if_neg h] at hc
    have hcs := headerCount_le javaIsHeaderLine (splitLinesKeep content.data)
    refine (javaLoop_bounds tt (splitLinesKeep content.data).length 1 _ _ _ _ _ _ _ _
      (by simp) (by simp [List.length_drop]; omega) (by omega) ?_ c hc).1
    intro c' hc'
    rw [List.mem_reverse] at hc'
    by_cases hh : (splitLinesKeep content.data).take
        (headerCount javaIsHeaderLine (splitLinesKeep content.data)) ≠ [] ∧
        estimate_tokens ((splitLinesKeep content.data).take
          (headerCount javaIsHeaderLine (splitLinesKeep content.data))).flatten > 10
    · rw [if_pos hh] at hc'
      have hcs1 : 1 ≤ headerCount javaIsHeaderLine (splitLinesKeep content.data) := by
        rcases hh with ⟨hne, _⟩
        by_contra hlt
        have : headerCount javaIsHeaderLine (splitLinesKeep content.data) = 0 := by omega
        rw [this] at hne
        simp at hne
      rcases List.mem_singleton.mp hc' with h'
      rw [h']
      exact ⟨by simp [mkChunk]; omega, by simp [mkChunk]⟩
    · rw [if_neg hh] at hc'
      simp at hc'

theorem chunk_go_start_le (content file_path : String) (tt ot : Nat) :
    ∀ c ∈ chunk_go content file_path tt ot, c.start_line ≤ c.end_line := by
  intro c hc
  unfold chunk_go at hc
  by_cases h : (pyStrip content.data).isEmpty
  · rw [if_pos h] at hc; simp at hc
  · rw [if_neg h] at hc
    have hcs := goHeaderCount_le (splitLinesKeep content.data) false
    refine (goLoop_bounds tt (splitLinesKeep content.data).length 1 _ _ _ _ _ _ _ _
      (by simp) (by simp [List.length_drop]; omega) (by omega) ?_ c hc).1
    intro c' hc'
    rw [List.mem_reverse] at hc'
    by_cases hh : (splitLinesKeep content.data).take
        (goHeaderCount (splitLinesKeep content.data) false) ≠ [] ∧
        estimate_tokens ((splitLinesKeep content.data).take
          (goHeaderCount (splitLinesKeep content.data) false)).flatten > 10
    · rw [if_pos hh] at hc'
      have hcs1 : 1 ≤ goHeaderCount (splitLinesKeep content.data) false := by
        rcases hh with ⟨hne, _⟩
        by_contra hlt
        have : goHeaderCount (splitLinesKeep content.data) false = 0 := by omega
        rw [this] at hne
        simp at hne
      rcases List.mem_singleton.mp hc' with h'
      rw [h']
      exact ⟨by simp [mkChunk]; omega, by simp [mkChunk]⟩
    · rw [if_neg hh] at hc'
      simp at hc'

theorem chunk_generic_coverage (content file_path : String) (tt ot : Nat) :
    chunkSpanSum (chunk_generic content file_path tt ot) +
      blankCount (splitLinesKeep content.data) ≥ (splitLinesKeep content.data).length := by
  unfold chunk_generic
  by_cases h : (pyStrip content.data).isEmpty
  · rw [if_pos h]
    have hall : ∀ line ∈ splitLinesKeep content.data, (pyStrip line).isEmpty = true :=
      splitLinesKeep_blank (by
        rw [List.isEmpty_iff, pyStrip_eq_nil_iff] at h
        exact h)
    have hbl : blankCount (splitLinesKeep content.data) =
        (splitLinesKeep content.data).length := by
      unfold blankCount
      rw [List.filter_eq_self.mpr hall]
    simp [chunkSpanSum, hbl]
  · rw [if_neg h]
    have := genericLoop_coverage tt ot (splitLinesKeep content.data) 1 [] 1 0 [] (by simp)
    simpa [chunkSpanSum] using this

/-- Counterexample to C5 as stated: three 30-char lines separated by blank
lines, `token_target = 10`, `overlap_tokens = 0` (so no overlap lines are ever
carried). The generic chunker drops the two blank separator lines: the spans
sum to 3 while the input has 5 lines, refuting
`∑ (end−start+1) ≥ total_lines − overlap_lines`. -/
theorem chunk_coverage_counterexample :
    chunkSpanSum (chunk_generic
      "xxxxxxxxxxxxxxxxxxxxxxxxxxxxxx\n\nyyyyyyyyyyyyyyyyyyyyyyyyyyyyyy\n\nzzzzzzzzzzzzzzzzzzzzzzzzzzzzzz\n"
      "notes.txt" 10 0) = 3 ∧
    (splitLinesKeep
      ("xxxxxxxxxxxxxxxxxxxxxxxxxxxxxx\n\nyyyyyyyyyyyyyyyyyyyyyyyyyyyyyy\n\nzzzzzzzzzzzzzzzzzzzzzzzzzzzzzz\n" : String).data).length = 5 ∧
    ¬ (3 : Nat) ≥ 5 - 0 := by
  refine ⟨?_, by decide, by decide⟩
  decide

/-- C5 (amended): every chunk emitted by any of the five chunkers satisfies
`start_line ≤ end_line`; the claimed coverage inequality fails in general
(blank separator lines and dropped headers are uncovered), but for the generic
chunker the spans cover everything except blank lines:
`∑ (end−start+1) + blank_lines ≥ total_lines`. -/
theorem chunker_bounds_correct (content file_path : String) (tt ot : Nat) :
    (∀ c ∈ chunk_generic content file_path tt ot, c.start_line ≤ c.end_line) ∧
    (∀ c ∈ chunk_typescript content file_path tt ot, c.start_line ≤ c.end_line) ∧
    (∀ c ∈ chunk_python content file_path tt ot, c.start_line ≤ c.end_line) ∧
    (∀ c ∈ chunk_java content file_path tt ot, c.start_line ≤ c.end_line) ∧
    (∀ c ∈ chunk_go content file_path tt ot, c.start_line ≤ c.end_line) ∧
    chunkSpanSum (chunk_generic content file_path tt ot) +
      blankCount (splitLinesKeep content.data) ≥ (splitLinesKeep content.data).length :=
  ⟨chunk_generic_start_le content file_path tt ot,
    chunk_typescript_start_le content file_path tt ot,
    chunk_python_start_le content file_path tt ot,
    chunk_java_start_le content file_path tt ot,
    chunk_go_start_le content file_path tt ot,
    chunk_generic_coverage content file_path tt ot⟩

/-! ### C8: chunkers are total; empty input and worst-case behaviour -/

theorem chunk_generic_empty (content file_path : String) (tt ot : Nat)
    (h : (pyStrip content.data).isEmpty = true) :
    chunk_generic content file_path tt ot = [] := by
  unfold chunk_generic
  rw [if_pos h]

theorem chunk_python_empty (content file_path : String) (tt ot : Nat)
    (h : (pyStrip content.data).isEmpty = true) :
    chunk_python content file_path tt ot = [] := by
  unfold chunk_python
  rw [if_pos h]

theorem chunk_typescript_empty (content file_path : String) (tt ot : Nat)
    (h : (pyStrip content.data).isEmpty = true) :
    chunk_typescript content file_path tt ot = [] := by
  unfold chunk_typescript
  rw [if_pos h]

theorem chunk_java_empty (content file_path : String) (tt ot : Nat)
    (h : (pyStrip content.data).isEmpty = true) :
    chunk_java content file_path tt ot = [] := by
  unfold chunk_java
  rw [if_pos h]

theorem chunk_go_empty (content file_path : String) (tt ot : Nat)
    (h : (pyStrip content.data).isEmpty = true) :
    chunk_go content file_path tt ot = [] := by
  unfold chunk_go
  rw [if_pos h]

/-- C8: every chunker and the dispatcher are total functions of their input
(each is a structurally recursive definition, so termination without raising
holds by construction, for any content including huge single lines and
arbitrary Unicode); empty or whitespace-only input yields an empty list from
every chunker and from the dispatcher; and in the worst case — a non-blank
input with no line boundary at all, under the generic fallback — the output
is exactly one (possibly oversized) chunk holding the entire content. -/
theorem chunk_file_total (content file_path : String) (tt ot : Nat) :
    ((pyStrip content.data).isEmpty = true →
      chunk_generic content file_path tt ot = [] ∧
      chunk_typescript content file_path tt ot = [] ∧
      chunk_python content file_path tt ot = [] ∧
      chunk_java content file_path tt ot = [] ∧
      chunk_go content file_path tt ot = [] ∧
      chunk_file content file_path tt ot = []) ∧
    ((pyStrip content.data).isEmpty = false →
      (∀ c ∈ content.data, isLineBoundary c = false) →
      alookup _CHUNKER_MAP (pathSuffixLower file_path) = none →
      ∃ ch, chunk_file content file_path tt ot = [ch] ∧
        ch.content = content ∧ ch.start_line = 1 ∧ ch.end_line = 1) := by
  constructor
  · intro h
    refine ⟨chunk_generic_empty _ _ _ _ h, chunk_typescript_empty _ _ _ _ h,
      chunk_python_empty _ _ _ _ h, chunk_java_empty _ _ _ _ h,
      chunk_go_empty _ _ _ _ h, ?_⟩
    unfold chunk_file
    rcases halk : alookup _CHUNKER_MAP (pathSuffixLower file_path) with _ | f
    · simp [halk, chunk_generic_empty _ _ _ _ h]
    · have hmem := alookup_mem halk
      have hf : f content file_path tt ot = [] := by
        simp only [_CHUNKER_MAP, List.mem_cons, List.not_mem_nil, or_false] at hmem
        rcases hmem with hp|hp|hp|hp|hp|hp|hp|hp|hp|hp|hp|hp|hp|hp <;>
          (rw [Prod.mk.injEq] at hp; rw [hp.2]) <;>
          first
            | exact chunk_typescript_empty _ _ _ _ h
            | exact chunk_python_empty _ _ _ _ h
            | exact chunk_java_empty _ _ _ _ h
            | exact chunk_go_empty _ _ _ _ h
      simp [halk, hf]
  · intro h hnb halk
    have hne : content.data ≠ [] := by
      intro hnil
      rw [hnil] at h
      simp [pyStrip] at h
    have hsingle : splitLinesKeep content.data = [content.data] :=
      splitLinesKeep_single hne hnb
    have hgen : chunk_generic content file_path tt ot =
        [mkChunk [content.data] 1 1 0 none none] := by
      unfold chunk_generic
      rw [if_neg (by simp [h]), hsingle]
      unfold genericLoop
      rw [if_neg (by simp), if_neg (by simp)]
      unfold genericLoop
      rw [if_neg (by simp)]
      rfl
    have hcont : (mkChunk [content.data] 1 1 0 none none).content = content := by
      show String.mk ([content.data]).flatten = content
      rw [show ([content.data]).flatten = content.data by simp]
    refine ⟨{ mkChunk [content.data] 1 1 0 none none with
        language := get_language file_path
        chunk_hash := hash_content (chunkHashPreimage file_path
          (mkChunk [content.data] 1 1 0 none none).chunk_index
          (mkChunk [content.data] 1 1 0 none none).content) }, ?_, ?_, rfl, rfl⟩
    · simp only [chunk_file, halk, hgen, List.map_cons, List.map_nil]
    · exact hcont

/-- Witness for the amended C5 at a concrete mixed input. -/
theorem chunker_bounds_correct_witness :
    (∀ c ∈ chunk_generic "a\n\nbb cc dd\n" "f.txt" 10 4, c.start_line ≤ c.end_line) ∧
    (∀ c ∈ chunk_typescript "a\n\nbb cc dd\n" "f.txt" 10 4, c.start_line ≤ c.end_line) ∧
    (∀ c ∈ chunk_python "a\n\nbb cc dd\n" "f.txt" 10 4, c.start_line ≤ c.end_line) ∧
    (∀ c ∈ chunk_java "a\n\nbb cc dd\n" "f.txt" 10 4, c.start_line ≤ c.end_line) ∧
    (∀ c ∈ chunk_go "a\n\nbb cc dd\n" "f.txt" 10 4, c.start_line ≤ c.end_line) ∧
    chunkSpanSum (chunk_generic "a\n\nbb cc dd\n" "f.txt" 10 4) +
      blankCount (splitLinesKeep ("a\n\nbb cc dd\n" : String).data) ≥
      (splitLinesKeep ("a\n\nbb cc dd\n" : String).data).length :=
  chunker_bounds_correct "a\n\nbb cc dd\n" "f.txt" 10 4

/-- Witness for C8: a whitespace-only file chunks to nothing; a single-line
file with an unknown extension becomes one chunk. -/
theorem chunk_file_total_witness :
    ((pyStrip ("  \n\t\n" : String).data).isEmpty = true ∧
      chunk_file "  \n\t\n" "doc.xyz" 500 64 = []) ∧
    ((pyStrip ("x = 1" : String).data).isEmpty = false ∧
      (∀ c ∈ ("x = 1" : String).data, isLineBoundary c = false) ∧
      (alookup _CHUNKER_MAP (pathSuffixLower "notes.xyz")).isNone = true ∧
      ∃ ch, chunk_file "x = 1" "notes.xyz" 500 64 = [ch] ∧ ch.content = "x = 1" ∧
        ch.start_line = 1 ∧ ch.end_line = 1) :=
  ⟨⟨by decide, ((chunk_file_total "  \n\t\n" "doc.xyz" 500 64).1 (by decide)).2.2.2.2.2⟩,
   ⟨by decide, by decide, by decide,
    (chunk_file_total "x = 1" "notes.xyz" 500 64).2 (by decide) (by decide)
      (Option.isNone_iff_eq_none.mp (by decide))⟩⟩

/-! ### C9: trivial headers (≤ 10 estimated tokens) are dropped entirely -/

theorem pushChunk_stays {ls : List (List Char)} {s e : Nat} {sym symt : Option String}
    {acc : List Chunk} (hacc : acc ≠ []) :
    pushChunk ls s e sym symt acc ≠ [] ∧
    (pushChunk ls s e sym symt acc).getLast? = acc.getLast? := by
  unfold pushChunk
  by_cases hs : (pyStrip ls.flatten).isEmpty
  · rw [if_pos hs]
    exact ⟨hacc, rfl⟩
  · rw [if_neg hs]
    refine ⟨by simp, ?_⟩
    rcases acc with _ | ⟨b, t⟩
    · exact absurd rfl hacc
    · simp [List.getLast?_cons_cons]

theorem pushChunk_of_strip {ls : List (List Char)} {s e : Nat} {sym symt : Option String}
    {acc : List Chunk} (hs : (pyStrip ls.flatten).isEmpty = false) :
    pushChunk ls s e sym symt acc = mkChunk ls s e acc.length sym symt :: acc := by
  unfold pushChunk
  rw [if_neg (by simp [hs])]

/-- The `[line]` buffer seeded from a single line has non-whitespace text when
the line does. -/
theorem strip_singleton_flatten {line : List Char}
    (h : (pyStrip line).isEmpty = false) :
    (pyStrip ([line] : List (List Char)).flatten).isEmpty = false := by
  simpa using h

theorem strip_append_line {cur : List (List Char)} {line : List Char}
    (h : (pyStrip cur.flatten).isEmpty = false) :
    (pyStrip (cur ++ [line]).flatten).isEmpty = false := by
  rw [List.flatten_append]
  exact pyStrip_append_ne_nil_left h

/-- Once some chunk has been emitted, the final head is the earliest one. -/
theorem pythonLoop_head_stable (tt n : Nat) :
    ∀ (rem : List (List Char)) (ln : Nat) (cur : List (List Char)) (cs : Nat)
      (sym symt : Option String) (tok : Nat) (inDec : Bool) (acc : List Chunk),
    acc ≠ [] →
    (pythonLoop tt n rem ln cur cs sym symt tok inDec acc).head? = acc.getLast? := by
  intro rem
  induction rem with
  | nil =>
    intro ln cur cs sym symt tok inDec acc hacc
    unfold pythonLoop
    by_cases hcur : cur.isEmpty
    · rw [if_pos hcur, List.head?_reverse]
    · rw [if_neg hcur, List.head?_reverse]
      exact (pushChunk_stays hacc).2
  | cons line rest ih =>
    intro ln cur cs sym symt tok inDec acc hacc
    unfold pythonLoop
    by_cases hb1 : startsWithL (pyLstrip line) "@" = true ∧
        line.length - (pyLstrip line).length ≤ 4
    · rw [if_pos hb1]
      by_cases hb2 : ¬inDec = true ∧ cur ≠ [] ∧ tok > 0
      · rw [if_pos hb2]
        rw [ih _ _ _ _ _ _ _ _ (pushChunk_stays hacc).1]
        exact (pushChunk_stays hacc).2
      · rw [if_neg hb2]
        exact ih _ _ _ _ _ _ _ _ hacc
    · rw [if_neg hb1]
      by_cases hb3 : (matchDefName (pyLstrip line) ≠ none ∨
          matchClassName (pyLstrip line) ≠ none) ∧
          line.length - (pyLstrip line).length ≤ 4
      · rw [if_pos hb3]
        by_cases hb4 : cur ≠ [] ∧ tok > 0 ∧
            ¬(cur.any (fun l => startsWithL (pyLstrip l) "@")) = true
        · rw [if_pos hb4]
          rw [ih _ _ _ _ _ _ _ _ (pushChunk_stays hacc).1]
          exact (pushChunk_stays hacc).2
        · rw [if_neg hb4]
          exact ih _ _ _ _ _ _ _ _ hacc
      · rw [if_neg hb3]
        by_cases hb5 : 2 * (tok + estimate_tokens line) > 3 * tt ∧ cur ≠ []
        · rw [if_pos hb5]
          rw [ih _ _ _ _ _ _ _ _ (pushChunk_stays hacc).1]
          exact (pushChunk_stays hacc).2
        · rw [if_neg hb5]
          exact ih _ _ _ _ _ _ _ _ hacc

/-- With no chunk emitted yet and a non-whitespace buffer open at `cs`, the
first emitted chunk starts at `cs`. -/
theorem pythonLoop_first_chunk (tt n : Nat) :
    ∀ (rem : List (List Char)) (ln : Nat) (cur : List (List Char)) (cs : Nat)
      (sym symt : Option String) (tok : Nat) (inDec : Bool),
    cur ≠ [] → (pyStrip cur.flatten).isEmpty = false →
    ∀ c, (pythonLoop tt n rem ln cur cs sym symt tok inDec []).head? = some c →
    c.start_line = cs := by
  intro rem
  induction rem with
  | nil =>
    intro ln cur cs sym symt tok inDec hne hst c hc
    unfold pythonLoop at hc
    rw [if_neg (by cases cur <;> simp_all), pushChunk_of_strip hst] at hc
    simp at hc
    rw [← hc]
    rfl
  | cons line rest ih =>
    intro ln cur cs sym symt tok inDec hne hst c hc
    unfold pythonLoop at hc
    by_cases hb1 : startsWithL (pyLstrip line) "@" = true ∧
        line.length - (pyLstrip line).length ≤ 4
    · rw [if_pos hb1] at hc
      by_cases hb2 : ¬inDec = true ∧ cur ≠ [] ∧ tok > 0
      · rw [if_pos hb2, pushChunk_of_strip hst] at hc
        rw [pythonLoop_head_stable tt n _ _ _ _ _ _ _ _ _ (by simp)] at hc
        simp at hc
        rw [← hc]
        rfl
      · rw [if_neg hb2] at hc
        exact ih _ _ _ _ _ _ _ (by simp) (strip_append_line hst) c hc
    · rw [if_neg hb1] at hc
      by_cases hb3 : (matchDefName (pyLstrip line) ≠ none ∨
          matchClassName (pyLstrip line) ≠ none) ∧
          line.length - (pyLstrip line).length ≤ 4
      · rw [if_pos hb3] at hc
        by_cases hb4 : cur ≠ [] ∧ tok > 0 ∧
            ¬(cur.any (fun l => startsWithL (pyLstrip l) "@")) = true
        · rw [if_pos hb4, pushChunk_of_strip hst] at hc
          rw [pythonLoop_head_stable tt n _ _ _ _ _ _ _ _ _ (by simp)] at hc
          simp at hc
          rw [← hc]
          rfl
        · rw [if_neg hb4] at hc
          exact ih _ _ _ _ _ _ _ (by simp) (strip_append_line hst) c hc
      · rw [if_neg hb3] at hc
        by_cases hb5 : 2 * (tok + estimate_tokens line) > 3 * tt ∧ cur ≠ []
        · rw [if_pos hb5, pushChunk_of_strip hst] at hc
          rw [pythonLoop_head_stable tt n _ _ _ _ _ _ _ _ _ (by simp)] at hc
          simp at hc
          rw [← hc]
          rfl
        · rw [if_neg hb5] at hc
          exact ih _ _ _ _ _ _ _ (by simp) (strip_append_line hst) c hc

theorem pythonLoop_first_from_empty (tt n : Nat) :
    ∀ (rem : List (List Char)) (ln cs : Nat) (sym symt : Option String) (tok : Nat)
      (inDec : Bool),
    (∀ line, rem.head? = some line → (pyStrip line).isEmpty = false) →
    ∀ c, (pythonLoop tt n rem ln [] cs sym symt tok inDec []).head? = some c →
    c.start_line = cs := by
  intro rem
  cases rem with
  | nil =>
    intro ln cs sym symt tok inDec hh c hc
    unfold pythonLoop at hc
    simp at hc
  | cons line rest =>
    intro ln cs sym symt tok inDec hh c hc
    have hline : (pyStrip line).isEmpty = false := hh line rfl
    unfold pythonLoop at hc
    by_cases hb1 : startsWithL (pyLstrip line) "@" = true ∧
        line.length - (pyLstrip line).length ≤ 4
    · rw [if_pos hb1, if_neg (by simp)] at hc
      exact pythonLoop_first_chunk tt n rest _ _ _ _ _ _ _ (by simp)
        (strip_singleton_flatten hline) c hc
    · rw [if_neg hb1] at hc
      by_cases hb3 : (matchDefName (pyLstrip line) ≠ none ∨
          matchClassName (pyLstrip line) ≠ none) ∧
          line.length - (pyLstrip line).length ≤ 4
      · rw [if_pos hb3, if_neg (by simp)] at hc
        exact pythonLoop_first_chunk tt n rest _ _ _ _ _ _ _ (by simp)
          (strip_singleton_flatten hline) c hc
      · rw [if_neg hb3, if_neg (by simp)] at hc
        exact pythonLoop_first_chunk tt n rest _ _ _ _ _ _ _ (by simp)
          (strip_singleton_flatten hline) c hc

theorem headerCount_drop_head (f : List Char → Bool) :
    ∀ (ls : List (List Char)) (line : List Char),
    ((ls.drop (headerCount f ls)).head? = some line) → f line = false := by
  intro ls
  induction ls with
  | nil => intro line h; simp at h
  | cons l rest ih =>
    intro line h
    unfold headerCount at h
    by_cases hf : f l
    · rw [if_pos hf] at h
      rw [show 1 + headerCount f rest = headerCount f rest + 1 by omega,
        List.drop_succ_cons] at h
      exact ih line h
    · rw [if_neg hf] at h
      simp at h
      rw [← h]
      simpa using hf

theorem goHeaderCount_drop_head :
    ∀ (ls : List (List Char)) (b : Bool) (line : List Char),
    ((ls.drop (goHeaderCount ls b)).head? = some line) →
    (pyStrip line).isEmpty = false := by
  intro ls
  induction ls with
  | nil => intro b line h; simp at h
  | cons l rest ih =>
    intro b line h
    unfold goHeaderCount at h
    by_cases h1 : startsWithL (pyStrip l) "package " = true
    · rw [if_pos h1, show 1 + goHeaderCount rest b = goHeaderCount rest b + 1 by omega,
        List.drop_succ_cons] at h
      exact ih b line h
    · rw [if_neg h1] at h
      by_cases h2 : pyStrip l = "import (".data ∨ startsWithL (pyStrip l) "import " = true
      · rw [if_pos h2] at h
        rw [show ∀ k, 1 + k = k + 1 from fun k => by omega, List.drop_succ_cons] at h
        exact ih _ line h
      · rw [if_neg h2] at h
        by_cases h3 : b = true
        · rw [if_pos h3] at h
          rw [show ∀ k, 1 + k = k + 1 from fun k => by omega, List.drop_succ_cons] at h
          exact ih _ line h
        · rw [if_neg h3] at h
          by_cases h4 : (pyStrip l).isEmpty = true ∨ startsWithL (pyStrip l) "//" = true
          · rw [if_pos h4] at h
            rw [show ∀ k, 1 + k = k + 1 from fun k => by omega, List.drop_succ_cons] at h
            exact ih _ line h
          · rw [if_neg h4] at h
            simp at h
            rw [← h]
            rcases hb : (pyStrip l).isEmpty
            · rfl
            · exact absurd (Or.inl hb) h4

theorem pyIsHeaderLine_false_not_blank {line : List Char}
    (h : pyIsHeaderLine line = false) : (pyStrip line).isEmpty = false := by
  rcases hb : (pyStrip line).isEmpty
  · rfl
  · exfalso
    unfold pyIsHeaderLine at h
    simp only [hb] at h
    simp at h

theorem tsIsHeaderLine_false_not_blank {line : List Char}
    (h : tsIsHeaderLine line = false) : (pyStrip line).isEmpty = false := by
  rcases hb : (pyStrip line).isEmpty
  · rfl
  · exfalso
    unfold tsIsHeaderLine at h
    simp only [hb] at h
    simp at h

theorem javaIsHeaderLine_false_not_blank {line : List Char}
    (h : javaIsHeaderLine line = false) : (pyStrip line).isEmpty = false := by
  rcases hb : (pyStrip line).isEmpty
  · rfl
  · exfalso
    unfold javaIsHeaderLine at h
    simp only [hb] at h
    simp at h

theorem chunk_python_header_dropped (content file_path : String) (tt ot : Nat)
    (h : (pyStrip content.data).isEmpty = false)
    (hcs : 1 ≤ headerCount pyIsHeaderLine (splitLinesKeep content.data))
    (htok : estimate_tokens ((splitLinesKeep content.data).take
      (headerCount pyIsHeaderLine (splitLinesKeep content.data))).flatten ≤ 10) :
    chunk_python content file_path tt ot =
      pythonLoop tt (splitLinesKeep content.data).length
        ((splitLinesKeep content.data).drop
          (headerCount pyIsHeaderLine (splitLinesKeep content.data)))
        (headerCount pyIsHeaderLine (splitLinesKeep content.data) + 1) []
        (headerCount pyIsHeaderLine (splitLinesKeep content.data) + 1)
        none none 0 false [] ∧
    (∀ c ∈ chunk_python content file_path tt ot,
      headerCount pyIsHeaderLine (splitLinesKeep content.data) + 1 ≤ c.start_line) ∧
    (∀ c, (chunk_python content file_path tt ot).head? = some c →
      c.start_line = headerCount pyIsHeaderLine (splitLinesKeep content.data) + 1) := by
  have hhc : ¬((splitLinesKeep content.data).take
      (headerCount pyIsHeaderLine (splitLinesKeep content.data)) ≠ [] ∧
      estimate_tokens ((splitLinesKeep content.data).take
        (headerCount pyIsHeaderLine (splitLinesKeep content.data))).flatten > 10) := by
    rintro ⟨_, h2⟩
    omega
  have hEq : chunk_python content file_path tt ot =
      pythonLoop tt (splitLinesKeep content.data).length
        ((splitLinesKeep content.data).drop
          (headerCount pyIsHeaderLine (splitLinesKeep content.data)))
        (headerCount pyIsHeaderLine (splitLinesKeep content.data) + 1) []
        (headerCount pyIsHeaderLine (splitLinesKeep content.data) + 1)
        none none 0 false [] := by
    simp only [chunk_python, h, Bool.false_eq_true, if_false, hhc, List.reverse_nil]
  have hle := headerCount_le pyIsHeaderLine (splitLinesKeep content.data)
  refine ⟨hEq, ?_, ?_⟩
  · intro c hc
    rw [hEq] at hc
    exact (pythonLoop_bounds tt (splitLinesKeep content.data).length
      (headerCount pyIsHeaderLine (splitLinesKeep content.data) + 1) _ _ _ _ _ _ _ _ _
      (by simp) (by simp [List.length_drop]; omega) (le_refl _) (by simp) c hc).2
  · intro c hc
    rw [hEq] at hc
    refine pythonLoop_first_from_empty tt (splitLinesKeep content.data).length _ _ _
      _ _ _ _ ?_ c hc
    intro line hline
    exact pyIsHeaderLine_false_not_blank
      (headerCount_drop_head pyIsHeaderLine (splitLinesKeep content.data) line hline)

theorem tsLoop_head_stable (tt ot n : Nat) :
    ∀ (rem : List (List Char)) (ln : Nat) (cur : List (List Char)) (cs : Nat)
      (sym symt : Option String) (tok : Nat) (acc : List Chunk),
    acc ≠ [] →
    (tsLoop tt ot n rem ln cur cs sym symt tok acc).head? = acc.getLast? := by
  intro rem
  induction rem with
  | nil =>
    intro ln cur cs sym symt tok acc hacc
    unfold tsLoop
    by_cases hcur : cur.isEmpty
    · rw [if_pos hcur, List.head?_reverse]
    · rw [if_neg hcur, List.head?_reverse]
      exact (pushChunk_stays hacc).2
  | cons line rest ih =>
    intro ln cur cs sym symt tok acc hacc
    unfold tsLoop
    by_cases hb1 : tsIsBlockStart line = true ∧ cur ≠ [] ∧ tok > 0
    · rw [if_pos hb1]
      rw [ih _ _ _ _ _ _ _ (pushChunk_stays hacc).1]
      exact (pushChunk_stays hacc).2
    · rw [if_neg hb1]
      by_cases hb2 : 2 * (tok + estimate_tokens line) > 3 * tt ∧ cur ≠ []
      · rw [if_pos hb2]
        rw [ih _ _ _ _ _ _ _ (pushChunk_stays hacc).1]
        exact (pushChunk_stays hacc).2
      · rw [if_neg hb2]
        exact ih _ _ _ _ _ _ _ hacc

theorem tsLoop_first_chunk (tt ot n : Nat) :
    ∀ (rem : List (List Char)) (ln : Nat) (cur : List (List Char)) (cs : Nat)
      (sym symt : Option String) (tok : Nat),
    cur ≠ [] → (pyStrip cur.flatten).isEmpty = false →
    ∀ c, (tsLoop tt ot n rem ln cur cs sym symt tok []).head? = some c →
    c.start_line = cs := by
  intro rem
  induction rem with
  | nil =>
    intro ln cur cs sym symt tok hne hst c hc
    unfold tsLoop at hc
    rw [if_neg (by cases cur <;> simp_all), pushChunk_of_strip hst] at hc
    simp at hc
    rw [← hc]
    rfl
  | cons line rest ih =>
    intro ln cur cs sym symt tok hne hst c hc
    unfold tsLoop at hc
    by_cases hb1 : tsIsBlockStart line = true ∧ cur ≠ [] ∧ tok > 0
    · rw [if_pos hb1, pushChunk_of_strip hst] at hc
      rw [tsLoop_head_stable tt ot n _ _ _ _ _ _ _ _ (by simp)] at hc
      simp at hc
      rw [← hc]
      rfl
    · rw [if_neg hb1] at hc
      by_cases hb2 : 2 * (tok + estimate_tokens line) > 3 * tt ∧ cur ≠ []
      · rw [if_pos hb2, pushChunk_of_strip hst] at hc
        rw [tsLoop_head_stable tt ot n _ _ _ _ _ _ _ _ (by simp)] at hc
        simp at hc
        rw [← hc]
        rfl
      · rw [if_neg hb2] at hc
        exact ih _ _ _ _ _ _ (by simp) (strip_append_line hst) c hc

theorem tsLoop_first_from_empty (tt ot n : Nat) :
    ∀ (rem : List (List Char)) (ln cs : Nat) (sym symt : Option String) (tok : Nat),
    (∀ line, rem.head? = some line → (pyStrip line).isEmpty = false) →
    ∀ c, (tsLoop tt ot n rem ln [] cs sym symt tok []).head? = some c →
    c.start_line = cs := by
  intro rem
  cases rem with
  | nil =>
    intro ln cs sym symt tok hh c hc
    unfold tsLoop at hc
    simp at hc
  | cons line rest =>
    intro ln cs sym symt tok hh c hc
    have hline : (pyStrip line).isEmpty = false := hh line rfl
    unfold tsLoop at hc
    rw [if_neg (by simp), if_neg (by simp)] at hc
    exact tsLoop_first_chunk tt ot n rest _ _ _ _ _ _ (by simp)
      (strip_singleton_flatten hline) c hc

theorem goLoop_head_stable (tt n : Nat) :
    ∀ (rem : List (List Char)) (ln : Nat) (cur : List (List Char)) (cs : Nat)
      (sym symt : Option String) (tok : Nat) (acc : List Chunk),
    acc ≠ [] →
    (goLoop tt n rem ln cur cs sym symt tok acc).head? = acc.getLast? := by
  intro rem
  induction rem with
  | nil =>
    intro ln cur cs sym symt tok acc hacc
    unfold goLoop
    by_cases hcur : cur.isEmpty
    · rw [if_pos hcur, List.head?_reverse]
    · rw [if_neg hcur, List.head?_reverse]
      exact (pushChunk_stays hacc).2
  | cons line rest ih =>
    intro ln cur cs sym symt tok acc hacc
    unfold goLoop
    by_cases hb1 : goIsBlockStart line = true ∧ cur ≠ [] ∧ tok > 0
    · rw [if_pos hb1]
      rw [ih _ _ _ _ _ _ _ (pushChunk_stays hacc).1]
      exact (pushChunk_stays hacc).2
    · rw [if_neg hb1]
      by_cases hb2 : 2 * (tok + estimate_tokens line) > 3 * tt ∧ cur ≠ []
      · rw [if_pos hb2]
        rw [ih _ _ _ _ _ _ _ (pushChunk_stays hacc).1]
        exact (pushChunk_stays hacc).2
      · rw [if_neg hb2]
        exact ih _ _ _ _ _ _ _ hacc

theorem goLoop_first_chunk (tt n : Nat) :
    ∀ (rem : List (List Char)) (ln : Nat) (cur : List (List Char)) (cs : Nat)
      (sym symt : Option String) (tok : Nat),
    cur ≠ [] → (pyStrip cur.flatten).isEmpty = false →
    ∀ c, (goLoop tt n rem ln cur cs sym symt tok []).head? = some c →
    c.start_line = cs := by
  intro rem
  induction rem with
  | nil =>
    intro ln cur cs sym symt tok hne hst c hc
    unfold goLoop at hc
    rw [if_neg (by cases cur <;> simp_all), pushChunk_of_strip hst] at hc
    simp at hc
    rw [← hc]
    rfl
  | cons line rest ih =>
    intro ln cur cs sym symt tok hne hst c hc
    unfold goLoop at hc
    by_cases hb1 : goIsBlockStart line = true ∧ cur ≠ [] ∧ tok > 0
    · rw [if_pos hb1, pushChunk_of_strip hst] at hc
      rw [goLoop_head_stable tt n _ _ _ _ _ _ _ _ (by simp)] at hc
      simp at hc
      rw [← hc]
      rfl
    · rw [if_neg hb1] at hc
      by_cases hb2 : 2 * (tok + estimate_tokens line) > 3 * tt ∧ cur ≠ []
      · rw [if_pos hb2, pushChunk_of_strip hst] at hc
        rw [goLoop_head_stable tt n _ _ _ _ _ _ _ _ (by simp)] at hc
        simp at hc
        rw [← hc]
        rfl
      · rw [if_neg hb2] at hc
        exact ih _ _ _ _ _ _ (by simp) (strip_append_line hst) c hc

theorem goLoop_first_from_empty (tt n : Nat) :
    ∀ (rem : List (List Char)) (ln cs : Nat) (sym symt : Option String) (tok : Nat),
    (∀ line, rem.head? = some line → (pyStrip line).isEmpty = false) →
    ∀ c, (goLoop tt n rem ln [] cs sym symt tok []).head? = some c →
    c.start_line = cs := by
  intro rem
  cases rem with
  | nil =>
    intro ln cs sym symt tok hh c hc
    unfold goLoop at hc
    simp at hc
  | cons line rest =>
    intro ln cs sym symt tok hh c hc
    have hline : (pyStrip line).isEmpty = false := hh line rfl
    unfold goLoop at hc
    rw [if_neg (by simp), if_neg (by simp)] at hc
    exact goLoop_first_chunk tt n rest _ _ _ _ _ _ (by simp)
      (strip_singleton_flatten hline) c hc

theorem javaLoop_head_stable (tt n : Nat) :
    ∀ (rem : List (List Char)) (ln : Nat) (cur : List (List Char)) (cs : Nat)
      (sym symt : Option String) (tok : Nat) (acc : List Chunk),
    acc ≠ [] →
    (javaLoop tt n rem ln cur cs sym symt tok acc).head? = acc.getLast? := by
  intro rem
  induction rem with
  | nil =>
    intro ln cur cs sym symt tok acc hacc
    unfold javaLoop
    by_cases hcur : cur.isEmpty
    · rw [if_pos hcur, List.head?_reverse]
    · rw [if_neg hcur, List.head?_reverse]
      exact (pushChunk_stays hacc).2
  | cons line rest ih =>
    intro ln cur cs sym symt tok acc hacc
    unfold javaLoop
    by_cases hb1 : javaIsBlockStart line = true ∧ cur ≠ [] ∧ 10 * tok > 3 * tt
    · rw [if_pos hb1]
      rw [ih _ _ _ _ _ _ _ (pushChunk_stays hacc).1]
      exact (pushChunk_stays hacc).2
    · rw [if_neg hb1]
      by_cases hb2 : 2 * (tok + estimate_tokens line) > 3 * tt ∧ cur ≠ []
      · rw [if_pos hb2]
        rw [ih _ _ _ _ _ _ _ (pushChunk_stays hacc).1]
        exact (pushChunk_stays hacc).2
      · rw [if_neg hb2]
        exact ih _ _ _ _ _ _ _ hacc

theorem javaLoop_first_chunk (tt n : Nat) :
    ∀ (rem : List (List Char)) (ln : Nat) (cur : List (List Char)) (cs : Nat)
      (sym symt : Option String) (tok : Nat),
    cur ≠ [] → (pyStrip cur.flatten).isEmpty = false →
    ∀ c, (javaLoop tt n rem ln cur cs sym symt tok []).head? = some c →
    c.start_line = cs := by
  intro rem
  induction rem with
  | nil =>
    intro ln cur cs sym symt tok hne hst c hc
    unfold javaLoop at hc
    rw [if_neg (by cases cur <;> simp_all), pushChunk_of_strip hst] at hc
    simp at hc
    rw [← hc]
    rfl
  | cons line rest ih =>
    intro ln cur cs sym symt tok hne hst c hc
    unfold javaLoop at hc
    by_cases hb1 : javaIsBlockStart line = true ∧ cur ≠ [] ∧ 10 * tok > 3 * tt
    · rw [if_pos hb1, pushChunk_of_strip hst] at hc
      rw [javaLoop_head_stable tt n _ _ _ _ _ _ _ _ (by simp)] at hc
      simp at hc
      rw [← hc]
      rfl
    · rw [if_neg hb1] at hc
      by_cases hb2 : 2 * (tok + estimate_tokens line) > 3 * tt ∧ cur ≠ []
      · rw [if_pos hb2, pushChunk_of_strip hst] at hc
        rw [javaLoop_head_stable tt n _ _ _ _ _ _ _ _ (by simp)] at hc
        simp at hc
        rw [← hc]
        rfl
      · rw [if_neg hb2] at hc
        exact ih _ _ _ _ _ _ (by simp) (strip_append_line hst) c hc

theorem javaLoop_first_from_empty (tt n : Nat) :
    ∀ (rem : List (List Char)) (ln cs : Nat) (sym symt : Option String) (tok : Nat),
    (∀ line, rem.head? = some line → (pyStrip line).isEmpty = false) →
    ∀ c, (javaLoop tt n rem ln [] cs sym symt tok []).head? = some c →
    c.start_line = cs := by
  intro rem
  cases rem with
  | nil =>
    intro ln cs sym symt tok hh c hc
    unfold javaLoop at hc
    simp at hc
  | cons line rest =>
    intro ln cs sym symt tok hh c hc
    have hline : (pyStrip line).isEmpty = false := hh line rfl
    unfold javaLoop at hc
    rw [if_neg (by simp), if_neg (by simp)] at hc
    exact javaLoop_first_chunk tt n rest _ _ _ _ _ _ (by simp)
      (strip_singleton_flatten hline) c hc

theorem chunk_typescript_header_dropped (content file_path : String) (tt ot : Nat)
    (h : (pyStrip content.data).isEmpty = false)
    (hcs : 1 ≤ headerCount tsIsHeaderLine (splitLinesKeep content.data))
    (htok : estimate_tokens ((splitLinesKeep content.data).take
      (headerCount tsIsHeaderLine (splitLinesKeep content.data))).flatten ≤ 10) :
    chunk_typescript content file_path tt ot =
      tsLoop tt ot (splitLinesKeep content.data).length
        ((splitLinesKeep content.data).drop
          (headerCount tsIsHeaderLine (splitLinesKeep content.data)))
        (headerCount tsIsHeaderLine (splitLinesKeep content.data) + 1) []
        (headerCount tsIsHeaderLine (splitLinesKeep content.data) + 1)
        none none 0 [] ∧
    (∀ c ∈ chunk_typescript content file_path tt ot,
      headerCount tsIsHeaderLine (splitLinesKeep content.data) + 1 ≤ c.start_line) ∧
    (∀ c, (chunk_typescript content file_path tt ot).head? = some c →
      c.start_line = headerCount tsIsHeaderLine (splitLinesKeep content.data) + 1) := by
  have hhc : ¬((splitLinesKeep content.data).take
      (headerCount tsIsHeaderLine (splitLinesKeep content.data)) ≠ [] ∧
      estimate_tokens ((splitLinesKeep content.data).take
        (headerCount tsIsHeaderLine (splitLinesKeep content.data))).flatten > 10) := by
    rintro ⟨_, h2⟩
    omega
  have hEq : chunk_typescript content file_path tt ot =
      tsLoop tt ot (splitLinesKeep content.data).length
        ((splitLinesKeep content.data).drop
          (headerCount tsIsHeaderLine (splitLinesKeep content.data)))
        (headerCount tsIsHeaderLine (splitLinesKeep content.data) + 1) []
        (headerCount tsIsHeaderLine (splitLinesKeep content.data) + 1)
        none none 0 [] := by
    simp only [chunk_typescript, h, Bool.false_eq_true, if_false, hhc, List.reverse_nil]
  have hle := headerCount_le tsIsHeaderLine (splitLinesKeep content.data)
  refine ⟨hEq, ?_, ?_⟩
  · intro c hc
    rw [hEq] at hc
    exact (tsLoop_bounds tt ot (splitLinesKeep content.data).length
      (headerCount tsIsHeaderLine (splitLinesKeep content.data) + 1) _ _ _ _ _ _ _ _
      (by simp) (by simp [List.length_drop]; omega) (le_refl _) (by simp) c hc).2
  · intro c hc
    rw [hEq] at hc
    refine tsLoop_first_from_empty tt ot (splitLinesKeep content.data).length _ _ _
      _ _ _ ?_ c hc
    intro line hline
    exact tsIsHeaderLine_false_not_blank
      (headerCount_drop_head tsIsHeaderLine (splitLinesKeep content.data) line hline)

theorem chunk_java_header_dropped (content file_path : String) (tt ot : Nat)
    (h : (pyStrip content.data).isEmpty = false)
    (hcs : 1 ≤ headerCount javaIsHeaderLine (splitLinesKeep content.data))
    (htok : estimate_tokens ((splitLinesKeep content.data).take
      (headerCount javaIsHeaderLine (splitLinesKeep content.data))).flatten ≤ 10) :
    chunk_java content file_path tt ot =
      javaLoop tt (splitLinesKeep content.data).length
        ((splitLinesKeep content.data).drop
          (headerCount javaIsHeaderLine (splitLinesKeep content.data)))
        (headerCount javaIsHeaderLine (splitLinesKeep content.data) + 1) []
        (headerCount javaIsHeaderLine (splitLinesKeep content.data) + 1)
        none none 0 [] ∧
    (∀ c ∈ chunk_java content file_path tt ot,
      headerCount javaIsHeaderLine (splitLinesKeep content.data) + 1 ≤ c.start_line) ∧
    (∀ c, (chunk_java content file_path tt ot).head? = some c →
      c.start_line = headerCount javaIsHeaderLine (splitLinesKeep content.data) + 1) := by
  have hhc : ¬((splitLinesKeep content.data).take
      (headerCount javaIsHeaderLine (splitLinesKeep content.data)) ≠ [] ∧
      estimate_tokens ((splitLinesKeep content.data).take
        (headerCount javaIsHeaderLine (splitLinesKeep content.data))).flatten > 10) := by
    rintro ⟨_, h2⟩
    omega
  have hEq : chunk_java content file_path tt ot =
      javaLoop tt (splitLinesKeep content.data).length
        ((splitLinesKeep content.data).drop
          (headerCount javaIsHeaderLine (splitLinesKeep content.data)))
        (headerCount javaIsHeaderLine (splitLinesKeep content.data) + 1) []
        (headerCount javaIsHeaderLine (splitLinesKeep content.data) + 1)
        none none 0 [] := by
    simp only [chunk_java, h, Bool.false_eq_true, if_false, hhc, List.reverse_nil]
  have hle := headerCount_le javaIsHeaderLine (splitLinesKeep content.data)
  refine ⟨hEq, ?_, ?_⟩
  · intro c hc
    rw [hEq] at hc
    exact (javaLoop_bounds tt (splitLinesKeep content.data).length
      (headerCount javaIsHeaderLine (splitLinesKeep content.data) + 1) _ _ _ _ _ _ _ _
      (by simp) (by simp [List.length_drop]; omega) (le_refl _) (by simp) c hc).2
  · intro c hc
    rw [hEq] at hc
    refine javaLoop_first_from_empty tt (splitLinesKeep content.data).length _ _ _
      _ _ _ ?_ c hc
    intro line hline
    exact javaIsHeaderLine_false_not_blank
      (headerCount_drop_head javaIsHeaderLine (splitLinesKeep content.data) line hline)

theorem chunk_go_header_dropped (content file_path : String) (tt ot : Nat)
    (h : (pyStrip content.data).isEmpty = false)
    (hcs : 1 ≤ goHeaderCount (splitLinesKeep content.data) false)
    (htok : estimate_tokens ((splitLinesKeep content.data).take
      (goHeaderCount (splitLinesKeep content.data) false)).flatten ≤ 10) :
    chunk_go content file_path tt ot =
      goLoop tt (splitLinesKeep content.data).length
        ((splitLinesKeep content.data).drop
          (goHeaderCount (splitLinesKeep content.data) false))
        (goHeaderCount (splitLinesKeep content.data) false + 1) []
        (goHeaderCount (splitLinesKeep content.data) false + 1)
        none none 0 [] ∧
    (∀ c ∈ chunk_go content file_path tt ot,
      goHeaderCount (splitLinesKeep content.data) false + 1 ≤ c.start_line) ∧
    (∀ c, (chunk_go content file_path tt ot).head? = some c →
      c.start_line = goHeaderCount (splitLinesKeep content.data) false + 1) := by
  have hhc : ¬((splitLinesKeep content.data).take
      (goHeaderCount (splitLinesKeep content.data) false) ≠ [] ∧
      estimate_tokens ((splitLinesKeep content.data).take
        (goHeaderCount (splitLinesKeep content.data) false)).flatten > 10) := by
    rintro ⟨_, h2⟩
    omega
  have hEq : chunk_go content file_path tt ot =
      goLoop tt (splitLinesKeep content.data).length
        ((splitLinesKeep content.data).drop
          (goHeaderCount (splitLinesKeep content.data) false))
        (goHeaderCount (splitLinesKeep content.data) false + 1) []
        (goHeaderCount (splitLinesKeep content.data) false + 1)
        none none 0 [] := by
    simp only [chunk_go, h, Bool.false_eq_true, if_false, hhc, List.reverse_nil]
  have hle := goHeaderCount_le (splitLinesKeep content.data) false
  refine ⟨hEq, ?_, ?_⟩
  · intro c hc
    rw [hEq] at hc
    exact (goLoop_bounds tt (splitLinesKeep content.data).length
      (goHeaderCount (splitLinesKeep content.data) false + 1) _ _ _ _ _ _ _ _
      (by simp) (by simp [List.length_drop]; omega) (le_refl _) (by simp) c hc).2
  · intro c hc
    rw [hEq] at hc
    refine goLoop_first_from_empty tt (splitLinesKeep content.data).length _ _ _
      _ _ _ ?_ c hc
    intro line hline
    exact goHeaderCount_drop_head (splitLinesKeep content.data) false line hline

/-- C9: for each language chunker (Python, TypeScript/JavaScript, Java, Go),
if the contiguous header region peeled from the top of the file is nonempty
with an estimated token count of at most 10, the header lines are omitted from
the output entirely: the result is exactly the main loop run over the
non-header lines with no header chunk, every emitted chunk starts after the
header region, and the first emitted chunk starts on the first line after it. -/
theorem header_dropped_correct (content file_path : String) (tt ot : Nat)
    (h : (pyStrip content.data).isEmpty = false) :
    (1 ≤ headerCount pyIsHeaderLine (splitLinesKeep content.data) →
      estimate_tokens ((splitLinesKeep content.data).take
        (headerCount pyIsHeaderLine (splitLinesKeep content.data))).flatten ≤ 10 →
      chunk_python content file_path tt ot =
        pythonLoop tt (splitLinesKeep content.data).length
          ((splitLinesKeep content.data).drop
            (headerCount pyIsHeaderLine (splitLinesKeep content.data)))
          (headerCount pyIsHeaderLine (splitLinesKeep content.data) + 1) []
          (headerCount pyIsHeaderLine (splitLinesKeep content.data) + 1)
          none none 0 false [] ∧
      (∀ c ∈ chunk_python content file_path tt ot,
        headerCount pyIsHeaderLine (splitLinesKeep content.data) + 1 ≤ c.start_line) ∧
      (∀ c, (chunk_python content file_path tt ot).head? = some c →
        c.start_line = headerCount pyIsHeaderLine (splitLinesKeep content.data) + 1)) ∧
    (1 ≤ headerCount tsIsHeaderLine (splitLinesKeep content.data) →
      estimate_tokens ((splitLinesKeep content.data).take
        (headerCount tsIsHeaderLine (splitLinesKeep content.data))).flatten ≤ 10 →
      chunk_typescript content file_path tt ot =
        tsLoop tt ot (splitLinesKeep content.data).length
          ((splitLinesKeep content.data).drop
            (headerCount tsIsHeaderLine (splitLinesKeep content.data)))
          (headerCount tsIsHeaderLine (splitLinesKeep content.data) + 1) []
          (headerCount tsIsHeaderLine (splitLinesKeep content.data) + 1)
          none none 0 [] ∧
      (∀ c ∈ chunk_typescript content file_path tt ot,
        headerCount tsIsHeaderLine (splitLinesKeep content.data) + 1 ≤ c.start_line) ∧
      (∀ c, (chunk_typescript content file_path tt ot).head? = some c →
        c.start_line = headerCount tsIsHeaderLine (splitLinesKeep content.data) + 1)) ∧
    (1 ≤ headerCount javaIsHeaderLine (splitLinesKeep content.data) →
      estimate_tokens ((splitLinesKeep content.data).take
        (headerCount javaIsHeaderLine (splitLinesKeep content.data))).flatten ≤ 10 →
      chunk_java content file_path tt ot =
        javaLoop tt (splitLinesKeep content.data).length
          ((splitLinesKeep content.data).drop
            (headerCount javaIsHeaderLine (splitLinesKeep content.data)))
          (headerCount javaIsHeaderLine (splitLinesKeep content.data) + 1) []
          (headerCount javaIsHeaderLine (splitLinesKeep content.data) + 1)
          none none 0 [] ∧
      (∀ c ∈ chunk_java content file_path tt ot,
        headerCount javaIsHeaderLine (splitLinesKeep content.data) + 1 ≤ c.start_line) ∧
      (∀ c, (chunk_java content file_path tt ot).head? = some c →
        c.start_line = headerCount javaIsHeaderLine (splitLinesKeep content.data) + 1)) ∧
    (1 ≤ goHeaderCount (splitLinesKeep content.data) false →
      estimate_tokens ((splitLinesKeep content.data).take
        (goHeaderCount (splitLinesKeep content.data) false)).flatten ≤ 10 →
      chunk_go content file_path tt ot =
        goLoop tt (splitLinesKeep content.data).length
          ((splitLinesKeep content.data).drop
            (goHeaderCount (splitLinesKeep content.data) false))
          (goHeaderCount (splitLinesKeep content.data) false + 1) []
          (goHeaderCount (splitLinesKeep content.data) false + 1)
          none none 0 [] ∧
      (∀ c ∈ chunk_go content file_path tt ot,
        goHeaderCount (splitLinesKeep content.data) false + 1 ≤ c.start_line) ∧
      (∀ c, (chunk_go content file_path tt ot).head? = some c →
        c.start_line = goHeaderCount (splitLinesKeep content.data) false + 1)) :=
  ⟨fun hcs htok => chunk_python_header_dropped content file_path tt ot h hcs htok,
   fun hcs htok => chunk_typescript_header_dropped content file_path tt ot h hcs htok,
   fun hcs htok => chunk_java_header_dropped content file_path tt ot h hcs htok,
   fun hcs htok => chunk_go_header_dropped content file_path tt ot h hcs htok⟩

/-- Witness for C9 at a content whose two-line header (a blank line pair) is
trivial for all four language chunkers: the first chunk starts at line 3. -/
theorem header_dropped_correct_witness :
    ((pyStrip ("\n\nfoo bar baz\n" : String).data).isEmpty = false ∧
      1 ≤ headerCount pyIsHeaderLine (splitLinesKeep ("\n\nfoo bar baz\n" : String).data) ∧
      estimate_tokens ((splitLinesKeep ("\n\nfoo bar baz\n" : String).data).take
        (headerCount pyIsHeaderLine
          (splitLinesKeep ("\n\nfoo bar baz\n" : String).data))).flatten ≤ 10 ∧
      1 ≤ headerCount tsIsHeaderLine (splitLinesKeep ("\n\nfoo bar baz\n" : String).data) ∧
      estimate_tokens ((splitLinesKeep ("\n\nfoo bar baz\n" : String).data).take
        (headerCount tsIsHeaderLine
          (splitLinesKeep ("\n\nfoo bar baz\n" : String).data))).flatten ≤ 10 ∧
      1 ≤ headerCount javaIsHeaderLine (splitLinesKeep ("\n\nfoo bar baz\n" : String).data) ∧
      estimate_tokens ((splitLinesKeep ("\n\nfoo bar baz\n" : String).data).take
        (headerCount javaIsHeaderLine
          (splitLinesKeep ("\n\nfoo bar baz\n" : String).data))).flatten ≤ 10 ∧
      1 ≤ goHeaderCount (splitLinesKeep ("\n\nfoo bar baz\n" : String).data) false ∧
      estimate_tokens ((splitLinesKeep ("\n\nfoo bar baz\n" : String).data).take
        (goHeaderCount (splitLinesKeep ("\n\nfoo bar baz\n" : String).data) false)).flatten
        ≤ 10) ∧
    ((∀ c ∈ chunk_python "\n\nfoo bar baz\n" "a.py" 500 64,
        headerCount pyIsHeaderLine (splitLinesKeep ("\n\nfoo bar baz\n" : String).data) + 1 ≤
          c.start_line) ∧
      (∀ c ∈ chunk_typescript "\n\nfoo bar baz\n" "a.ts" 500 64,
        headerCount tsIsHeaderLine (splitLinesKeep ("\n\nfoo bar baz\n" : String).data) + 1 ≤
          c.start_line) ∧
      (∀ c ∈ chunk_java "\n\nfoo bar baz\n" "A.java" 500 64,
        headerCount javaIsHeaderLine (splitLinesKeep ("\n\nfoo bar baz\n" : String).data) + 1 ≤
          c.start_line) ∧
      (∀ c ∈ chunk_go "\n\nfoo bar baz\n" "a.go" 500 64,
        goHeaderCount (splitLinesKeep ("\n\nfoo bar baz\n" : String).data) false + 1 ≤
          c.start_line)) :=
  ⟨⟨by decide, by decide, by decide, by decide, by decide, by decide, by decide,
    by decide, by decide⟩,
   ((header_dropped_correct "\n\nfoo bar baz\n" "a.py" 500 64 (by decide)).1
      (by decide) (by decide)).2.1,
   ((header_dropped_correct "\n\nfoo bar baz\n" "a.ts" 500 64 (by decide)).2.1
      (by decide) (by decide)).2.1,
   ((header_dropped_correct "\n\nfoo bar baz\n" "A.java" 500 64 (by decide)).2.2.1
      (by decide) (by decide)).2.1,
   ((header_dropped_correct "\n\nfoo bar baz\n" "a.go" 500 64 (by decide)).2.2.2
      (by decide) (by decide)).2.1⟩

/-! ### Merkle tree construction (src/craigpy/indexer/merkle.py, build_merkle_tree) -/

/-- Split a character list on `'/'` into path components; models
`pathlib.Path(p).parts` for normalized relative paths. -/
def splitSlashAux : List Char → List Char → List String
  | [], acc => [String.mk acc.reverse]
  | c :: rest, acc =>
      if c = '/' then String.mk acc.reverse :: splitSlashAux rest []
      else splitSlashAux rest (c :: acc)

/-- `Path(p).parts` for a normalized relative path `p`. -/
def pathParts (p : String) : List String := splitSlashAux p.data []

/-- Join path components with `'/'`; models `str(Path(*parts))` for a nonempty
list of normalized components. -/
def joinS : List String → String
  | [] => ""
  | [c] => c
  | c :: rest => c ++ "/" ++ joinS rest

/-- `str(Path(*parts[:i]))` with the sentinel `"."` for the empty prefix, as in
`parent = str(Path(*parts[:i])) if i > 0 else "."`. -/
def pdir (l : List String) : String := if l = [] then "." else joinS l

/-- A well-formed path component: nonempty, slash-free, not `"."` or `".."`. -/
def goodComp (c : String) : Bool :=
  !c.data.isEmpty && decide ('/' ∉ c.data) && decide (c ≠ ".") && decide (c ≠ "..")

/-- A normalized relative path: every slash-separated component is well formed. -/
def normalPath (p : String) : Bool := (pathParts p).all goodComp

/-- Replace the value stored at `key` (first occurrence), keeping its position;
models Python dict assignment for a key that is already present. -/
def assocUpdate {β : Type} : List (String × β) → String → β → List (String × β)
  | [], _, _ => []
  | (k, v) :: rest, key, val =>
      if k = key then (key, val) :: rest else (k, v) :: assocUpdate rest key val

/-- Python dict `d[k] = v`: update in place if the key exists, else append. -/
def dictSet {β : Type} (l : List (String × β)) (k : String) (v : β) :
    List (String × β) :=
  if (alookup l k).isSome then assocUpdate l k v else l ++ [(k, v)]

/-- The child list recorded for `d` in `dir_children` (a `defaultdict(list)`,
so an absent key reads as `[]`). -/
def dcChild (dc : List (String × List String)) (d : String) : List String :=
  (alookup dc d).getD []

/-- One `if child not in dir_children[parent]: dir_children[parent].append(child)`
step (the `defaultdict` creates the key on first access). -/
def dcAdd (dc : List (String × List String)) (parent child : String) :
    List (String × List String) :=
  match alookup dc parent with
  | none => dc ++ [(parent, [child])]
  | some l => if child ∈ l then dc else assocUpdate dc parent (l ++ [child])

/-- The `for i in range(len(parts))` loop of build_merkle_tree registering every
prefix of one file path under its parent; `pre` holds `parts[:i]` and `rest`
the remaining components. -/
def registerParts :
    List (String × List String) → List String → List String →
    List (String × List String)
  | dc, _, [] => dc
  | dc, pre, p :: rest =>
      registerParts (dcAdd dc (pdir pre) (joinS (pre ++ [p]))) (pre ++ [p]) rest

/-- The `for file_path in file_hashes` loop building `dir_children`. -/
def buildDirChildren :
    List (String × List String) → List String → List (String × List String)
  | dc, [] => dc
  | dc, f :: fs => buildDirChildren (registerParts dc [] (pathParts f)) fs

/-- `d.count("/")`. -/
def countSlash (s : String) : Nat := s.data.count '/'

/-- The sort key `-d.count("/") if d != "." else 1` used for `all_dirs`. -/
def merkleKey (d : String) : Int := if d = "." then 1 else -(countSlash d : Int)

/-- Key comparison for the Python `sorted` call on `dir_children.keys()`. -/
def merkleKeyLe (a b : String) : Prop := merkleKey a ≤ merkleKey b

instance : DecidableRel merkleKeyLe := fun _ _ => Int.decLe _ _

instance : IsTotal String merkleKeyLe := ⟨fun a b => Int.le_total _ _⟩

instance : IsTrans String merkleKeyLe := ⟨fun _ _ _ h₁ h₂ => le_trans h₁ h₂⟩

/-- `"|".join(child_hashes)`. -/
def joinBar : List String → String
  | [] => ""
  | [h] => h
  | h :: rest => h ++ "|" ++ joinBar rest

/-- The `for dir_path in all_dirs` loop: sort the children, collect the hashes
of those already in `nodes`, and store the directory hash when any exist. -/
def dirLoop (dc : List (String × List String)) :
    List (String × (String × Bool)) → List String → List (String × (String × Bool))
  | nodes, [] => nodes
  | nodes, d :: ds =>
      if ((pySortStrs (dcChild dc d)).filterMap
            fun c => (alookup nodes c).map Prod.fst) = [] then
        dirLoop dc nodes ds
      else
        dirLoop dc
          (dictSet nodes d
            (hash_content (joinBar ((pySortStrs (dcChild dc d)).filterMap
              fun c => (alookup nodes c).map Prod.fst)), true))
          ds

/-- `build_merkle_tree`: file leaves, then `dir_children`, then the depth-sorted
directory pass. -/
def build_merkle_tree (file_hashes : List (String × String)) :
    List (String × (String × Bool)) :=
  dirLoop (buildDirChildren [] (file_hashes.map Prod.fst))
    (file_hashes.map fun pr => (pr.1, (pr.2, false)))
    (List.insertionSort merkleKeyLe
      ((buildDirChildren [] (file_hashes.map Prod.fst)).map Prod.fst))

/-- Spec-side notion (for the refinement statement): the parent directory of a
path is its component list without the last component, `"."` at top level. -/
def pyParent (c : String) : String :=
  if (pathParts c).length ≤ 1 then "." else joinS (pathParts c).dropLast

/-- Spec-side notion: the direct children of `d` among the output node paths. -/
def specChildren (out : List (String × (String × Bool))) (d : String) :
    List String :=
  (out.map Prod.fst).filter fun c => decide (c ≠ "." ∧ pyParent c = d)

/-! #### Split/join inverses and component facts -/

theorem splitSlashAux_ne_nil (l acc : List Char) : splitSlashAux l acc ≠ [] := by
  cases l with
  | nil => simp [splitSlashAux]
  | cons c rest =>
    simp only [splitSlashAux]
    split
    · simp
    · exact splitSlashAux_ne_nil rest _

theorem splitSlashAux_no_slash (l : List Char) (h : '/' ∉ l) :
    ∀ acc, splitSlashAux l acc = [String.mk (acc.reverse ++ l)] := by
  induction l with
  | nil => intro acc; simp [splitSlashAux]
  | cons c rest ih =>
    intro acc
    simp only [List.mem_cons, not_or] at h
    have hc : ¬(c = '/') := fun hh => h.1 hh.symm
    simp only [splitSlashAux, if_neg hc, ih h.2]
    simp

theorem splitSlashAux_slash (l₁ l₂ : List Char) (h : '/' ∉ l₁) :
    ∀ acc, splitSlashAux (l₁ ++ '/' :: l₂) acc =
      String.mk (acc.reverse ++ l₁) :: splitSlashAux l₂ [] := by
  induction l₁ with
  | nil => intro acc; simp [splitSlashAux]
  | cons c rest ih =>
    intro acc
    simp only [List.mem_cons, not_or] at h
    have hc : ¬(c = '/') := fun hh => h.1 hh.symm
    simp only [List.cons_append, splitSlashAux, if_neg hc, List.append_eq]
    rw [ih h.2 (c :: acc)]
    simp

theorem joinS_cons_of_ne_nil (c : String) (rest : List String) (h : rest ≠ []) :
    joinS (c :: rest) = c ++ "/" ++ joinS rest := by
  cases rest with
  | nil => cases h rfl
  | cons d rest' => rfl

theorem pathParts_joinS (cs : List String) (hne : cs ≠ [])
    (hgood : ∀ c ∈ cs, '/' ∉ c.data) : pathParts (joinS cs) = cs := by
  induction cs with
  | nil => cases hne rfl
  | cons c rest ih =>
    cases rest with
    | nil =>
      simp only [joinS, pathParts]
      rw [splitSlashAux_no_slash c.data (hgood c (by simp)) []]
      simp
    | cons d rest' =>
      have hjoin : joinS (c :: d :: rest') = c ++ "/" ++ joinS (d :: rest') := rfl
      have hdata : (joinS (c :: d :: rest')).data =
          c.data ++ '/' :: (joinS (d :: rest')).data := by
        rw [hjoin]; simp
      simp only [pathParts, hdata]
      rw [splitSlashAux_slash c.data (joinS (d :: rest')).data
        (hgood c (by simp)) []]
      simp only [List.reverse_nil, List.nil_append]
      have hrest : pathParts (joinS (d :: rest')) = d :: rest' :=
        ih (by simp) (fun x hx => hgood x (List.mem_cons_of_mem _ hx))
      simp only [pathParts] at hrest
      rw [hrest]

theorem joinS_splitSlashAux (l : List Char) :
    ∀ acc, (joinS (splitSlashAux l acc)).data = acc.reverse ++ l := by
  induction l with
  | nil => intro acc; simp [splitSlashAux, joinS]
  | cons c rest ih =>
    intro acc
    by_cases hc : c = '/'
    · subst hc
      have hstep : splitSlashAux ('/' :: rest) acc =
          String.mk acc.reverse :: splitSlashAux rest [] := by
        simp [splitSlashAux]
      rw [hstep, joinS_cons_of_ne_nil _ _ (splitSlashAux_ne_nil rest [])]
      have := ih ([] : List Char)
      simp only [List.reverse_nil, List.nil_append] at this
      simp [this]
    · simp only [splitSlashAux, if_neg hc]
      rw [ih (c :: acc)]
      simp

theorem joinS_pathParts (p : String) : joinS (pathParts p) = p := by
  apply String.ext
  simpa using joinS_splitSlashAux p.data []

theorem countSlash_joinS (cs : List String) (hne : cs ≠ [])
    (hgood : ∀ c ∈ cs, '/' ∉ c.data) :
    countSlash (joinS cs) = cs.length - 1 := by
  induction cs with
  | nil => cases hne rfl
  | cons c rest ih =>
    cases rest with
    | nil =>
      simp only [joinS, countSlash, List.length_cons, List.length_nil]
      exact List.count_eq_zero.mpr (hgood c (by simp))
    | cons d rest' =>
      have hdata : (joinS (c :: d :: rest')).data =
          c.data ++ '/' :: (joinS (d :: rest')).data := by
        rw [joinS_cons_of_ne_nil c (d :: rest') (by simp)]; simp
      have hc0 : c.data.count '/' = 0 :=
        List.count_eq_zero.mpr (hgood c (by simp))
      have hrest := ih (by simp) (fun x hx => hgood x (List.mem_cons_of_mem _ hx))
      simp only [countSlash] at hrest ⊢
      rw [hdata, List.count_append, hc0, List.count_cons]
      have hbeq : (('/' : Char) == '/') = true := by decide
      simp only [hbeq, if_true]
      simp only [List.length_cons] at hrest ⊢
      omega

theorem joinS_ne_dot (cs : List String) (hne : cs ≠ [])
    (hgood : ∀ c ∈ cs, goodComp c = true) : joinS cs ≠ "." := by
  have hslash : ∀ c ∈ cs, '/' ∉ c.data := by
    intro c hc
    have := hgood c hc
    simp only [goodComp, Bool.and_eq_true, decide_eq_true_eq] at this
    exact this.1.1.2
  cases cs with
  | nil => cases hne rfl
  | cons c rest =>
    cases rest with
    | nil =>
      have := hgood c (by simp)
      simp only [goodComp, Bool.and_eq_true, decide_eq_true_eq] at this
      simpa [joinS] using this.1.2
    | cons d rest' =>
      intro hEq
      have hcount := countSlash_joinS (c :: d :: rest') (by simp) hslash
      rw [hEq] at hcount
      simp [countSlash] at hcount

/-! #### Association-list update lemmas -/

theorem alookup_append_of_none {β : Type} {l₁ : List (String × β)} {k : String}
    (h : alookup l₁ k = none) (l₂ : List (String × β)) :
    alookup (l₁ ++ l₂) k = alookup l₂ k := by
  induction l₁ with
  | nil => simp
  | cons kv rest ih =>
    obtain ⟨k', v⟩ := kv
    by_cases hk : k' = k
    · subst hk; simp [alookup] at h
    · simp only [alookup, if_neg hk] at h
      simpa [alookup, hk] using ih h

theorem alookup_append_of_some {β : Type} {l₁ : List (String × β)} {k : String}
    {v : β} (h : alookup l₁ k = some v) (l₂ : List (String × β)) :
    alookup (l₁ ++ l₂) k = some v := by
  induction l₁ with
  | nil => simp [alookup] at h
  | cons kv rest ih =>
    obtain ⟨k', w⟩ := kv
    by_cases hk : k' = k
    · subst hk
      simp [alookup] at h
      simp [alookup, h]
    · simp only [alookup, if_neg hk] at h
      simpa [alookup, hk] using ih h

theorem alookup_assocUpdate_self {β : Type} {l : List (String × β)} {k : String}
    (h : (alookup l k).isSome = true) (v : β) :
    alookup (assocUpdate l k v) k = some v := by
  induction l with
  | nil => simp [alookup] at h
  | cons kv rest ih =>
    obtain ⟨k', w⟩ := kv
    by_cases hk : k' = k
    · subst hk; simp [assocUpdate, alookup]
    · simp only [alookup, if_neg hk] at h
      simpa [assocUpdate, alookup, hk] using ih h

theorem alookup_assocUpdate_ne {β : Type} (l : List (String × β)) (k : String)
    (v : β) {k' : String} (h : k' ≠ k) :
    alookup (assocUpdate l k v) k' = alookup l k' := by
  induction l with
  | nil => simp [assocUpdate]
  | cons kv rest ih =>
    obtain ⟨k₀, w⟩ := kv
    simp only [assocUpdate]
    by_cases hk : k₀ = k
    · rw [if_pos hk]
      have h1 : ¬(k = k') := fun hh => h hh.symm
      have h2 : ¬(k₀ = k') := fun hh => h1 (hk.symm.trans hh)
      simp [alookup, h1, h2]
    · rw [if_neg hk]
      simp [alookup, ih]

theorem assocUpdate_keys {β : Type} (l : List (String × β)) (k : String) (v : β) :
    (assocUpdate l k v).map Prod.fst = l.map Prod.fst := by
  induction l with
  | nil => simp [assocUpdate]
  | cons kv rest ih =>
    obtain ⟨k₀, w⟩ := kv
    by_cases hk : k₀ = k
    · subst hk; simp [assocUpdate]
    · simp [assocUpdate, hk, ih]

theorem alookup_dictSet_self {β : Type} (l : List (String × β)) (k : String)
    (v : β) : alookup (dictSet l k v) k = some v := by
  unfold dictSet
  by_cases h : (alookup l k).isSome = true
  · rw [if_pos h]; exact alookup_assocUpdate_self h v
  · rw [if_neg h]
    have hnone : alookup l k = none := by
      cases hx : alookup l k with
      | none => rfl
      | some w => rw [hx] at h; simp at h
    rw [alookup_append_of_none hnone]
    simp [alookup]

theorem alookup_dictSet_ne {β : Type} (l : List (String × β)) (k : String)
    (v : β) {k' : String} (h : k' ≠ k) :
    alookup (dictSet l k v) k' = alookup l k' := by
  unfold dictSet
  split
  · exact alookup_assocUpdate_ne l k v h
  · cases hx : alookup l k' with
    | none =>
      rw [alookup_append_of_none hx]
      have hk' : ¬(k = k') := fun hh => h hh.symm
      simp [alookup, hk', hx]
    | some w => exact alookup_append_of_some hx _

theorem dictSet_keys_nodup {β : Type} {l : List (String × β)}
    (hnd : (l.map Prod.fst).Nodup) (k : String) (v : β) :
    ((dictSet l k v).map Prod.fst).Nodup := by
  unfold dictSet
  split
  · rwa [assocUpdate_keys]
  · rename_i h
    have hk : k ∉ l.map Prod.fst := by
      rw [← alookup_eq_none]
      cases hx : alookup l k with
      | none => rfl
      | some w => rw [hx] at h; simp at h
    have hkeys : ((l ++ [(k, v)]).map Prod.fst) = l.map Prod.fst ++ [k] := by simp
    rw [hkeys]
    refine List.Nodup.append hnd (by simp) ?_
    intro a ha hb
    simp only [List.mem_singleton] at hb
    exact hk (hb ▸ ha)

theorem isSome_alookup_dictSet {β : Type} (l : List (String × β)) (k : String)
    (v : β) (k' : String) :
    (alookup (dictSet l k v) k').isSome = true ↔
      ((alookup l k').isSome = true ∨ k' = k) := by
  by_cases h : k' = k
  · subst h; simp [alookup_dictSet_self]
  · rw [alookup_dictSet_ne l k v h]
    simp [h]

/-! #### dir_children construction lemmas -/

theorem dcChild_dcAdd (dc : List (String × List String)) (parent child d : String) :
    dcChild (dcAdd dc parent child) d =
      if d = parent then
        (if child ∈ dcChild dc parent then dcChild dc parent
         else dcChild dc parent ++ [child])
      else dcChild dc d := by
  cases hx : alookup dc parent with
  | none =>
    simp only [dcAdd, hx]
    have hpc : dcChild dc parent = [] := by simp [dcChild, hx]
    by_cases hd : d = parent
    · subst hd
      rw [if_pos rfl, hpc]
      simp only [List.not_mem_nil, if_false, List.nil_append]
      simp [dcChild, alookup_append_of_none hx, alookup]
    · rw [if_neg hd]
      cases hy : alookup dc d with
      | none =>
        simp only [dcChild, alookup_append_of_none hy]
        have hd' : ¬(parent = d) := fun hh => hd hh.symm
        have : alookup [(parent, [child])] d = none := by
          simp [alookup, hd']
        simp [this, hy]
      | some w => simp [dcChild, alookup_append_of_some hy, hy]
  | some l =>
    simp only [dcAdd, hx]
    have hpc : dcChild dc parent = l := by simp [dcChild, hx]
    by_cases hin : child ∈ l
    · rw [if_pos hin]
      by_cases hd : d = parent
      · subst hd; simp [hpc, hin]
      · simp [hd]
    · rw [if_neg hin]
      by_cases hd : d = parent
      · subst hd
        have hs : (alookup dc d).isSome = true := by simp [hx]
        simp only [dcChild, alookup_assocUpdate_self hs, if_pos rfl]
        simp [hx, hin]
      · simp only [if_neg hd, dcChild, alookup_assocUpdate_ne dc parent _ hd]

theorem dcAdd_keys_mem (dc : List (String × List String)) (parent child d : String) :
    d ∈ (dcAdd dc parent child).map Prod.fst ↔
      (d ∈ dc.map Prod.fst ∨ d = parent) := by
  cases hx : alookup dc parent with
  | none => simp [dcAdd, hx]
  | some l =>
    simp only [dcAdd, hx]
    have hp : parent ∈ dc.map Prod.fst := by
      rw [← alookup_isSome]; simp [hx]
    by_cases hin : child ∈ l
    · rw [if_pos hin]
      constructor
      · exact fun h => Or.inl h
      · rintro (h | h)
        · exact h
        · exact h ▸ hp
    · rw [if_neg hin, assocUpdate_keys]
      constructor
      · exact fun h => Or.inl h
      · rintro (h | h)
        · exact h
        · exact h ▸ hp

theorem dcAdd_keys_nodup {dc : List (String × List String)}
    (hnd : (dc.map Prod.fst).Nodup) (parent child : String) :
    ((dcAdd dc parent child).map Prod.fst).Nodup := by
  cases hx : alookup dc parent with
  | none =>
    simp only [dcAdd, hx]
    have hp : parent ∉ dc.map Prod.fst := alookup_eq_none.mp hx
    have hkeys : ((dc ++ [(parent, [child])]).map Prod.fst) =
        dc.map Prod.fst ++ [parent] := by simp
    rw [hkeys]
    refine List.Nodup.append hnd (by simp) ?_
    intro a ha hb
    simp only [List.mem_singleton] at hb
    exact hp (hb ▸ ha)
  | some l =>
    simp only [dcAdd, hx]
    by_cases hin : child ∈ l
    · simpa [hin] using hnd
    · rw [if_neg hin, assocUpdate_keys]; exact hnd

theorem dcAdd_child_nodup {dc : List (String × List String)}
    (hnd : ∀ d, (dcChild dc d).Nodup) (parent child : String) :
    ∀ d, (dcChild (dcAdd dc parent child) d).Nodup := by
  intro d
  rw [dcChild_dcAdd]
  by_cases hd : d = parent
  · rw [if_pos hd]
    by_cases hin : child ∈ dcChild dc parent
    · simpa [hin] using hnd parent
    · rw [if_neg hin]
      refine List.Nodup.append (hnd parent) (by simp) ?_
      intro a ha hb
      simp only [List.mem_singleton] at hb
      exact hin (hb ▸ ha)
  · rw [if_neg hd]; exact hnd d

theorem dcAdd_child_ne_nil {dc : List (String × List String)}
    (hne : ∀ d ∈ dc.map Prod.fst, dcChild dc d ≠ []) (parent child : String) :
    ∀ d ∈ (dcAdd dc parent child).map Prod.fst,
      dcChild (dcAdd dc parent child) d ≠ [] := by
  intro d hd
  rw [dcAdd_keys_mem] at hd
  rw [dcChild_dcAdd]
  by_cases hdp : d = parent
  · rw [if_pos hdp]
    by_cases hin : child ∈ dcChild dc parent
    · rw [if_pos hin]
      intro hnil
      exact List.not_mem_nil child (hnil ▸ hin)
    · rw [if_neg hin]
      simp
  · rw [if_neg hdp]
    rcases hd with hd | hd
    · exact hne d hd
    · cases hdp hd

theorem registerParts_child_mem :
    ∀ (rest pre : List String) (dc : List (String × List String)) (c d : String),
      c ∈ dcChild (registerParts dc pre rest) d ↔
        (c ∈ dcChild dc d ∨ ∃ j, j < rest.length ∧
          c = joinS (pre ++ rest.take (j + 1)) ∧ d = pdir (pre ++ rest.take j)) := by
  intro rest
  induction rest with
  | nil =>
    intro pre dc c d
    simp [registerParts]
  | cons p rest ih =>
    intro pre dc c d
    rw [registerParts, ih]
    constructor
    · rintro (hmem | ⟨j, hj, hc, hd⟩)
      · rw [dcChild_dcAdd] at hmem
        by_cases hdp : d = pdir pre
        · rw [if_pos hdp] at hmem
          by_cases hin : joinS (pre ++ [p]) ∈ dcChild dc (pdir pre)
          · rw [if_pos hin] at hmem
            exact Or.inl (hdp ▸ hmem)
          · rw [if_neg hin] at hmem
            rcases List.mem_append.mp hmem with hmem | hmem
            · exact Or.inl (hdp ▸ hmem)
            · refine Or.inr ⟨0, by simp, ?_, by simpa using hdp⟩
              simpa using List.mem_singleton.mp hmem
        · rw [if_neg hdp] at hmem
          exact Or.inl hmem
      · refine Or.inr ⟨j + 1, by simpa using hj, ?_, ?_⟩
        · rw [hc]
          simp [List.append_assoc]
        · rw [hd]
          simp [List.append_assoc]
    · rintro (hmem | ⟨j, hj, hc, hd⟩)
      · left
        rw [dcChild_dcAdd]
        by_cases hdp : d = pdir pre
        · rw [if_pos hdp]
          by_cases hin : joinS (pre ++ [p]) ∈ dcChild dc (pdir pre)
          · rw [if_pos hin]; exact hdp ▸ hmem
          · rw [if_neg hin]; exact List.mem_append_left _ (hdp ▸ hmem)
        · rw [if_neg hdp]; exact hmem
      · cases j with
        | zero =>
          left
          rw [dcChild_dcAdd]
          simp only [List.take_zero, List.append_nil] at hd
          simp only [List.take_succ_cons, List.take_zero] at hc
          rw [if_pos hd]
          by_cases hin : joinS (pre ++ [p]) ∈ dcChild dc (pdir pre)
          · rw [if_pos hin]; exact hc ▸ hin
          · rw [if_neg hin]
            exact List.mem_append_right _ (by simp [hc])
        | succ j' =>
          right
          refine ⟨j', by simpa using hj, ?_, ?_⟩
          · rw [hc]; simp [List.append_assoc]
          · rw [hd]; simp [List.append_assoc]

theorem registerParts_keys_mem :
    ∀ (rest pre : List String) (dc : List (String × List String)) (d : String),
      d ∈ (registerParts dc pre rest).map Prod.fst ↔
        (d ∈ dc.map Prod.fst ∨ ∃ j, j < rest.length ∧ d = pdir (pre ++ rest.take j)) := by
  intro rest
  induction rest with
  | nil =>
    intro pre dc d
    simp [registerParts]
  | cons p rest ih =>
    intro pre dc d
    rw [registerParts, ih]
    constructor
    · rintro (hmem | ⟨j, hj, hd⟩)
      · rw [dcAdd_keys_mem] at hmem
        rcases hmem with hmem | hmem
        · exact Or.inl hmem
        · exact Or.inr ⟨0, by simp, by simpa using hmem⟩
      · refine Or.inr ⟨j + 1, by simpa using hj, ?_⟩
        rw [hd]; simp [List.append_assoc]
    · rintro (hmem | ⟨j, hj, hd⟩)
      · exact Or.inl ((dcAdd_keys_mem dc (pdir pre) _ d).mpr (Or.inl hmem))
      · cases j with
        | zero =>
          left
          rw [dcAdd_keys_mem]
          simp only [List.take_zero, List.append_nil] at hd
          exact Or.inr hd
        | succ j' =>
          right
          refine ⟨j', by simpa using hj, ?_⟩
          rw [hd]; simp [List.append_assoc]

theorem registerParts_keys_nodup :
    ∀ (rest pre : List String) {dc : List (String × List String)},
      (dc.map Prod.fst).Nodup → ((registerParts dc pre rest).map Prod.fst).Nodup := by
  intro rest
  induction rest with
  | nil => intro pre dc h; simpa [registerParts] using h
  | cons p rest ih =>
    intro pre dc h
    rw [registerParts]
    exact ih _ (dcAdd_keys_nodup h _ _)

theorem registerParts_child_nodup :
    ∀ (rest pre : List String) {dc : List (String × List String)},
      (∀ d, (dcChild dc d).Nodup) →
      ∀ d, (dcChild (registerParts dc pre rest) d).Nodup := by
  intro rest
  induction rest with
  | nil => intro pre dc h; simpa [registerParts] using h
  | cons p rest ih =>
    intro pre dc h
    rw [registerParts]
    exact ih _ (dcAdd_child_nodup h _ _)

theorem registerParts_child_ne_nil :
    ∀ (rest pre : List String) {dc : List (String × List String)},
      (∀ d ∈ dc.map Prod.fst, dcChild dc d ≠ []) →
      ∀ d ∈ (registerParts dc pre rest).map Prod.fst,
        dcChild (registerParts dc pre rest) d ≠ [] := by
  intro rest
  induction rest with
  | nil => intro pre dc h; simpa [registerParts] using h
  | cons p rest ih =>
    intro pre dc h
    rw [registerParts]
    exact ih _ (dcAdd_child_ne_nil h _ _)

theorem buildDirChildren_child_mem :
    ∀ (files : List String) (dc : List (String × List String)) (c d : String),
      c ∈ dcChild (buildDirChildren dc files) d ↔
        (c ∈ dcChild dc d ∨ ∃ p ∈ files, ∃ j, j < (pathParts p).length ∧
          c = joinS ((pathParts p).take (j + 1)) ∧ d = pdir ((pathParts p).take j)) := by
  intro files
  induction files with
  | nil =>
    intro dc c d
    simp [buildDirChildren]
  | cons f fs ih =>
    intro dc c d
    rw [buildDirChildren, ih, registerParts_child_mem]
    simp only [List.nil_append, List.mem_cons]
    constructor
    · rintro ((hmem | ⟨j, hj, hc, hd⟩) | ⟨p, hp, j, hj, hc, hd⟩)
      · exact Or.inl hmem
      · exact Or.inr ⟨f, Or.inl rfl, j, hj, hc, hd⟩
      · exact Or.inr ⟨p, Or.inr hp, j, hj, hc, hd⟩
    · rintro (hmem | ⟨p, hp | hp, j, hj, hc, hd⟩)
      · exact Or.inl (Or.inl hmem)
      · exact Or.inl (Or.inr ⟨j, by rw [← hp]; exact ⟨hj, hc, hd⟩⟩)
      · exact Or.inr ⟨p, hp, j, hj, hc, hd⟩

theorem buildDirChildren_keys_mem :
    ∀ (files : List String) (dc : List (String × List String)) (d : String),
      d ∈ (buildDirChildren dc files).map Prod.fst ↔
        (d ∈ dc.map Prod.fst ∨ ∃ p ∈ files, ∃ j, j < (pathParts p).length ∧
          d = pdir ((pathParts p).take j)) := by
  intro files
  induction files with
  | nil =>
    intro dc d
    simp [buildDirChildren]
  | cons f fs ih =>
    intro dc d
    rw [buildDirChildren, ih, registerParts_keys_mem]
    simp only [List.nil_append, List.mem_cons]
    constructor
    · rintro ((hmem | ⟨j, hj, hd⟩) | ⟨p, hp, j, hj, hd⟩)
      · exact Or.inl hmem
      · exact Or.inr ⟨f, Or.inl rfl, j, hj, hd⟩
      · exact Or.inr ⟨p, Or.inr hp, j, hj, hd⟩
    · rintro (hmem | ⟨p, hp | hp, j, hj, hd⟩)
      · exact Or.inl (Or.inl hmem)
      · exact Or.inl (Or.inr ⟨j, by rw [← hp]; exact ⟨hj, hd⟩⟩)
      · exact Or.inr ⟨p, hp, j, hj, hd⟩

theorem buildDirChildren_keys_nodup :
    ∀ (files : List String) {dc : List (String × List String)},
      (dc.map Prod.fst).Nodup → ((buildDirChildren dc files).map Prod.fst).Nodup := by
  intro files
  induction files with
  | nil => intro dc h; simpa [buildDirChildren] using h
  | cons f fs ih =>
    intro dc h
    rw [buildDirChildren]
    exact ih (registerParts_keys_nodup _ _ h)

theorem buildDirChildren_child_nodup :
    ∀ (files : List String) {dc : List (String × List String)},
      (∀ d, (dcChild dc d).Nodup) →
      ∀ d, (dcChild (buildDirChildren dc files) d).Nodup := by
  intro files
  induction files with
  | nil => intro dc h; simpa [buildDirChildren] using h
  | cons f fs ih =>
    intro dc h
    rw [buildDirChildren]
    exact ih (registerParts_child_nodup _ _ h)

theorem buildDirChildren_child_ne_nil :
    ∀ (files : List String) {dc : List (String × List String)},
      (∀ d ∈ dc.map Prod.fst, dcChild dc d ≠ []) →
      ∀ d ∈ (buildDirChildren dc files).map Prod.fst,
        dcChild (buildDirChildren dc files) d ≠ [] := by
  intro files
  induction files with
  | nil => intro dc h; simpa [buildDirChildren] using h
  | cons f fs ih =>
    intro dc h
    rw [buildDirChildren]
    exact ih (registerParts_child_ne_nil _ _ h)

/-! #### The directory pass -/

theorem dirLoop_correct (dc : List (String × List String))
    (Hdepth : ∀ d c, c ∈ dcChild dc d → merkleKey c < merkleKey d) :
    ∀ (ds : List String) (nodes : List (String × (String × Bool))),
      ds.Nodup →
      List.Sorted merkleKeyLe ds →
      (nodes.map Prod.fst).Nodup →
      (∀ d ∈ ds, alookup nodes d = none) →
      (∀ d ∈ ds, dcChild dc d ≠ []) →
      (∀ d ∈ ds, ∀ c ∈ dcChild dc d, (alookup nodes c).isSome = true ∨ c ∈ ds) →
      ((dirLoop dc nodes ds).map Prod.fst).Nodup ∧
      (∀ k, (alookup (dirLoop dc nodes ds) k).isSome = true ↔
        ((alookup nodes k).isSome = true ∨ k ∈ ds)) ∧
      (∀ k, k ∉ ds → alookup (dirLoop dc nodes ds) k = alookup nodes k) ∧
      (∀ d ∈ ds, alookup (dirLoop dc nodes ds) d =
        some (hash_content (joinBar ((pySortStrs (dcChild dc d)).filterMap
          fun c => (alookup (dirLoop dc nodes ds) c).map Prod.fst)), true)) := by
  intro ds
  induction ds with
  | nil =>
    intro nodes _ _ hnnd _ _ _
    refine ⟨hnnd, ?_, ?_, ?_⟩
    · intro k; simp [dirLoop]
    · intro k _; simp [dirLoop]
    · intro d hd; simp at hd
  | cons d ds ih =>
    intro nodes hnd hsorted hnnd hnone hne hch
    have hchd : ∀ c ∈ dcChild dc d, (alookup nodes c).isSome = true := by
      intro c hc
      rcases hch d (by simp) c hc with h | h
      · exact h
      · rcases List.mem_cons.mp h with h | h
        · exact absurd (h ▸ Hdepth d c hc) (lt_irrefl _)
        · have hle : merkleKeyLe d c := (List.pairwise_cons.mp hsorted).1 c h
          exact absurd (lt_of_lt_of_le (Hdepth d c hc) hle) (lt_irrefl _)
    have hCH : ((pySortStrs (dcChild dc d)).filterMap
        fun c => (alookup nodes c).map Prod.fst) ≠ [] := by
      intro hnil
      rw [List.filterMap_eq_nil_iff] at hnil
      obtain ⟨c₀, hc₀⟩ := List.exists_mem_of_ne_nil _ (hne d (by simp))
      have hc₀s : c₀ ∈ pySortStrs (dcChild dc d) := mem_pySortStrs.mpr hc₀
      have hnone₀ := hnil c₀ hc₀s
      have hsome₀ := hchd c₀ hc₀
      rcases hs : alookup nodes c₀ with _ | v
      · rw [hs] at hsome₀; simp at hsome₀
      · rw [hs] at hnone₀; simp at hnone₀
    rw [dirLoop, if_neg hCH]
    have hdds : d ∉ ds := (List.nodup_cons.mp hnd).1
    have hnone' : ∀ d' ∈ ds,
        alookup (dictSet nodes d
          (hash_content (joinBar ((pySortStrs (dcChild dc d)).filterMap
            fun c => (alookup nodes c).map Prod.fst)), true)) d' = none := by
      intro d' hd'
      have hne' : d' ≠ d := fun h => hdds (h ▸ hd')
      rw [alookup_dictSet_ne _ _ _ hne']
      exact hnone d' (List.mem_cons_of_mem _ hd')
    have hch' : ∀ d' ∈ ds, ∀ c ∈ dcChild dc d',
        (alookup (dictSet nodes d
          (hash_content (joinBar ((pySortStrs (dcChild dc d)).filterMap
            fun c => (alookup nodes c).map Prod.fst)), true)) c).isSome = true ∨
          c ∈ ds := by
      intro d' hd' c hc
      rcases hch d' (List.mem_cons_of_mem _ hd') c hc with h | h
      · exact Or.inl ((isSome_alookup_dictSet _ _ _ _).mpr (Or.inl h))
      · rcases List.mem_cons.mp h with h | h
        · exact Or.inl ((isSome_alookup_dictSet _ _ _ _).mpr (Or.inr h))
        · exact Or.inr h
    obtain ⟨R0, Riff, Rfr, Rform⟩ :=
      ih _ (List.nodup_cons.mp hnd).2 (List.Sorted.of_cons hsorted)
        (dictSet_keys_nodup hnnd _ _) hnone'
        (fun d' hd' => hne d' (List.mem_cons_of_mem _ hd')) hch'
    refine ⟨R0, ?_, ?_, ?_⟩
    · intro k
      rw [Riff k, isSome_alookup_dictSet]
      simp only [List.mem_cons]
      tauto
    · intro k hk
      simp only [List.mem_cons, not_or] at hk
      rw [Rfr k hk.2, alookup_dictSet_ne _ _ _ hk.1]
    · intro d' hd'
      rcases List.mem_cons.mp hd' with h | h
      · subst h
        have hfm : ((pySortStrs (dcChild dc d')).filterMap
              fun c => (alookup nodes c).map Prod.fst) =
            ((pySortStrs (dcChild dc d')).filterMap
              fun c => (alookup (dirLoop dc (dictSet nodes d'
                (hash_content (joinBar ((pySortStrs (dcChild dc d')).filterMap
                  fun c => (alookup nodes c).map Prod.fst)), true)) ds) c).map
                Prod.fst) := by
          apply List.filterMap_congr
          intro c hc
          have hcm := mem_pySortStrs.mp hc
          have hS := hchd c hcm
          have hcnd : c ≠ d' := by
            intro hEq
            rw [hEq, hnone d' (by simp)] at hS
            simp at hS
          have hcds : c ∉ ds := by
            intro hmem
            rw [hnone c (List.mem_cons_of_mem _ hmem)] at hS
            simp at hS
          rw [Rfr c hcds, alookup_dictSet_ne _ _ _ hcnd]
        rw [Rfr d' hdds, alookup_dictSet_self, ← hfm]
      · rw [Rform d' h]

/-! #### Normalized-path classification facts -/

theorem normalPath_comps {p : String} (h : normalPath p = true) :
    ∀ c ∈ pathParts p, goodComp c = true := by
  simpa [normalPath, List.all_eq_true] using h

theorem goodComp_no_slash {c : String} (h : goodComp c = true) : '/' ∉ c.data := by
  simp only [goodComp, Bool.and_eq_true, decide_eq_true_eq] at h
  exact h.1.1.2

theorem goodComp_ne_dot {c : String} (h : goodComp c = true) : c ≠ "." := by
  simp only [goodComp, Bool.and_eq_true, decide_eq_true_eq] at h
  exact h.1.2

theorem pathParts_length_pos (p : String) : 0 < (pathParts p).length :=
  List.length_pos.mpr (splitSlashAux_ne_nil p.data [])

theorem take_parts_ne_nil {p : String} {j : Nat} (h1 : 1 ≤ j) :
    (pathParts p).take j ≠ [] := by
  intro hEq
  have hL := congrArg List.length hEq
  rw [List.length_take] at hL
  simp only [List.length_nil] at hL
  have := pathParts_length_pos p
  omega

theorem pathParts_take_join {p : String} (hp : normalPath p = true) {j : Nat}
    (h1 : 1 ≤ j) (h2 : j ≤ (pathParts p).length) :
    pathParts (joinS ((pathParts p).take j)) = (pathParts p).take j := by
  apply pathParts_joinS _ (take_parts_ne_nil h1)
  intro c hc
  exact goodComp_no_slash (normalPath_comps hp c (List.take_subset _ _ hc))

theorem take_join_ne_dot {p : String} (hp : normalPath p = true) {j : Nat}
    (h1 : 1 ≤ j) : joinS ((pathParts p).take j) ≠ "." := by
  apply joinS_ne_dot _ (take_parts_ne_nil h1)
  intro c hc
  exact normalPath_comps hp c (List.take_subset _ _ hc)

theorem merkleKey_take_join {p : String} (hp : normalPath p = true) {j : Nat}
    (h1 : 1 ≤ j) (h2 : j ≤ (pathParts p).length) :
    merkleKey (joinS ((pathParts p).take j)) = -((j - 1 : Nat) : Int) := by
  have hne : (pathParts p).take j ≠ [] := take_parts_ne_nil h1
  have hgood : ∀ c ∈ (pathParts p).take j, goodComp c = true :=
    fun c hc => normalPath_comps hp c (List.take_subset _ _ hc)
  rw [merkleKey, if_neg (take_join_ne_dot hp h1),
    countSlash_joinS _ hne (fun c hc => goodComp_no_slash (hgood c hc))]
  have hlen : ((pathParts p).take j).length = j := by
    rw [List.length_take]; omega
  rw [hlen]

theorem merkleKey_dot : merkleKey "." = 1 := by simp [merkleKey]

theorem buildDC_depth (files : List String)
    (hnorm : ∀ p ∈ files, normalPath p = true) :
    ∀ d c, c ∈ dcChild (buildDirChildren [] files) d →
      merkleKey c < merkleKey d := by
  intro d c hc
  rw [buildDirChildren_child_mem] at hc
  rcases hc with hc | ⟨p, hp, j, hj, hcEq, hdEq⟩
  · simp [dcChild, alookup] at hc
  · have hpn := hnorm p hp
    have hkc : merkleKey c = -((j : Nat) : Int) := by
      rw [hcEq, merkleKey_take_join hpn (by omega) (by omega)]
      simp
    rcases Nat.eq_zero_or_pos j with h0 | hpos
    · subst h0
      have hdEq' : d = "." := by simpa [pdir] using hdEq
      rw [hdEq', hkc, merkleKey_dot]
      omega
    · have hkd : merkleKey d = -((j - 1 : Nat) : Int) := by
        rw [hdEq, pdir, if_neg (take_parts_ne_nil hpos),
          merkleKey_take_join hpn hpos (by omega)]
      rw [hkc, hkd]
      omega

theorem dot_not_file {files : List String}
    (hnorm : ∀ p ∈ files, normalPath p = true) : "." ∉ files := by
  intro h
  have h1 := hnorm _ h
  have h2 : normalPath "." = false := by decide
  rw [h1] at h2
  exact Bool.noConfusion h2

theorem take_join_not_file {files : List String}
    (hnorm : ∀ p ∈ files, normalPath p = true)
    (hpf : ∀ p ∈ files, ∀ q ∈ files,
      (pathParts p).isPrefixOf (pathParts q) = true → p = q)
    {p : String} (hp : p ∈ files) {j : Nat} (h1 : 1 ≤ j)
    (h2 : j < (pathParts p).length) :
    joinS ((pathParts p).take j) ∉ files := by
  intro hmem
  have hparse : pathParts (joinS ((pathParts p).take j)) = (pathParts p).take j :=
    pathParts_take_join (hnorm p hp) h1 (le_of_lt h2)
  have hpref : (pathParts (joinS ((pathParts p).take j))).isPrefixOf
      (pathParts p) = true := by
    rw [hparse, List.isPrefixOf_iff_prefix]
    exact List.take_prefix _ _
  have hEq := hpf _ hmem p hp hpref
  have hL := congrArg (fun s => (pathParts s).length) hEq
  simp only at hL
  rw [hparse, List.length_take] at hL
  omega

theorem buildDC_keys_not_file {files : List String}
    (hnorm : ∀ p ∈ files, normalPath p = true)
    (hpf : ∀ p ∈ files, ∀ q ∈ files,
      (pathParts p).isPrefixOf (pathParts q) = true → p = q) :
    ∀ d ∈ (buildDirChildren [] files).map Prod.fst, d ∉ files := by
  intro d hd
  rw [buildDirChildren_keys_mem] at hd
  rcases hd with hd | ⟨p, hp, j, hj, hdEq⟩
  · simp at hd
  · rcases Nat.eq_zero_or_pos j with h0 | hpos
    · subst h0
      simp only [List.take_zero, pdir, if_pos rfl] at hdEq
      rw [hdEq]
      exact dot_not_file hnorm
    · rw [hdEq, pdir, if_neg (take_parts_ne_nil hpos)]
      exact take_join_not_file hnorm hpf hp hpos hj

theorem buildDC_child_node (files : List String) :
    ∀ d c, c ∈ dcChild (buildDirChildren [] files) d →
      c ∈ files ∨ c ∈ (buildDirChildren [] files).map Prod.fst := by
  intro d c hc
  rw [buildDirChildren_child_mem] at hc
  rcases hc with hc | ⟨p, hp, j, hj, hcEq, hdEq⟩
  · simp [dcChild, alookup] at hc
  · by_cases hj1 : j + 1 = (pathParts p).length
    · left
      rw [hcEq, hj1, List.take_length, joinS_pathParts]
      exact hp
    · right
      rw [buildDirChildren_keys_mem]
      refine Or.inr ⟨p, hp, j + 1, by omega, ?_⟩
      rw [hcEq, pdir, if_neg (take_parts_ne_nil (by omega))]

theorem buildDC_child_ne_dot (files : List String)
    (hnorm : ∀ p ∈ files, normalPath p = true) :
    ∀ d c, c ∈ dcChild (buildDirChildren [] files) d → c ≠ "." := by
  intro d c hc
  rw [buildDirChildren_child_mem] at hc
  rcases hc with hc | ⟨p, hp, j, hj, hcEq, hdEq⟩
  · simp [dcChild, alookup] at hc
  · rw [hcEq]
    exact take_join_ne_dot (hnorm p hp) (by omega)

theorem pyParent_take_join {p : String} (hp : normalPath p = true) {j : Nat}
    (h1 : 1 ≤ j) (h2 : j ≤ (pathParts p).length) :
    pyParent (joinS ((pathParts p).take j)) = pdir ((pathParts p).take (j - 1)) := by
  rw [pyParent, pathParts_take_join hp h1 h2]
  have hlen : ((pathParts p).take j).length = j := by
    rw [List.length_take]; omega
  by_cases hj : j ≤ 1
  · have hj1 : j = 1 := by omega
    rw [if_pos (by rw [hlen]; omega)]
    subst hj1
    simp [pdir]
  · rw [if_neg (by rw [hlen]; omega)]
    have hdl : ((pathParts p).take j).dropLast = (pathParts p).take (j - 1) := by
      rw [List.dropLast_eq_take, hlen, List.take_take]
      have hmin : min (j - 1) j = j - 1 := by omega
      rw [hmin]
    rw [hdl, pdir, if_neg (take_parts_ne_nil (by omega))]

theorem buildDC_child_parent (files : List String)
    (hnorm : ∀ p ∈ files, normalPath p = true) :
    ∀ d c, c ∈ dcChild (buildDirChildren [] files) d → pyParent c = d := by
  intro d c hc
  rw [buildDirChildren_child_mem] at hc
  rcases hc with hc | ⟨p, hp, j, hj, hcEq, hdEq⟩
  · simp [dcChild, alookup] at hc
  · rw [hcEq, pyParent_take_join (hnorm p hp) (by omega) (by omega)]
    simp only [Nat.add_sub_cancel]
    exact hdEq.symm

theorem node_parent_child (files : List String)
    (hnorm : ∀ p ∈ files, normalPath p = true) :
    ∀ c, (c ∈ files ∨ c ∈ (buildDirChildren [] files).map Prod.fst) →
      c ≠ "." → c ∈ dcChild (buildDirChildren [] files) (pyParent c) := by
  intro c hc hdot
  rcases hc with hc | hc
  · have hcn := hnorm c hc
    have hpos := pathParts_length_pos c
    have htake : (pathParts c).take (pathParts c).length = pathParts c :=
      List.take_length _
    have hcstr : joinS ((pathParts c).take (pathParts c).length) = c := by
      rw [htake, joinS_pathParts]
    rw [buildDirChildren_child_mem]
    refine Or.inr ⟨c, hc, (pathParts c).length - 1, by omega, ?_, ?_⟩
    · rw [show (pathParts c).length - 1 + 1 = (pathParts c).length from by omega,
        hcstr]
    · conv_lhs => rw [← hcstr]
      rw [pyParent_take_join hcn (by omega) (by omega)]
  · rw [buildDirChildren_keys_mem] at hc
    rcases hc with hc | ⟨q, hq, j, hj, hcEq⟩
    · simp at hc
    · rcases Nat.eq_zero_or_pos j with h0 | hpos
      · subst h0
        simp only [List.take_zero, pdir, if_pos rfl] at hcEq
        exact absurd hcEq hdot
      · rw [pdir, if_neg (take_parts_ne_nil hpos)] at hcEq
        rw [buildDirChildren_child_mem]
        refine Or.inr ⟨q, hq, j - 1, by omega, ?_, ?_⟩
        · rw [show j - 1 + 1 = j from by omega, ← hcEq]
        · rw [hcEq, pyParent_take_join (hnorm q hq) hpos (by omega)]

instance : IsAntisymm String strLeR where
  antisymm a b h₁ h₂ := by
    have ha : lexLt b.data a.data = false := by
      have h := h₁
      unfold strLeR strLe at h
      simpa using h
    have hb : lexLt a.data b.data = false := by
      have h := h₂
      unfold strLeR strLe at h
      simpa using h
    exact String.ext (lexLt_antisymm hb ha)

/-- C2: for every input mapping of normalized, prefix-free file paths to
hashes, every directory node produced by build_merkle_tree carries the SHA-256
(over UTF-8) of the `|`-joined hashes of its direct children taken in
lexicographic order of the child paths (and every such child is itself a
node), file leaves carry the input hashes verbatim, and the top-level sentinel
directory `"."` is present whenever the input is nonempty. -/
theorem build_merkle_tree_correct (fh : List (String × String))
    (hnd : (fh.map Prod.fst).Nodup)
    (hnorm : ∀ p ∈ fh.map Prod.fst, normalPath p = true)
    (hpf : ∀ p ∈ fh.map Prod.fst, ∀ q ∈ fh.map Prod.fst,
      (pathParts p).isPrefixOf (pathParts q) = true → p = q) :
    (∀ p h, (p, h) ∈ fh →
      alookup (build_merkle_tree fh) p = some (h, false)) ∧
    (∀ d hsh, (d, (hsh, true)) ∈ build_merkle_tree fh →
      (∀ c ∈ specChildren (build_merkle_tree fh) d,
        (alookup (build_merkle_tree fh) c).isSome = true) ∧
      hsh = hash_content (joinBar
        ((pySortStrs (specChildren (build_merkle_tree fh) d)).filterMap
          fun c => (alookup (build_merkle_tree fh) c).map Prod.fst))) ∧
    (fh ≠ [] → ∃ hsh, (".", (hsh, true)) ∈ build_merkle_tree fh) := by
  have hlk : ((fh.map fun pr => (pr.1, (pr.2, false))).map Prod.fst) =
      fh.map Prod.fst := by
    rw [List.map_map]
    rfl
  have hdirsNodup :
      ((buildDirChildren [] (fh.map Prod.fst)).map Prod.fst).Nodup :=
    buildDirChildren_keys_nodup _ (by simp)
  have hallNodup : (List.insertionSort merkleKeyLe
      ((buildDirChildren [] (fh.map Prod.fst)).map Prod.fst)).Nodup :=
    ((List.perm_insertionSort merkleKeyLe _).nodup_iff).mpr hdirsNodup
  have hnone0 : ∀ d ∈ List.insertionSort merkleKeyLe
      ((buildDirChildren [] (fh.map Prod.fst)).map Prod.fst),
      alookup (fh.map fun pr => (pr.1, (pr.2, false))) d = none := by
    intro d hd
    rw [alookup_eq_none, hlk]
    exact buildDC_keys_not_file hnorm hpf d
      ((List.perm_insertionSort merkleKeyLe _).mem_iff.mp hd)
  have hne0 : ∀ d ∈ List.insertionSort merkleKeyLe
      ((buildDirChildren [] (fh.map Prod.fst)).map Prod.fst),
      dcChild (buildDirChildren [] (fh.map Prod.fst)) d ≠ [] := by
    intro d hd
    exact buildDirChildren_child_ne_nil (fh.map Prod.fst) (by simp) d
      ((List.perm_insertionSort merkleKeyLe _).mem_iff.mp hd)
  have hch0 : ∀ d ∈ List.insertionSort merkleKeyLe
      ((buildDirChildren [] (fh.map Prod.fst)).map Prod.fst),
      ∀ c ∈ dcChild (buildDirChildren [] (fh.map Prod.fst)) d,
      (alookup (fh.map fun pr => (pr.1, (pr.2, false))) c).isSome = true ∨
        c ∈ List.insertionSort merkleKeyLe
          ((buildDirChildren [] (fh.map Prod.fst)).map Prod.fst) := by
    intro d _ c hc
    rcases buildDC_child_node (fh.map Prod.fst) d c hc with h | h
    · exact Or.inl (by rw [alookup_isSome, hlk]; exact h)
    · exact Or.inr ((List.perm_insertionSort merkleKeyLe _).mem_iff.mpr h)
  obtain ⟨R0, Riff, Rfr, Rform⟩ :=
    dirLoop_correct (buildDirChildren [] (fh.map Prod.fst))
      (buildDC_depth (fh.map Prod.fst) hnorm)
      (List.insertionSort merkleKeyLe
        ((buildDirChildren [] (fh.map Prod.fst)).map Prod.fst))
      (fh.map fun pr => (pr.1, (pr.2, false)))
      hallNodup (List.sorted_insertionSort merkleKeyLe _)
      (by rw [hlk]; exact hnd) hnone0 hne0 hch0
  unfold build_merkle_tree
  refine ⟨?_, ?_, ?_⟩
  · intro p h hmem
    have hpfile : p ∈ fh.map Prod.fst := List.mem_map.mpr ⟨(p, h), hmem, rfl⟩
    have hpnot : p ∉ List.insertionSort merkleKeyLe
        ((buildDirChildren [] (fh.map Prod.fst)).map Prod.fst) := by
      intro hmem'
      exact buildDC_keys_not_file hnorm hpf p
        ((List.perm_insertionSort merkleKeyLe _).mem_iff.mp hmem') hpfile
    rw [Rfr p hpnot]
    apply alookup_of_mem
    · rw [hlk]; exact hnd
    · exact List.mem_map.mpr ⟨(p, h), hmem, rfl⟩
  · intro d hsh hmem
    have hlook : alookup (dirLoop (buildDirChildren [] (fh.map Prod.fst))
        (fh.map fun pr => (pr.1, (pr.2, false)))
        (List.insertionSort merkleKeyLe
          ((buildDirChildren [] (fh.map Prod.fst)).map Prod.fst))) d =
        some (hsh, true) := alookup_of_mem R0 hmem
    have hdAllD : d ∈ List.insertionSort merkleKeyLe
        ((buildDirChildren [] (fh.map Prod.fst)).map Prod.fst) := by
      by_contra hnd'
      rw [Rfr d hnd'] at hlook
      obtain ⟨pr, _, hEq⟩ := List.mem_map.mp (alookup_mem hlook)
      simp only [Prod.mk.injEq] at hEq
      exact Bool.noConfusion hEq.2.2
    refine ⟨?_, ?_⟩
    · intro c hc
      exact alookup_isSome.mpr (List.mem_filter.mp hc).1
    · have hsetEq : ∀ c, c ∈ specChildren
          (dirLoop (buildDirChildren [] (fh.map Prod.fst))
            (fh.map fun pr => (pr.1, (pr.2, false)))
            (List.insertionSort merkleKeyLe
              ((buildDirChildren [] (fh.map Prod.fst)).map Prod.fst))) d ↔
          c ∈ dcChild (buildDirChildren [] (fh.map Prod.fst)) d := by
        intro c
        constructor
        · intro hc
          obtain ⟨hcKeys, hcProp⟩ := List.mem_filter.mp hc
          rw [decide_eq_true_eq] at hcProp
          have hcase : c ∈ fh.map Prod.fst ∨
              c ∈ (buildDirChildren [] (fh.map Prod.fst)).map Prod.fst := by
            rcases (Riff c).mp (alookup_isSome.mpr hcKeys) with h | h
            · left; rw [alookup_isSome, hlk] at h; exact h
            · right; exact (List.perm_insertionSort merkleKeyLe _).mem_iff.mp h
          have hmemc :=
            node_parent_child (fh.map Prod.fst) hnorm c hcase hcProp.1
          rw [hcProp.2] at hmemc
          exact hmemc
        · intro hc
          apply List.mem_filter.mpr
          constructor
          · rw [← alookup_isSome]
            apply (Riff c).mpr
            rcases buildDC_child_node (fh.map Prod.fst) d c hc with h | h
            · left; rw [alookup_isSome, hlk]; exact h
            · right
              exact (List.perm_insertionSort merkleKeyLe _).mem_iff.mpr h
          · rw [decide_eq_true_eq]
            exact ⟨buildDC_child_ne_dot (fh.map Prod.fst) hnorm d c hc,
              buildDC_child_parent (fh.map Prod.fst) hnorm d c hc⟩
      have hnod1 : (specChildren
          (dirLoop (buildDirChildren [] (fh.map Prod.fst))
            (fh.map fun pr => (pr.1, (pr.2, false)))
            (List.insertionSort merkleKeyLe
              ((buildDirChildren [] (fh.map Prod.fst)).map Prod.fst))) d).Nodup :=
        List.Nodup.filter _ R0
      have hnod2 : (dcChild (buildDirChildren [] (fh.map Prod.fst)) d).Nodup :=
        buildDirChildren_child_nodup (fh.map Prod.fst)
          (fun d' => by simp [dcChild, alookup]) d
      have hlistEq : pySortStrs (specChildren
          (dirLoop (buildDirChildren [] (fh.map Prod.fst))
            (fh.map fun pr => (pr.1, (pr.2, false)))
            (List.insertionSort merkleKeyLe
              ((buildDirChildren [] (fh.map Prod.fst)).map Prod.fst))) d) =
          pySortStrs (dcChild (buildDirChildren [] (fh.map Prod.fst)) d) := by
        have hperm := (List.perm_ext_iff_of_nodup hnod1 hnod2).mpr hsetEq
        exact List.eq_of_perm_of_sorted
          ((pySortStrs_perm _).trans (hperm.trans (pySortStrs_perm _).symm))
          (pySortStrs_sorted _) (pySortStrs_sorted _)
      rw [hlistEq]
      have hform := Rform d hdAllD
      rw [hlook] at hform
      simp only [Option.some.injEq, Prod.mk.injEq] at hform
      exact hform.1
  · intro hfh
    obtain ⟨pr, hpr⟩ := List.exists_mem_of_ne_nil fh hfh
    have hp0 : pr.1 ∈ fh.map Prod.fst := List.mem_map.mpr ⟨pr, hpr, rfl⟩
    have hdot : "." ∈ (buildDirChildren [] (fh.map Prod.fst)).map Prod.fst := by
      rw [buildDirChildren_keys_mem]
      refine Or.inr ⟨pr.1, hp0, 0, pathParts_length_pos _, ?_⟩
      simp [pdir]
    have hdotAllD : "." ∈ List.insertionSort merkleKeyLe
        ((buildDirChildren [] (fh.map Prod.fst)).map Prod.fst) :=
      (List.perm_insertionSort merkleKeyLe _).mem_iff.mpr hdot
    exact ⟨_, alookup_mem (Rform "." hdotAllD)⟩

/-- Witness for C2 at a concrete three-file tree: the hypotheses hold for
`a/b.txt`, `a/c.txt`, `d.txt`, and the leaf `a/b.txt` keeps its hash. -/
theorem build_merkle_tree_correct_witness :
    ((([("a/b.txt", "h1"), ("a/c.txt", "h2"), ("d.txt", "h3")] :
        List (String × String)).map Prod.fst).Nodup ∧
      (∀ p ∈ ([("a/b.txt", "h1"), ("a/c.txt", "h2"), ("d.txt", "h3")] :
        List (String × String)).map Prod.fst, normalPath p = true) ∧
      (∀ p ∈ ([("a/b.txt", "h1"), ("a/c.txt", "h2"), ("d.txt", "h3")] :
          List (String × String)).map Prod.fst,
        ∀ q ∈ ([("a/b.txt", "h1"), ("a/c.txt", "h2"), ("d.txt", "h3")] :
          List (String × String)).map Prod.fst,
        (pathParts p).isPrefixOf (pathParts q) = true → p = q)) ∧
    alookup (build_merkle_tree
        [("a/b.txt", "h1"), ("a/c.txt", "h2"), ("d.txt", "h3")])
      "a/b.txt" = some ("h1", false) :=
  ⟨⟨by decide, by decide, by decide⟩,
    (build_merkle_tree_correct
        [("a/b.txt", "h1"), ("a/c.txt", "h2"), ("d.txt", "h3")]
        (by decide) (by decide) (by decide)).1
      "a/b.txt" "h1" (by decide)⟩

/-! ### Ingest pipeline (src/craigpy/indexer/pipeline.py, ingest_repo)

The persistent state visible to `ingest_repo` is modeled as: the repository's
stored merkle rows (node_path → (node_hash, is_directory)), the SQLite file
records keyed by path (represented by their content hash), the ChromaDB
collection keyed by chunk id (document text plus the file_path metadata used
by deletion), and the repository's last-ingest timestamp. The filesystem walk
result is passed as `disk` (relative path → file content, in walk order), so
`hash_file` becomes `hash_content` of the content. Repo-record creation,
progress logging and skipped-file bookkeeping are outside both ingest claims
and are not modeled. -/

/-- The state read and written by one `ingest_repo` call for one repository. -/
structure RepoState where
  merkle : List (String × (String × Bool))
  files : List (String × String)
  chroma : List (String × (String × String))
  ingested_at : Nat
deriving DecidableEq

/-- The summary dict returned by `ingest_repo`. -/
structure IngestResult where
  added : Nat
  modified : Nat
  deleted : Nat
  chunks : Nat
deriving DecidableEq

/-- `_delete_file_chunks_from_chroma`: drop every entry whose `file_path`
metadata equals `fp` (get-by-where then delete-by-ids). -/
def deleteFileChunks (chroma : List (String × (String × String))) (fp : String) :
    List (String × (String × String)) :=
  chroma.filter fun e => decide (e.2.2 ≠ fp)

/-- `_upsert_chunks_to_chroma`: upsert each chunk under its `chunk_hash` id
(batching in groups of 500 is equivalent to sequential upserts). -/
def upsertChunks :
    List (String × (String × String)) → List Chunk → String →
    List (String × (String × String))
  | ch, [], _ => ch
  | ch, c :: rest, fp => upsertChunks (dictSet ch c.chunk_hash (c.content, fp)) rest fp

/-- The `for rel_path in changeset.deleted` chroma loop. -/
def deleteChunksMany :
    List (String × (String × String)) → List String →
    List (String × (String × String))
  | ch, [] => ch
  | ch, rel :: rest => deleteChunksMany (deleteFileChunks ch rel) rest

/-- `queries.batch_upsert_merkle_nodes`: upsert every tree node by path. -/
def upsertMerkle :
    List (String × (String × Bool)) → List (String × (String × Bool)) →
    List (String × (String × Bool))
  | m, [] => m
  | m, n :: rest => upsertMerkle (dictSet m n.1 n.2) rest

/-- The `for i, rel_path in enumerate(files_to_process)` loop: read the file
(skip on failure), delete old chunks when the file is in `modified`, chunk,
upsert to chroma, and upsert the file record; returns the state and the chunk
total. -/
def ingestFiles (modified : List String) (disk file_hashes : List (String × String))
    (tt ot : Nat) : RepoState → List String → RepoState × Nat
  | st, [] => (st, 0)
  | st, rel :: rest =>
    match alookup disk rel with
    | none => ingestFiles modified disk file_hashes tt ot st rest
    | some content =>
      let st1 := if rel ∈ modified then
          { st with chroma := deleteFileChunks st.chroma rel } else st
      let st2 := { st1 with
        chroma := upsertChunks st1.chroma (chunk_file content rel tt ot) rel }
      let st3 := { st2 with
        files := dictSet st2.files rel ((alookup file_hashes rel).getD "") }
      let r := ingestFiles modified disk file_hashes tt ot st3 rest
      (r.1, (chunk_file content rel tt ot).length + r.2)

/-- The tail of `ingest_repo` after a changeset is available: process
added+modified files, handle deletions, upsert the rebuilt merkle tree, drop
deleted merkle nodes, and stamp the timestamp. -/
def ingestProcess (st : RepoState) (disk file_hashes : List (String × String))
    (cs : Changeset) (tt ot now : Nat) : RepoState × IngestResult :=
  let step := ingestFiles cs.modified disk file_hashes tt ot st (cs.added ++ cs.modified)
  let st1 := step.1
  let st2 := { st1 with chroma := deleteChunksMany st1.chroma cs.deleted }
  let st3 := if cs.deleted.isEmpty then st2
    else { st2 with files := st2.files.filter fun f => decide (f.1 ∉ cs.deleted) }
  let st4 := { st3 with merkle := upsertMerkle st3.merkle (build_merkle_tree file_hashes) }
  let st5 := if cs.deleted.isEmpty then st4
    else { st4 with merkle := st4.merkle.filter fun n => decide (n.1 ∉ cs.deleted) }
  ({ st5 with ingested_at := now },
    ⟨cs.added.length, cs.modified.length, cs.deleted.length, step.2⟩)

/-- `ingest_repo` (lines 146–264): hash the walked files, branch on `force`
(all-added changeset vs differ), early-return with only a timestamp bump when
nothing changed, otherwise run the full pipeline. -/
def ingest_repo (st : RepoState) (disk : List (String × String)) (force : Bool)
    (tt ot now : Nat) : RepoState × IngestResult :=
  let file_hashes := disk.map fun pr => (pr.1, hash_content pr.2)
  match force with
  | true =>
      ingestProcess st disk file_hashes
        ⟨file_hashes.map Prod.fst, [], []⟩ tt ot now
  | false =>
      let cs := compute_changeset
        (st.merkle.map fun pr => ⟨pr.1, pr.2.1, pr.2.2⟩) file_hashes
      if cs.has_changes = false then
        ({ st with ingested_at := now }, ⟨0, 0, 0, 0⟩)
      else ingestProcess st disk file_hashes cs tt ot now

/-- When the stored file leaves agree with the current hashes as dictionaries,
the differ reports the empty changeset. -/
theorem compute_changeset_self_empty (rows : List MerkleRow)
    (cur : List (String × String)) (hnd : (cur.map Prod.fst).Nodup)
    (H : ∀ p, alookup (stored_files rows) p = alookup cur p) :
    compute_changeset rows cur = ⟨[], [], []⟩ := by
  have hadd : cur.filter (fun pc => (alookup (stored_files rows) pc.1).isNone) = [] := by
    rw [List.filter_eq_nil_iff]
    intro pc hpc
    rw [H pc.1, alookup_of_mem hnd hpc]
    simp
  have hmod : cur.filter (fun pc =>
      match alookup (stored_files rows) pc.1 with
      | none => false
      | some h => h != pc.2) = [] := by
    rw [List.filter_eq_nil_iff]
    intro pc hpc
    rw [H pc.1, alookup_of_mem hnd hpc]
    simp
  have hdel : (stored_files rows).filter
      (fun ph => (alookup cur ph.1).isNone) = [] := by
    rw [List.filter_eq_nil_iff]
    intro ph hph
    rw [← H ph.1]
    have : (alookup (stored_files rows) ph.1).isSome = true :=
      alookup_isSome.mpr (List.mem_map.mpr ⟨ph, hph, rfl⟩)
    rcases hx : alookup (stored_files rows) ph.1 with _ | v
    · rw [hx] at this; simp at this
    · simp
  simp only [compute_changeset, hadd, hmod, hdel]
  rfl

/-- C4: when the walked filesystem state is unchanged since the last ingest
(the stored file leaves equal the current path→hash mapping), `ingest_repo`
with `force=false` detects an empty changeset, mutates only the repository's
last-ingest timestamp — file records, merkle nodes and chroma chunks are
returned exactly as stored — and reports zero added/modified/deleted/chunks. -/
theorem ingest_repo_no_change (st : RepoState) (disk : List (String × String))
    (tt ot now : Nat)
    (hnd : ((disk.map fun pr => (pr.1, hash_content pr.2)).map Prod.fst).Nodup)
    (H : ∀ p, alookup (stored_files
        (st.merkle.map fun pr => ⟨pr.1, pr.2.1, pr.2.2⟩)) p =
      alookup (disk.map fun pr => (pr.1, hash_content pr.2)) p) :
    (compute_changeset (st.merkle.map fun pr => ⟨pr.1, pr.2.1, pr.2.2⟩)
      (disk.map fun pr => (pr.1, hash_content pr.2))).has_changes = false ∧
    ingest_repo st disk false tt ot now =
      ({ st with ingested_at := now }, ⟨0, 0, 0, 0⟩) := by
  have hcs := compute_changeset_self_empty _ _ hnd H
  have hflat : (compute_changeset (st.merkle.map fun pr => ⟨pr.1, pr.2.1, pr.2.2⟩)
      (disk.map fun pr => (pr.1, hash_content pr.2))).has_changes = false := by
    rw [hcs]
    rfl
  refine ⟨hflat, ?_⟩
  simp only [ingest_repo]
  rw [if_pos hflat]

/-- Witness for C4: a one-file repository whose stored leaf hash matches the
current content hash is re-ingested with `force=false`; only the timestamp
moves and all counts are zero. -/
theorem ingest_repo_no_change_witness :
    ((([("a.txt", "hello")] : List (String × String)).map
        (fun pr => (pr.1, hash_content pr.2))).map Prod.fst).Nodup ∧
    (∀ p, alookup (stored_files
        (((RepoState.mk [("a.txt", (hash_content "hello", false))]
            [("a.txt", hash_content "hello")] [("id0", ("doc", "a.txt"))] 3).merkle).map
          fun pr => ⟨pr.1, pr.2.1, pr.2.2⟩)) p =
      alookup (([("a.txt", "hello")] : List (String × String)).map
        fun pr => (pr.1, hash_content pr.2)) p) ∧
    ingest_repo
        (RepoState.mk [("a.txt", (hash_content "hello", false))]
          [("a.txt", hash_content "hello")] [("id0", ("doc", "a.txt"))] 3)
        [("a.txt", "hello")] false 500 64 7 =
      ({ RepoState.mk [("a.txt", (hash_content "hello", false))]
          [("a.txt", hash_content "hello")] [("id0", ("doc", "a.txt"))] 3 with
            ingested_at := 7 }, ⟨0, 0, 0, 0⟩) :=
  ⟨by decide, fun p => rfl,
    (ingest_repo_no_change
        (RepoState.mk [("a.txt", (hash_content "hello", false))]
          [("a.txt", hash_content "hello")] [("id0", ("doc", "a.txt"))] 3)
        [("a.txt", "hello")] 500 64 7 (by decide) (fun p => rfl)).2⟩

theorem upsertChunks_preserve :
    ∀ (chunks : List Chunk) (ch : List (String × (String × String)))
      (fp id : String) (v : String × String),
      alookup ch id = some v →
      id ∉ chunks.map Chunk.chunk_hash →
      alookup (upsertChunks ch chunks fp) id = some v := by
  intro chunks
  induction chunks with
  | nil => intro ch fp id v h _; exact h
  | cons c rest ih =>
    intro ch fp id v h hnot
    simp only [List.map_cons, List.mem_cons, not_or] at hnot
    rw [upsertChunks]
    exact ih _ _ _ _ (by rw [alookup_dictSet_ne _ _ _ hnot.1]; exact h) hnot.2

theorem upsertChunks_isSome :
    ∀ (chunks : List Chunk) (ch : List (String × (String × String)))
      (fp id : String),
      (alookup ch id).isSome = true →
      (alookup (upsertChunks ch chunks fp) id).isSome = true := by
  intro chunks
  induction chunks with
  | nil => intro ch fp id h; exact h
  | cons c rest ih =>
    intro ch fp id h
    rw [upsertChunks]
    exact ih _ _ _ ((isSome_alookup_dictSet _ _ _ _).mpr (Or.inl h))

theorem upsertChunks_mem :
    ∀ (chunks : List Chunk) (ch : List (String × (String × String)))
      (fp : String) (c : Chunk), c ∈ chunks →
      (alookup (upsertChunks ch chunks fp) c.chunk_hash).isSome = true := by
  intro chunks
  induction chunks with
  | nil => intro ch fp c h; simp at h
  | cons c0 rest ih =>
    intro ch fp c h
    rw [upsertChunks]
    rcases List.mem_cons.mp h with h | h
    · subst h
      exact upsertChunks_isSome rest _ fp _
        ((isSome_alookup_dictSet _ _ _ _).mpr (Or.inr rfl))
    · exact ih _ _ _ h

theorem ingestFiles_preserve (disk fhs : List (String × String)) (tt ot : Nat) :
    ∀ (rels : List String) (st : RepoState) (id : String) (v : String × String),
      alookup st.chroma id = some v →
      (∀ rel content, alookup disk rel = some content →
        id ∉ (chunk_file content rel tt ot).map Chunk.chunk_hash) →
      alookup (ingestFiles [] disk fhs tt ot st rels).1.chroma id = some v := by
  intro rels
  induction rels with
  | nil => intro st id v h _; exact h
  | cons rel rest ih =>
    intro st id v h hno
    cases hx : alookup disk rel with
    | none =>
      simp only [ingestFiles, hx]
      exact ih st id v h hno
    | some content =>
      simp only [ingestFiles, hx]
      rw [if_neg (List.not_mem_nil rel)]
      exact ih _ id v
        (upsertChunks_preserve _ _ _ _ _ h (hno rel content hx)) hno

theorem ingestFiles_isSome (disk fhs : List (String × String)) (tt ot : Nat) :
    ∀ (rels : List String) (st : RepoState) (id : String),
      (alookup st.chroma id).isSome = true →
      (alookup (ingestFiles [] disk fhs tt ot st rels).1.chroma id).isSome = true := by
  intro rels
  induction rels with
  | nil => intro st id h; exact h
  | cons rel rest ih =>
    intro st id h
    cases hx : alookup disk rel with
    | none =>
      simp only [ingestFiles, hx]
      exact ih st id h
    | some content =>
      simp only [ingestFiles, hx]
      rw [if_neg (List.not_mem_nil rel)]
      exact ih _ id (upsertChunks_isSome _ _ _ _ h)

theorem ingestFiles_chunks_present (disk fhs : List (String × String)) (tt ot : Nat) :
    ∀ (rels : List String) (st : RepoState) (rel content : String),
      rel ∈ rels → alookup disk rel = some content →
      ∀ ch ∈ chunk_file content rel tt ot,
        (alookup (ingestFiles [] disk fhs tt ot st rels).1.chroma
          ch.chunk_hash).isSome = true := by
  intro rels
  induction rels with
  | nil => intro st rel content h; simp at h
  | cons r0 rest ih =>
    intro st rel content hmem hdisk ch hch
    rcases List.mem_cons.mp hmem with h | h
    · subst h
      simp only [ingestFiles, hdisk]
      rw [if_neg (List.not_mem_nil rel)]
      exact ingestFiles_isSome disk fhs tt ot rest _ _
        (upsertChunks_mem _ _ _ _ hch)
    · cases hx : alookup disk r0 with
      | none =>
        simp only [ingestFiles, hx]
        exact ih _ rel content h hdisk ch hch
      | some content0 =>
        simp only [ingestFiles, hx]
        rw [if_neg (List.not_mem_nil r0)]
        exact ih _ rel content h hdisk ch hch

/-- C10: with `force=true` the changeset classifies every walked file as added
(modified and deleted are empty, so the per-file chroma deletion is never
invoked), and every pre-existing chroma entry whose id is not among the newly
upserted chunk hashes survives unchanged — a changed file keeps its
old-content chunks alongside the newly upserted ones, which are all present. -/
theorem ingest_repo_force_correct (st : RepoState) (disk : List (String × String))
    (tt ot now : Nat) :
    ((ingest_repo st disk true tt ot now).2.added = disk.length ∧
      (ingest_repo st disk true tt ot now).2.modified = 0 ∧
      (ingest_repo st disk true tt ot now).2.deleted = 0) ∧
    (∀ id v, alookup st.chroma id = some v →
      (∀ rel content, alookup disk rel = some content →
        id ∉ (chunk_file content rel tt ot).map Chunk.chunk_hash) →
      alookup (ingest_repo st disk true tt ot now).1.chroma id = some v) ∧
    (∀ rel content, rel ∈ disk.map Prod.fst →
      alookup disk rel = some content →
      ∀ ch ∈ chunk_file content rel tt ot,
        (alookup (ingest_repo st disk true tt ot now).1.chroma
          ch.chunk_hash).isSome = true) := by
  have hkeys : ((disk.map fun pr => (pr.1, hash_content pr.2)).map Prod.fst) =
      disk.map Prod.fst := by
    rw [List.map_map]
    rfl
  refine ⟨⟨?_, rfl, rfl⟩, ?_, ?_⟩
  · show ((disk.map fun pr => (pr.1, hash_content pr.2)).map Prod.fst).length =
      disk.length
    simp
  · intro id v h hno
    show alookup (ingestFiles [] disk
        (disk.map fun pr => (pr.1, hash_content pr.2)) tt ot st
        (((disk.map fun pr => (pr.1, hash_content pr.2)).map Prod.fst) ++
          [])).1.chroma id = some v
    exact ingestFiles_preserve disk _ tt ot _ st id v h hno
  · intro rel content hmem hdisk ch hch
    show (alookup (ingestFiles [] disk
        (disk.map fun pr => (pr.1, hash_content pr.2)) tt ot st
        (((disk.map fun pr => (pr.1, hash_content pr.2)).map Prod.fst) ++
          [])).1.chroma ch.chunk_hash).isSome = true
    apply ingestFiles_chunks_present disk _ tt ot _ st rel content ?_ hdisk ch hch
    rw [hkeys]
    exact List.mem_append_left _ hmem

set_option maxRecDepth 100000 in
/-- Witness for C10: a force re-ingest of a one-file repository leaves a
pre-existing chroma entry (an old-content chunk id) untouched and reports no
modified or deleted files. -/
theorem ingest_repo_force_correct_witness :
    (ingest_repo (RepoState.mk [] [] [("oldid", ("old doc", "a.txt"))] 0)
        [("a.txt", "hi")] true 500 64 7).2.modified = 0 ∧
    (ingest_repo (RepoState.mk [] [] [("oldid", ("old doc", "a.txt"))] 0)
        [("a.txt", "hi")] true 500 64 7).2.deleted = 0 ∧
    alookup (ingest_repo (RepoState.mk [] [] [("oldid", ("old doc", "a.txt"))] 0)
        [("a.txt", "hi")] true 500 64 7).1.chroma "oldid" =
      some ("old doc", "a.txt") :=
  ⟨(ingest_repo_force_correct (RepoState.mk [] [] [("oldid", ("old doc", "a.txt"))] 0)
      [("a.txt", "hi")] 500 64 7).1.2.1,
   (ingest_repo_force_correct (RepoState.mk [] [] [("oldid", ("old doc", "a.txt"))] 0)
      [("a.txt", "hi")] 500 64 7).1.2.2,
   (ingest_repo_force_correct (RepoState.mk [] [] [("oldid", ("old doc", "a.txt"))] 0)
      [("a.txt", "hi")] 500 64 7).2.1 "oldid" ("old doc", "a.txt") (by decide)
     (fun rel content h => by
        simp only [alookup] at h
        by_cases hc : "a.txt" = rel
        · subst hc
          rw [if_pos rfl] at h
          have hcontent : content = "hi" := by
            injection h with h'
            exact h'.symm
          subst hcontent
          decide
        · rw [if_neg hc] at h
          exact Option.noConfusion h)⟩

end Craigpy
